import Mathlib

/-!
# go-dc: NMDC user records and the line-protocol writer

A shallow embedding of `nmdc/user.go` (the `MyINFO` and `UserIP` codecs) and of
`lineproto/writer.go` (the buffered, batching `Writer`), followed by the
properties proved about them.

Conventions of the embedding:

* a Go `[]byte` or `string` is a `List Nat` of byte values (`Bytes`);
* Go `int` is the 64-bit signed integer type, embedded in `Int`; `uint64` is
  embedded in `Nat`; range checks of the `strconv` functions are explicit;
* a Go function that mutates its receiver and returns an `error` becomes a
  function from the old record to the new record together with the error;
* a slice expression whose bounds are not established by a preceding guard is
  evaluated by a checked operation, and a failed check is the outcome `panic`.
-/

namespace GoDC

/-! ## Byte strings and the `bytes` / `strings` helpers -/

/-- A Go byte slice or string: the list of its byte values. -/
abbrev Bytes := List Nat

/-- The bytes of an ASCII string literal. -/
def str (s : String) : Bytes := s.toList.map Char.toNat

/-- Go `bytes.HasPrefix(s, p)`. -/
def hasPrefix : Bytes → Bytes → Bool
  | _, [] => true
  | [], _ :: _ => false
  | a :: s, b :: p => a == b && hasPrefix s p

/-- Go `bytes.HasSuffix(s, p)`. -/
def hasSuffix (s p : Bytes) : Bool := hasPrefix s.reverse p.reverse

/-- Go `bytes.Index(s, sep)`: the index of the first occurrence of `sep` in
`s`, `none` standing for the result `-1`. -/
def index (sep : Bytes) : Bytes → Option Nat
  | [] => if hasPrefix [] sep then some 0 else none
  | c :: cs =>
    if hasPrefix (c :: cs) sep then some 0
    else match index sep cs with
      | some i => some (i + 1)
      | none => none

/-- Go `bytes.LastIndex(s, sep)`: the index of the last occurrence of `sep` in
`s`, `none` standing for the result `-1`. -/
def lastIndex (sep : Bytes) : Bytes → Option Nat
  | [] => if hasPrefix [] sep then some 0 else none
  | c :: cs =>
    match lastIndex sep cs with
    | some i => some (i + 1)
    | none => if hasPrefix (c :: cs) sep then some 0 else none

/-- Go `bytes.TrimPrefix(s, p)`. -/
def trimPrefix (s p : Bytes) : Bytes :=
  if hasPrefix s p then s.drop p.length else s

/-- Go `bytes.TrimSuffix(s, p)`. -/
def trimSuffix (s p : Bytes) : Bytes :=
  if hasSuffix s p then s.take (s.length - p.length) else s

/-- Go `bytes.SplitN(s, []byte{sep}, n)` (and `strings.SplitN`) for `n ≥ 0` and
a one-byte separator, the only kind of separator the codecs use: at most `n`
pieces, the last one being the unsplit remainder. -/
def splitN (sep : Nat) : Nat → Bytes → List Bytes
  | 0, _ => []
  | _ + 1, [] => [[]]
  | n + 1, c :: cs =>
    if n = 0 then [c :: cs]
    else if c = sep then [] :: splitN sep n cs
    else match splitN sep (n + 1) cs with
      | [] => [[c]]
      | f :: fs => (c :: f) :: fs

/-- Go `bytes.Split(s, []byte{sep})` for a one-byte separator: all pieces. -/
def split (sep : Nat) : Bytes → List Bytes
  | [] => [[]]
  | c :: cs =>
    if c = sep then [] :: split sep cs
    else match split sep cs with
      | [] => [[c]]
      | f :: fs => (c :: f) :: fs

/-- Checked slice expression `s[:k]` for a signed bound `k`: `none` is the
run-time panic "slice bounds out of range". -/
def sliceTo (s : Bytes) (k : Int) : Option Bytes :=
  if 0 ≤ k ∧ k ≤ (s.length : Int) then some (s.take k.toNat) else none

/-- The white-space code points of `unicode.IsSpace`, each as the bytes of its
UTF-8 encoding: the six ASCII ones, U+0085, U+00A0, U+1680, U+2000..U+200A,
U+2028, U+2029, U+202F, U+205F and U+3000. -/
def spaceRunes : List Bytes :=
  [[9], [10], [11], [12], [13], [32],
   [0xC2, 0x85], [0xC2, 0xA0], [0xE1, 0x9A, 0x80],
   [0xE2, 0x80, 0x80], [0xE2, 0x80, 0x81], [0xE2, 0x80, 0x82], [0xE2, 0x80, 0x83],
   [0xE2, 0x80, 0x84], [0xE2, 0x80, 0x85], [0xE2, 0x80, 0x86], [0xE2, 0x80, 0x87],
   [0xE2, 0x80, 0x88], [0xE2, 0x80, 0x89], [0xE2, 0x80, 0x8A],
   [0xE2, 0x80, 0xA8], [0xE2, 0x80, 0xA9], [0xE2, 0x80, 0xAF], [0xE2, 0x81, 0x9F],
   [0xE3, 0x80, 0x80]]

/-- Width in bytes of the white-space rune `s` starts with, among the given
encodings; `0` when `s` starts with none of them. -/
def leadWidth (runes : List Bytes) (s : Bytes) : Nat :=
  match runes.find? (fun t => hasPrefix s t) with
  | some t => t.length
  | none => 0

/-- Strip leading runes among `runes`, at most `fuel` of them. -/
def trimLeftAux (runes : List Bytes) : Nat → Bytes → Bytes
  | 0, s => s
  | fuel + 1, s =>
    if leadWidth runes s = 0 then s
    else trimLeftAux runes fuel (s.drop (leadWidth runes s))

/-- Go `bytes.TrimLeftFunc(s, unicode.IsSpace)`. A rune has at least one byte,
so `s.length` rounds suffice. -/
def trimLeft (s : Bytes) : Bytes := trimLeftAux spaceRunes s.length s

/-- Go `bytes.TrimRightFunc(s, unicode.IsSpace)`: the trailing runes are
recognised on the reversed string against the reversed encodings. -/
def trimRight (s : Bytes) : Bytes :=
  (trimLeftAux (spaceRunes.map List.reverse) s.length s.reverse).reverse

/-- Go `bytes.TrimSpace(s)` and `strings.TrimSpace(s)`: leading and trailing
white space removed. (The ASCII fast path of the library computes the same
result as the general rune-wise path it falls back to.) -/
def trimSpace (s : Bytes) : Bytes := trimRight (trimLeft s)

/-! ## The `strconv` helpers -/

/-- The two kinds of `strconv.NumError`. -/
inductive NumErr where
  | syntax_
  | range
  deriving DecidableEq, Repr

/-- The largest `uint64`. -/
def maxUint64 : Nat := 2 ^ 64 - 1

/-- The digit loop of `strconv.ParseUint(s, 10, 64)`: `n` is the value read so
far. A byte that is not a decimal digit is a syntax error with value `0`; a
digit that would take the value past 64 bits stops the loop at once with the
value `maxUint64` and a range error. -/
def parseUintLoop : Bytes → Nat → Nat × Option NumErr
  | [], n => (n, none)
  | c :: cs, n =>
    if 48 ≤ c ∧ c ≤ 57 then
      if n ≥ maxUint64 / 10 + 1 then (maxUint64, some NumErr.range)
      else
        let n1 := (n * 10 + (c - 48)) % 2 ^ 64
        if n1 < n * 10 ∨ n1 > maxUint64 then (maxUint64, some NumErr.range)
        else parseUintLoop cs n1
    else (0, some NumErr.syntax_)

/-- Go `strconv.ParseUint(s, 10, 64)`: the value returned together with the
error (`none` for `nil`). -/
def parseUint (s : Bytes) : Nat × Option NumErr :=
  if s = [] then (0, some NumErr.syntax_) else parseUintLoop s 0

/-- Go `strconv.ParseInt(s, 10, 64)`: an optional sign, then `ParseUint`, then
the range check of the signed type. -/
def parseInt (s : Bytes) : Int × Option NumErr :=
  match s with
  | [] => (0, some NumErr.syntax_)
  | c :: cs =>
    let neg : Bool := c = 45
    let digits : Bytes := if c = 43 ∨ c = 45 then cs else c :: cs
    match parseUint digits with
    | (_, some NumErr.syntax_) => (0, some NumErr.syntax_)
    | (un, _) =>
      if !neg ∧ un ≥ 2 ^ 63 then ((2 : Int) ^ 63 - 1, some NumErr.range)
      else if neg ∧ un > 2 ^ 63 then (-(2 : Int) ^ 63, some NumErr.range)
      else (if neg then -(un : Int) else (un : Int), none)

/-- Go `strconv.Atoi(s)` on a 64-bit platform. Its fast path for short inputs
returns what `ParseInt(s, 10, 0)` returns, which is the definition taken here. -/
def atoi (s : Bytes) : Int × Option NumErr := parseInt s

/-- Decimal digits of `n`, most significant first, in front of `acc`. -/
def formatAux : Nat → Nat → Bytes → Bytes
  | 0, _, acc => acc
  | fuel + 1, n, acc =>
    if n < 10 then (48 + n) :: acc
    else formatAux fuel (n / 10) ((48 + n % 10) :: acc)

/-- Go `strconv.FormatUint(n, 10)`. -/
def formatUint (n : Nat) : Bytes := formatAux (n + 1) n []

/-- Go `strconv.Itoa(i)`. -/
def itoa (i : Int) : Bytes :=
  if i < 0 then 45 :: formatUint i.natAbs else formatUint i.toNat

/-! ## `nmdc/user.go`: the records -/

/-- The errors the decoders return. `codec` stands for an error reported by the
`Name` / `String` field codecs; the others are the `errors.New` / `fmt.Errorf`
sites of `user.go`, with the value they quote. -/
inductive Err where
  | codec (code : Nat)
  | wrongPrefix
  | noSeparators
  | badInfo (data : Bytes)
  | emptyTag
  | legacyMode (field : Bytes)
  | unknownTagField (field : Bytes)
  | badHubs (val : Bytes)
  | hubsNormal (e : NumErr)
  | hubsRegistered (e : NumErr)
  | hubsOperator (e : NumErr)
  | badSlots (val : Bytes)
  deriving DecidableEq, Repr

/-- Outcome of a Go call that updates a record of type `α` and returns an
`error`. -/
inductive Res (α : Type) where
  /-- the call returned `nil`; `v` is the record after the call -/
  | ok (v : α)
  /-- the call returned the error `e`; `v` is the record as the call left it -/
  | fail (e : Err) (v : α)
  /-- the call ended in a run-time panic -/
  | panic
  deriving DecidableEq, Repr

/-- The `Name` and `String` field codecs (`Name.MarshalNMDC`,
`Name.UnmarshalNMDC`, `String.MarshalNMDC`, `String.UnmarshalNMDC`) together
with the `TextEncoder` / `TextDecoder` they are given. They are declared
outside `user.go`; the records are decoded and encoded relative to them. -/
structure TextCodec where
  marshalName : Bytes → Except Err Bytes
  unmarshalName : Bytes → Except Err Bytes
  marshalString : Bytes → Except Err Bytes
  unmarshalString : Bytes → Except Err Bytes

/-- A codec that escapes nothing: every field is its own wire form. It is the
behaviour of the field codecs on plain text without reserved characters. -/
def plainCodec : TextCodec where
  marshalName := fun s => Except.ok s
  unmarshalName := fun s => Except.ok s
  marshalString := fun s => Except.ok s
  unmarshalString := fun s => Except.ok s

def UserModeUnknown : Nat := 0
def UserModeActive : Nat := 65
def UserModePassive : Nat := 80
def UserModeSOCKS5 : Nat := 53

def FlagStatusNormal : Nat := 0x01
def FlagStatusAway : Nat := 0x02
def FlagStatusServer : Nat := 0x04
def FlagStatusFireball : Nat := 0x08
def FlagTLSDownload : Nat := 0x10
def FlagTLSUpload : Nat := 0x20
def FlagIPv4 : Nat := 0x40
def FlagIPv6 : Nat := 0x80

/-- Go `map[string]string`, as the list of its entries in iteration order
(which the language leaves unspecified); the keys are pairwise distinct. The
`nil` map and the empty map are both the empty list: the code only ranges over
the map and takes its length. -/
abbrev StrMap := List (Bytes × Bytes)

/-- The map assignment `mp[k] = v`. -/
def mapSet : StrMap → Bytes → Bytes → StrMap
  | [], k, v => [(k, v)]
  | (k1, v1) :: rest, k, v =>
    if k1 = k then (k, v) :: rest else (k1, v1) :: mapSet rest k v

/-- The record `MyINFO`; the default values are the zero value. -/
structure MyINFO where
  Name : Bytes := []
  Desc : Bytes := []
  Client : Bytes := []
  Version : Bytes := []
  Mode : Nat := 0
  HubsNormal : Int := 0
  HubsRegistered : Int := 0
  HubsOperator : Int := 0
  Slots : Int := 0
  Extra : StrMap := []
  Conn : Bytes := []
  Flag : Nat := 0
  Email : Bytes := []
  ShareSize : Nat := 0
  deriving DecidableEq, Repr

/-- The record `UserIP`; the default values are the zero value. -/
structure UserIP where
  Name : Bytes := []
  IP : Bytes := []
  deriving DecidableEq, Repr

/-! ## `MyINFO.MarshalNMDC` -/

/-- The loop `for name, value := range m.Extra` of `MarshalNMDC`, appending to
the buffer `buf`. -/
def writeExtra (buf : Bytes) : StrMap → Bytes
  | [] => buf
  | (name, value) :: rest =>
    writeExtra (buf ++ str "," ++ name ++ str ":" ++ value) rest

/-- The part of `MyINFO.MarshalNMDC` after the two escaped fields: the tag and
the remaining fields, appended to `buf` by the successive `buf.Write...`. -/
def marshalRest (m : MyINFO) (buf : Bytes) : Bytes :=
  let buf := buf ++ str "<"
  let buf := buf ++ m.Client
  let buf := buf ++ str " "
  let buf := buf ++ str "V:"
  let buf := buf ++ m.Version
  let buf := buf ++ str ",M:"
  let buf :=
    if m.Mode ≠ UserModeUnknown ∧ m.Mode ≠ 32 then buf ++ [m.Mode] else buf ++ [32]
  let buf := buf ++ str ",H:"
  let buf := buf ++ itoa m.HubsNormal
  let buf := buf ++ str "/"
  let buf := buf ++ itoa m.HubsRegistered
  let buf := buf ++ str "/"
  let buf := buf ++ itoa m.HubsOperator
  let buf := buf ++ str ",S:"
  let buf := buf ++ itoa m.Slots
  let buf := writeExtra buf m.Extra
  let buf := buf ++ str ">"
  let buf := buf ++ str "$ $"
  let buf := buf ++ m.Conn
  let buf := if m.Flag = 0 then buf ++ [FlagStatusNormal] else buf ++ [m.Flag]
  let buf := buf ++ str "$"
  let buf := buf ++ m.Email
  let buf := buf ++ str "$"
  let buf := buf ++ formatUint m.ShareSize
  buf ++ str "$"

/-- `MyINFO.MarshalNMDC` on an empty buffer: the bytes written, or the error of
a field codec. -/
def MyINFO.MarshalNMDC (c : TextCodec) (m : MyINFO) : Except Err Bytes :=
  let buf := str "$ALL "
  match c.marshalName m.Name with
  | Except.error e => Except.error e
  | Except.ok name =>
    let buf := buf ++ name
    let buf := buf ++ str " "
    match c.marshalString m.Desc with
    | Except.error e => Except.error e
    | Except.ok desc =>
      let buf := buf ++ desc
      Except.ok (marshalRest m buf)

/-! ## `MyINFO.unmarshalTag` -/

/-- The variables the loop of `unmarshalTag` updates: the record, `client` and
`extra`. -/
structure TagState where
  m : MyINFO
  client : Bytes
  extra : StrMap
  deriving DecidableEq, Repr

/-- The `case "H", "h"` branch for a non-empty value. -/
def tagHubs (st : TagState) (val : Bytes) : TagState × Option Err :=
  match splitN 47 4 val with
  | [h0, h1, h2] =>
    let r0 := atoi (trimSpace h0)
    let st := { st with m := { st.m with HubsNormal := r0.1 } }
    match r0.2 with
    | some e => (st, some (Err.hubsNormal e))
    | none =>
      let r1 := atoi (trimSpace h1)
      let st := { st with m := { st.m with HubsRegistered := r1.1 } }
      match r1.2 with
      | some e => (st, some (Err.hubsRegistered e))
      | none =>
        let r2 := atoi (trimSpace h2)
        let st := { st with m := { st.m with HubsOperator := r2.1 } }
        match r2.2 with
        | some e => (st, some (Err.hubsOperator e))
        | none => (st, none)
  | _ => (st, some (Err.badHubs val))

/-- One round of the loop `for r, field := range tags` of `unmarshalTag`: the
state after the round and the error the round returns, if any. -/
def tagField (st : TagState) (r : Nat) (field : Bytes) : TagState × Option Err :=
  if field.length = 0 then (st, none)
  else match index (str ":") field with
    | none =>
      if r < 1 then ({ st with client := field }, none)
      else (st, some (Err.unknownTagField field))
    | some i =>
      let key := field.take i
      let val := field.drop (i + 1)
      if key = str "V" ∨ key = str "v" then
        ({ st with m := { st.m with Version := val } }, none)
      else if key = str "M" ∨ key = str "m" then
        if val.length = 1 then
          ({ st with m := { st.m with Mode := val.headD 0 } }, none)
        else ({ st with m := { st.m with Mode := UserModeUnknown } }, none)
      else if key = str "H" ∨ key = str "h" then
        if val.length = 0 then
          ({ st with m := { st.m with HubsNormal := 1 } }, none)
        else tagHubs st val
      else if key = str "S" ∨ key = str "s" then
        let r0 := atoi (trimSpace val)
        let st := { st with m := { st.m with Slots := r0.1 } }
        match r0.2 with
        | some _ => (st, some (Err.badSlots val))
        | none => (st, none)
      else ({ st with extra := mapSet st.extra key val }, none)

/-- The loop `for r, field := range tags`, from index `r` on. -/
def tagLoop : TagState → Nat → List Bytes → TagState × Option Err
  | st, _, [] => (st, none)
  | st, r, field :: rest =>
    match tagField st r field with
    | (st1, some e) => (st1, some e)
    | (st1, none) => tagLoop st1 (r + 1) rest

/-- The first lines of `unmarshalTag`: the initial value of `client` and the
list `tags`, split at the marker ` V:` (or ` v:`) when there is one. -/
def tagSplit (tag : Bytes) : Bytes × List Bytes :=
  let i :=
    match index (str " V:") tag with
    | some i => some i
    | none => index (str " v:") tag
  match i with
  | none => ([], split 44 tag)
  | some i => (tag.take i, split 44 (tag.drop (i + 1)))

/-- `MyINFO.unmarshalTag`: the record after the call and the error returned. -/
def MyINFO.unmarshalTag (m : MyINFO) (tag : Bytes) : MyINFO × Option Err :=
  match tagLoop { m := m, client := (tagSplit tag).1, extra := [] } 0 (tagSplit tag).2 with
  | (st, some e) => (st.m, some e)
  | (st, none) =>
    let m := { st.m with Client := st.client }
    let m := if st.extra.length ≠ 0 then { m with Extra := st.extra } else m
    (m, none)

/-! ## `MyINFO.UnmarshalNMDC` -/

/-- The part of `MyINFO.UnmarshalNMDC` after the tag: the description and the
fields 2 to 5 (`hasTag` and `desc` as the first field left them). -/
def unmarshalFields (c : TextCodec) (m : MyINFO) (hasTag : Bool)
    (desc f2 f3 f4 f5 : Bytes) : Res MyINFO :=
  match c.unmarshalString desc with
  | Except.error e => Res.fail e m
  | Except.ok s =>
    let m := { m with Desc := s }
    if f2.length ≠ 1 then Res.fail (Err.legacyMode f2) m
    else
      let m :=
        if !hasTag then
          let m := { m with Mode := f2.headD 0 }
          if m.Mode = 32 then { m with Mode := UserModeUnknown } else m
        else m
      let m :=
        if f3.length > 0 then
          let l := f3.length
          let m := { m with Flag := f3.getLastD 0 }
          { m with Conn := f3.take (l - 1) }
        else m
      let m := { m with Email := f4 }
      let m :=
        if f5.length ≠ 0 then
          let size := (parseUint (trimSpace f5)).1
          { m with ShareSize := size }
        else m
      Res.ok m

/-- The part of `MyINFO.UnmarshalNMDC` that decodes the five fields, from the
first `next()` on. -/
def unmarshalSplit (c : TextCodec) (m : MyINFO) (f1 f2 f3 f4 f5 : Bytes) : Res MyINFO :=
  let m := { m with Mode := UserModeUnknown }
  match index (str "<") f1 with
  | none => unmarshalFields c m false f1 f2 f3 f4 f5
  | some i =>
    let desc := f1.take i
    let tag := f1.drop (i + 1)
    if tag.length = 0 then Res.fail Err.emptyTag m
    else
      let tag := if tag.getLastD 0 = 62 then tag.take (tag.length - 1) else tag
      match MyINFO.unmarshalTag m tag with
      | (m, some e) => Res.fail e m
      | (m, none) => unmarshalFields c m true desc f2 f3 f4 f5

/-- The part of `MyINFO.UnmarshalNMDC` after the name has been decoded and
stored: `data` is what follows the space after the name. -/
def unmarshalBody (c : TextCodec) (m : MyINFO) (data : Bytes) : Res MyINFO :=
  let l : Int := data.length
  match sliceTo data (l - 1) with
  | none => Res.panic
  | some body =>
    match splitN 36 6 body with
    | [f1, f2, f3, f4, f5] => unmarshalSplit c m f1 f2 f3 f4 f5
    | _ => Res.fail (Err.badInfo data) m

/-- `MyINFO.UnmarshalNMDC`, decoding `data` into the record `m`. -/
def MyINFO.UnmarshalNMDC (c : TextCodec) (m : MyINFO) (data : Bytes) : Res MyINFO :=
  if !hasPrefix data (str "$ALL ") then Res.fail Err.wrongPrefix m
  else
    let data := trimPrefix data (str "$ALL ")
    match index (str " ") data with
    | none => Res.fail Err.noSeparators m
    | some i =>
      match c.unmarshalName (data.take i) with
      | Except.error e => Res.fail e m
      | Except.ok name =>
        let data := data.drop (i + 1)
        let m := { m with Name := name }
        unmarshalBody c m data

/-! ## `UserIP` -/

/-- `UserIP.MarshalNMDC` on an empty buffer. -/
def UserIP.MarshalNMDC (c : TextCodec) (m : UserIP) : Except Err Bytes :=
  match c.marshalName m.Name with
  | Except.error e => Except.error e
  | Except.ok name =>
    let buf := name
    let buf := buf ++ str " "
    let buf := buf ++ m.IP
    Except.ok (buf ++ str "$$")

/-- `UserIP.UnmarshalNMDC`, decoding `data` into the record `m`. -/
def UserIP.UnmarshalNMDC (c : TextCodec) (m : UserIP) (data : Bytes) : Res UserIP :=
  let data := trimSuffix data (str "$$")
  let st : UserIP × Bytes :=
    match lastIndex (str " ") data with
    | some i => ({ m with IP := data.drop (i + 1) }, data.take i)
    | none => (m, data)
  match c.unmarshalName st.2 with
  | Except.error e => Res.fail e st.1
  | Except.ok name => Res.ok { st.1 with Name := name }

/-! ## `lineproto/writer.go`: the collaborators

The writer talks to the byte sink `w.w`, to the `zlib.Writer` wrapped around
the sink, to the `Timeout` callback and to the `OnLine` hooks. Each call to one
of them is recorded in a trace, and what a collaborator answers is a function
of the trace so far and of the argument, so that every deterministic sink,
compressor and hook is covered. -/

/-- A call made by the writer to one of its collaborators. -/
inductive Event where
  /-- `w.w.Write(p)`, the sink's `Write` -/
  | sinkWrite (p : Bytes)
  /-- `zlib.NewWriter(w.w)` -/
  | zlibNew
  /-- `w.zlibW.Reset(w.w)` -/
  | zlibReset
  /-- `w.zlibW.Write(p)` -/
  | zlibWrite (p : Bytes)
  /-- `w.zlibW.Flush()` -/
  | zlibFlush
  /-- `w.zlibW.Close()` -/
  | zlibClose
  /-- `w.Timeout(enable)` -/
  | timeout (enable : Bool)
  /-- the hook number `i` of `w.onLine` called on `line` -/
  | onLine (i : Nat) (line : Bytes)
  deriving DecidableEq, Repr

/-- The calls made so far, oldest first. -/
abbrev Trace := List Event

/-- An error value of the writer: one produced by a collaborator (`ext`, with a
code identifying the value) or one of the writer's own. -/
inductive WErr where
  | ext (code : Nat)
  | zlibAlreadyActive
  | zlibNotActive
  | unpairedEndBatch
  deriving DecidableEq, Repr

/-- What an `io.Writer` answers to `Write(p)`, under the contract of
`io.Writer` (`0 ≤ n ≤ len(p)`, and a non-nil error whenever `n < len(p)`):
`none` when all of `p` was written and the error is `nil`, `some (n, code)` when
`n` bytes were written and the error `ext code` is returned. -/
abbrev WriteRes := Option (Nat × Nat)

/-- The sink of a writer and the `zlib.Writer` compressing into it. -/
structure Env where
  sink : Trace → Bytes → WriteRes
  zlibWrite : Trace → Bytes → WriteRes
  zlibFlush : Trace → Option Nat
  zlibClose : Trace → Option Nat

/-- The buffer size of `bufio.NewWriter` (`defaultBufSize`). -/
def bufSize : Nat := 4096

/-- The `bufio.Writer` `w.bw`: the buffered bytes `buf[0:n]`, its own sticky
error, and whether it writes to `w.zlibW` (after `Reset(w.zlibW)`) or to the
sink `w.w`. -/
structure BufWriter where
  buf : Bytes := []
  err : Option WErr := none
  toZlib : Bool := false
  deriving DecidableEq, Repr

/-- `bufio.Writer.Size()`: the size of the underlying buffer. -/
def BufWriter.Size (_ : BufWriter) : Nat := bufSize

/-- `bufio.Writer.Reset(target)`: buffered data discarded, error cleared. -/
def BufWriter.Reset (_ : BufWriter) ( toZlib : Bool) : BufWriter :=
  { buf := [], err := none, toZlib := toZlib }

/-- The struct `Writer`, with the trace of the calls made to its collaborators.
`zlibW` tells whether the field `zlibW` is non-nil. -/
structure Writer where
  env : Env
  Timeout : Option (Trace → Bool → Option Nat) := none
  onLine : List (Trace → Bytes → Bool × Option Nat) := []
  errNolock : Option WErr := none
  bw : BufWriter := {}
  err : Option WErr := none
  lvl : Int := 0
  zlibOn : Bool := false
  zlibW : Bool := false
  trace : Trace := []

/-- `NewWriter(w)`. -/
def NewWriter (env : Env) : Writer := { env := env }

/-- `Writer.OnLine(fnc)`. -/
def Writer.OnLine (w : Writer) (fnc : Trace → Bytes → Bool × Option Nat) : Writer :=
  { w with onLine := w.onLine ++ [fnc] }

/-- `Writer.setError(err)`. -/
def Writer.setError (w : Writer) (e : WErr) : Writer :=
  { w with err := some e, errNolock := some e }

/-- `Writer.Err()`. -/
def Writer.Err (w : Writer) : Option WErr := w.errNolock

/-! ## `bufio.Writer` over the sink or the compressor -/

/-- `b.wr.Write(p)` for the `bufio.Writer` `w.bw`. -/
def Writer.wrWrite (w : Writer) (p : Bytes) : Writer × WriteRes :=
  if w.bw.toZlib then
    ({ w with trace := w.trace ++ [Event.zlibWrite p] }, w.env.zlibWrite w.trace p)
  else
    ({ w with trace := w.trace ++ [Event.sinkWrite p] }, w.env.sink w.trace p)

/-- `bufio.Writer.Flush()` on `w.bw`: nothing is written when nothing is
buffered; on a failed write the unwritten bytes stay buffered and the error
becomes the sticky error of the `bufio.Writer`. -/
def Writer.bwFlush (w : Writer) : Writer × Option WErr :=
  match w.bw.err with
  | some e => (w, some e)
  | none =>
    if w.bw.buf.length = 0 then (w, none)
    else
      match w.wrWrite w.bw.buf with
      | (w1, none) => ({ w1 with bw := { w1.bw with buf := [] } }, none)
      | (w1, some (n, code)) =>
        ({ w1 with bw := { w1.bw with buf := w1.bw.buf.drop n, err := some (WErr.ext code) } },
          some (WErr.ext code))

/-- `bufio.Writer.Write(p)` on `w.bw`. The library loops while `p` is longer
than the free space: with an empty buffer `p` is written directly to the
target, otherwise the buffer is filled and flushed. Under the `io.Writer`
contract the loop runs at most twice (fill and flush, then a direct write of a
remainder longer than the whole buffer), which is how it is written out here;
what is left of `p` at the end is copied into the buffer. -/
def Writer.bwWrite (w : Writer) (p : Bytes) : Writer × Option WErr :=
  match w.bw.err with
  | some e => (w, some e)
  | none =>
    if p.length ≤ bufSize - w.bw.buf.length then
      ({ w with bw := { w.bw with buf := w.bw.buf ++ p } }, none)
    else if w.bw.buf.length = 0 then
      match w.wrWrite p with
      | (w1, none) => (w1, none)
      | (w1, some (_, code)) =>
        ({ w1 with bw := { w1.bw with err := some (WErr.ext code) } }, some (WErr.ext code))
    else
      let avail := bufSize - w.bw.buf.length
      let w1 := { w with bw := { w.bw with buf := w.bw.buf ++ p.take avail } }
      match w1.bwFlush with
      | (w2, some e) => (w2, some e)
      | (w2, none) =>
        let rest := p.drop avail
        if rest.length ≤ bufSize - w2.bw.buf.length then
          ({ w2 with bw := { w2.bw with buf := w2.bw.buf ++ rest } }, none)
        else
          match w2.wrWrite rest with
          | (w3, none) => (w3, none)
          | (w3, some (_, code)) =>
            ({ w3 with bw := { w3.bw with err := some (WErr.ext code) } }, some (WErr.ext code))

/-! ## `Writer`: the operations -/

/-- The bracket `if w.Timeout != nil` ... `defer w.Timeout(false)` around
`body`: the callback is called with `true`; its error is latched and returned
(as `onErr` of it); otherwise `body` runs and the deferred call with `false`
follows, its result being discarded. -/
def Writer.withTimeout {α : Type} (w : Writer) (onErr : WErr → α)
    (body : Writer → Writer × α) : Writer × α :=
  match w.Timeout with
  | none => body w
  | some f =>
    let w1 := { w with trace := w.trace ++ [Event.timeout true] }
    match f w.trace true with
    | some code => (w1.setError (WErr.ext code), onErr (WErr.ext code))
    | none =>
      match body w1 with
      | (w2, r) => ({ w2 with trace := w2.trace ++ [Event.timeout false] }, r)

/-- `w.zlibW.Flush()`. -/
def Writer.zFlush (w : Writer) : Writer × Option WErr :=
  ({ w with trace := w.trace ++ [Event.zlibFlush] },
    (w.env.zlibFlush w.trace).map WErr.ext)

/-- `w.zlibW.Close()`. -/
def Writer.zClose (w : Writer) : Writer × Option WErr :=
  ({ w with trace := w.trace ++ [Event.zlibClose] },
    (w.env.zlibClose w.trace).map WErr.ext)

/-- `Writer.flush`. -/
def Writer.flush (w : Writer) : Writer × Option WErr :=
  match w.err with
  | some e => (w, some e)
  | none =>
    w.withTimeout some (fun w =>
      match w.bwFlush with
      | (w1, some e) => (w1.setError e, some e)
      | (w1, none) =>
        if !w1.zlibOn then (w1, none)
        else
          match w1.zFlush with
          | (w2, some e) => (w2.setError e, some e)
          | (w2, none) => (w2, none))

/-- `Writer.Flush`. -/
def Writer.Flush (w : Writer) : Writer × Option WErr := w.flush

/-- What the loop over `w.onLine` decides. -/
inductive HookOutcome where
  /-- every hook returned `(true, nil)` -/
  | proceed
  /-- a hook returned `(false, nil)`: the message is skipped -/
  | skip
  /-- a hook returned an error -/
  | fail (e : WErr)
  deriving DecidableEq, Repr

/-- The loop `for _, fnc := range w.onLine` of `writeLine`, from hook number `i`
on. -/
def Writer.runHooks (w : Writer) :
    List (Trace → Bytes → Bool × Option Nat) → Nat → Bytes → Writer × HookOutcome
  | [], _, _ => (w, HookOutcome.proceed)
  | fnc :: rest, i, data =>
    let w1 := { w with trace := w.trace ++ [Event.onLine i data] }
    match fnc w.trace data with
    | (_, some code) => (w1.setError (WErr.ext code), HookOutcome.fail (WErr.ext code))
    | (false, none) => (w1, HookOutcome.skip)
    | (true, none) => Writer.runHooks w1 rest (i + 1) data

/-- `w.w.Write(data)`, the direct write of `writeLine`. -/
def Writer.sinkWrite (w : Writer) (data : Bytes) : Writer × WriteRes :=
  ({ w with trace := w.trace ++ [Event.sinkWrite data] }, w.env.sink w.trace data)

/-- `Writer.writeLine`. -/
def Writer.writeLine (w : Writer) (data : Bytes) : Writer × Option WErr :=
  match w.err with
  | some e => (w, some e)
  | none =>
    match w.runHooks w.onLine 0 data with
    | (w1, HookOutcome.fail e) => (w1, some e)
    | (w1, HookOutcome.skip) => (w1, none)
    | (w1, HookOutcome.proceed) =>
      w1.withTimeout some (fun w =>
        if w.lvl > 0 then
          match w.bwWrite data with
          | (w2, some e) => (w2.setError e, some e)
          | (w2, none) => (w2, none)
        else if w.bw.Size ≠ 0 then
          match w.bwWrite data with
          | (w2, some e) => (w2.setError e, some e)
          | (w2, none) => w2.flush
        else
          match w.sinkWrite data with
          | (w2, some (_, code)) => (w2.setError (WErr.ext code), some (WErr.ext code))
          | (w2, none) => (w2, none))

/-- `Writer.WriteLine`. -/
def Writer.WriteLine (w : Writer) (data : Bytes) : Writer × Option WErr :=
  match w.Err with
  | some e => (w, some e)
  | none => w.writeLine data

/-- `Writer.StartBatch`. -/
def Writer.StartBatch (w : Writer) : Writer × Option WErr :=
  match w.Err with
  | some e => (w, some e)
  | none =>
    let w := { w with lvl := w.lvl + 1 }
    (w, w.err)

/-- `Writer.EndBatch`. -/
def Writer.EndBatch (w : Writer) (force : Bool) : Writer × Option WErr :=
  let w := { w with lvl := w.lvl - 1 }
  if w.lvl < 0 then (w, some WErr.unpairedEndBatch)
  else if !force ∧ w.lvl > 0 then (w, none)
  else w.flush

/-- `Writer.EnableZlib`. -/
def Writer.EnableZlib (w : Writer) : Writer × Option WErr :=
  if w.zlibOn then (w, some WErr.zlibAlreadyActive)
  else
    match w.flush with
    | (w1, some e) => (w1, some e)
    | (w1, none) =>
      let w2 := { w1 with zlibOn := true }
      let w3 :=
        if !w2.zlibW then { w2 with zlibW := true, trace := w2.trace ++ [Event.zlibNew] }
        else { w2 with trace := w2.trace ++ [Event.zlibReset] }
      ({ w3 with bw := w3.bw.Reset true }, none)

/-- `Writer.DisableZlib`. -/
def Writer.DisableZlib (w : Writer) : Writer × Option WErr :=
  if !w.zlibOn then (w, some WErr.zlibNotActive)
  else
    match w.bwFlush with
    | (w1, some e) => (w1.setError e, some e)
    | (w1, none) =>
      match w1.zClose with
      | (w2, some e) => (w2.setError e, some e)
      | (w2, none) =>
        let w3 := { w2 with zlibOn := false }
        ({ w3 with bw := w3.bw.Reset false }, none)

/-- A call of one of the exported operations of `Writer`. -/
inductive Op where
  | writeLine (data : Bytes)
  | flush
  | startBatch
  | endBatch (force : Bool)
  | enableZlib
  | disableZlib
  deriving DecidableEq, Repr

/-- The writer after the call `op`, and the error the call returns. -/
def Writer.step (w : Writer) : Op → Writer × Option WErr
  | Op.writeLine data => w.WriteLine data
  | Op.flush => w.Flush
  | Op.startBatch => w.StartBatch
  | Op.endBatch force => w.EndBatch force
  | Op.enableZlib => w.EnableZlib
  | Op.disableZlib => w.DisableZlib

/-- The calls `ops` made one after the other: the writer at the end and the
error each call returned. -/
def Writer.run (w : Writer) : List Op → Writer × List (Option WErr)
  | [] => (w, [])
  | op :: ops =>
    match Writer.run (w.step op).1 ops with
    | (w1, rs) => (w1, (w.step op).2 :: rs)

/-- The bytes the sink has received: the arguments of its `Write` calls, in
order. (Used for a sink that never fails, which takes all it is given.) -/
def sinkBytes : Trace → Bytes
  | [] => []
  | Event.sinkWrite p :: t => p ++ sinkBytes t
  | _ :: t => sinkBytes t

/-- The arguments of the sink's `Write` calls, one entry per call. -/
def sinkCalls : Trace → List Bytes
  | [] => []
  | Event.sinkWrite p :: t => p :: sinkCalls t
  | _ :: t => sinkCalls t

/-- The payloads accepted by the calls `ops` whose results are `rs`: those of
the `WriteLine` calls that returned `nil`, concatenated in call order. -/
def accepted : List Op → List (Option WErr) → Bytes
  | Op.writeLine data :: ops, none :: rs => data ++ accepted ops rs
  | _ :: ops, _ :: rs => accepted ops rs
  | _, _ => []

/-- A sink whose `Write` never fails. -/
def Env.SinkNeverFails (env : Env) : Prop := ∀ t p, env.sink t p = none

/-- An environment in which no collaborator ever fails. -/
def okEnv : Env where
  sink := fun _ _ => none
  zlibWrite := fun _ _ => none
  zlibFlush := fun _ => none
  zlibClose := fun _ => none

/-! ## Kinds of calls and states of the writer -/

/-- The call is a `WriteLine`, a `Flush` or an `EndBatch`. -/
def Op.isWriteFlushEnd : Op → Bool
  | Op.writeLine _ => true
  | Op.flush => true
  | Op.endBatch _ => true
  | _ => false

/-- The call is a `WriteLine`, a `Flush` or a `StartBatch`. -/
def Op.isWriteFlushStart : Op → Bool
  | Op.writeLine _ => true
  | Op.flush => true
  | Op.startBatch => true
  | _ => false

/-- The call is a `WriteLine`, a `StartBatch`, an `EndBatch` or a `Flush`. -/
def Op.isWriteOrBatch : Op → Bool
  | Op.writeLine _ => true
  | Op.flush => true
  | Op.startBatch => true
  | Op.endBatch _ => true
  | _ => false

/-- The error `e` is latched: it is the sticky error `w.err`, and the copy
`w.errNolock` read by `Err()` holds it too. -/
def Writer.Latched (w : Writer) (e : WErr) : Prop :=
  w.err = some e ∧ w.errNolock = some e

/-- A writer as the calls below leave a writer made by `NewWriter` over a sink
that never fails: no hooks, no timeout callback, compression off, no error. -/
structure Writer.Plain (w : Writer) : Prop where
  sink : w.env.SinkNeverFails
  timeout : w.Timeout = none
  hooks : w.onLine = []
  err : w.err = none
  errNolock : w.errNolock = none
  bwErr : w.bw.err = none
  bwTarget : w.bw.toZlib = false
  zlibOff : w.zlibOn = false

/-! ## A failing sink -/

/-- An environment whose sink fails every `Write` with the error `ext 7`,
having written nothing. -/
def failEnv : Env where
  sink := fun _ _ => some (0, 7)
  zlibWrite := fun _ _ => none
  zlibFlush := fun _ => none
  zlibClose := fun _ => none

/-! ## Valid records -/

/-- None of the wire delimiters `$`, `,`, `<`, `>`, `:` occurs in `b`. Such a
string holds neither the marker ` V:` nor the marker ` v:`, which end in `:`. -/
abbrev NoDelims (b : Bytes) : Prop := 36 ∉ b ∧ 44 ∉ b ∧ 60 ∉ b ∧ 62 ∉ b ∧ 58 ∉ b

/-- The keys of the tag that the decoder interprets itself. -/
def reservedKeys : List Bytes :=
  [str "V", str "v", str "M", str "m", str "H", str "h", str "S", str "s"]

/-- The conditions of validity of a `MyINFO` record other than those on `Mode`
and `Flag`: `wn` and `wd` are the encoded name and description, which the
codecs decode back and which hold no space, `$` or `<`; the plain strings hold
no delimiter; the keys of `Extra` are pairwise distinct (it is a map) and none
is a key of the tag; the integers are non-negative and in the range of their
types. -/
structure MyINFO.FieldsValid (c : TextCodec) (r : MyINFO) (wn wd : Bytes) : Prop where
  nameEnc : c.marshalName r.Name = Except.ok wn
  nameDec : c.unmarshalName wn = Except.ok r.Name
  nameWire : 32 ∉ wn ∧ 36 ∉ wn ∧ 60 ∉ wn
  descEnc : c.marshalString r.Desc = Except.ok wd
  descDec : c.unmarshalString wd = Except.ok r.Desc
  descWire : 32 ∉ wd ∧ 36 ∉ wd ∧ 60 ∉ wd
  client : NoDelims r.Client
  version : NoDelims r.Version
  conn : NoDelims r.Conn
  email : NoDelims r.Email
  extra : ∀ kv ∈ r.Extra, NoDelims kv.1 ∧ NoDelims kv.2 ∧ kv.1 ∉ reservedKeys
  extraKeys : (r.Extra.map Prod.fst).Nodup
  hubsNormal : 0 ≤ r.HubsNormal ∧ r.HubsNormal < 2 ^ 63
  hubsRegistered : 0 ≤ r.HubsRegistered ∧ r.HubsRegistered < 2 ^ 63
  hubsOperator : 0 ≤ r.HubsOperator ∧ r.HubsOperator < 2 ^ 63
  slots : 0 ≤ r.Slots ∧ r.Slots < 2 ^ 63
  share : r.ShareSize < 2 ^ 64

/-- The tag field written for the entry `kv` of `Extra`. -/
def extraField (kv : Bytes × Bytes) : Bytes := kv.1 ++ str ":" ++ kv.2

/-! ## The tag as it is written -/

/-- The hub counters as `MarshalNMDC` writes them. -/
def hubsWire (r : MyINFO) : Bytes :=
  itoa r.HubsNormal ++ str "/" ++ itoa r.HubsRegistered ++ str "/" ++ itoa r.HubsOperator

/-- The comma-separated fields of the tag `MarshalNMDC` writes for a record
whose mode is neither unknown nor a space. -/
def tagFieldsWire (r : MyINFO) : List Bytes :=
  [str "V" ++ str ":" ++ r.Version, str "M" ++ str ":" ++ [r.Mode],
    str "H" ++ str ":" ++ hubsWire r, str "S" ++ str ":" ++ itoa r.Slots]
    ++ r.Extra.map extraField

/-- The tag `MarshalNMDC` writes between `<` and `>` for such a record. -/
def tagWire (r : MyINFO) : Bytes :=
  r.Client ++ str " V:" ++ r.Version ++
    ((tagFieldsWire r).tail.map (fun g => 44 :: g)).flatten

/-! ## Round trips -/

/-- Marshal `r`, then unmarshal the bytes into a zero-valued record: `none`
when marshalling fails, otherwise the outcome of the decoder. -/
def UserIP.roundTrip (c : TextCodec) (r : UserIP) : Option (Res UserIP) :=
  match UserIP.MarshalNMDC c r with
  | Except.ok b => some (UserIP.UnmarshalNMDC c {} b)
  | Except.error _ => none

/-- Marshal `r`, then unmarshal the bytes into a zero-valued record: `none`
when marshalling fails, otherwise the outcome of the decoder. -/
def MyINFO.roundTrip (c : TextCodec) (r : MyINFO) : Option (Res MyINFO) :=
  match MyINFO.MarshalNMDC c r with
  | Except.ok b => some (MyINFO.UnmarshalNMDC c {} b)
  | Except.error _ => none

/-! ## Decimal numerals, as the properties speak of them -/

/-- The byte `c` is a decimal digit. -/
def isDigit (c : Nat) : Bool := decide (48 ≤ c) && decide (c ≤ 57)

/-- The value of the digits `ds` read after the value `n`. -/
def decFrom (n : Nat) (ds : Bytes) : Nat := ds.foldl (fun a c => a * 10 + (c - 48)) n

/-- The value of the decimal numeral `ds`. -/
def decVal (ds : Bytes) : Nat := decFrom 0 ds

/-- The longest prefix of `s` made of decimal digits. -/
def leadingDigits (s : Bytes) : Bytes := s.takeWhile isDigit

/-- The string `s` is a valid decimal unsigned 64-bit integer: one digit or
more, nothing but digits, and a value below `2 ^ 64`. -/
def IsDecimalUint64 (s : Bytes) : Prop :=
  s ≠ [] ∧ leadingDigits s = s ∧ decVal s < 2 ^ 64

/-- The string `s` is the decimal numeral of the 64-bit signed integer `v`: an
optional sign `+` or `-`, then one digit or more and nothing but digits. -/
def IsDecimalInt64 (s : Bytes) (v : Int) : Prop :=
  ∃ sign ds, s = sign ++ ds ∧ (sign = [] ∨ sign = [43] ∨ sign = [45]) ∧
    ds ≠ [] ∧ leadingDigits ds = ds ∧
    v = (if sign = [45] then -(decVal ds : Int) else (decVal ds : Int)) ∧
    -(2 : Int) ^ 63 ≤ v ∧ v < (2 : Int) ^ 63

/-! ## Hub counters, as the properties speak of them -/

/-- The value `val` splits on `/` into exactly three parts, and each part,
without its surrounding white space, is the decimal numeral of the respective
64-bit signed integer. -/
def IsHubCounts (val : Bytes) (a b c : Int) : Prop :=
  ∃ h0 h1 h2, val = h0 ++ str "/" ++ h1 ++ str "/" ++ h2 ∧
    47 ∉ h0 ∧ 47 ∉ h1 ∧ 47 ∉ h2 ∧
    IsDecimalInt64 (trimSpace h0) a ∧ IsDecimalInt64 (trimSpace h1) b ∧
    IsDecimalInt64 (trimSpace h2) c

/-! ## Lines of the wire format -/

/-- A `MyINFO` line: the prefix, the (encoded) name, a space, five fields
separated by `$`, and a final byte. -/
def infoLine (name f1 f2 f3 f4 f5 : Bytes) (last : Nat) : Bytes :=
  str "$ALL " ++ name ++ str " " ++
    (f1 ++ str "$" ++ f2 ++ str "$" ++ f3 ++ str "$" ++ f4 ++ str "$" ++ f5 ++ [last])

/-! ## `Writer.startOrWrite` and `AsyncWriter`

The background task started by `WriteLineAsync` is represented by its handle
`unschedule` alone: the properties below are about the runs in which the timer
of the task does not fire before `Flush` closes the handle. -/

/-- `Writer.startOrWrite`: the writer after the call, the flag `batch` and the
error returned. -/
def Writer.startOrWrite (w : Writer) (data : Bytes) : Writer × Bool × Option WErr :=
  match w.err with
  | some e => (w, false, some e)
  | none =>
    w.withTimeout (fun e => (false, some e)) (fun w =>
      match w.bwWrite data with
      | (w1, some e) => (w1.setError e, false, some e)
      | (w1, none) =>
        if w1.lvl > 0 then (w1, false, none)
        else ({ w1 with lvl := w1.lvl + 1 }, true, none))

/-- The struct `AsyncWriter`: the embedded `Writer`, the counter `schedule`
(a `uint32`) and whether the channel `unschedule` is non-nil, that is whether
a background task is running. -/
structure AsyncWriter where
  Writer : Writer
  schedule : Nat := 0
  unschedule : Bool := false

/-- `NewAsyncWriter(w)`. -/
def NewAsyncWriter (env : Env) : AsyncWriter := { Writer := NewWriter env }

/-- `AsyncWriter.WriteLineAsync`. -/
def AsyncWriter.WriteLineAsync (a : AsyncWriter) (data : Bytes) : AsyncWriter × Option WErr :=
  match a.Writer.Err with
  | some e => (a, some e)
  | none =>
    if a.unschedule then
      match a.Writer.WriteLine data with
      | (w1, err) => ({ a with Writer := w1, schedule := (a.schedule + 1) % 2 ^ 32 }, err)
    else
      match a.Writer.startOrWrite data with
      | (w1, _, some e) => ({ a with Writer := w1 }, some e)
      | (w1, false, none) => ({ a with Writer := w1 }, none)
      | (w1, true, none) => ({ a with Writer := w1, schedule := 0, unschedule := true }, none)

/-- `AsyncWriter.Flush`. -/
def AsyncWriter.Flush (a : AsyncWriter) : AsyncWriter × Option WErr :=
  match a.Writer.Err with
  | some e => (a, some e)
  | none =>
    if !a.unschedule then
      match a.Writer.Flush with
      | (w1, err) => ({ a with Writer := w1 }, err)
    else
      match a.Writer.EndBatch true with
      | (w1, some e) => ({ Writer := w1, schedule := 0, unschedule := false }, some e)
      | (w1, none) =>
        match w1.Flush with
        | (w2, err) => ({ Writer := w2, schedule := 0, unschedule := false }, err)

/-- The calls `WriteLineAsync(p)` for the payloads `ps`, one after the other:
the writer at the end and the error each call returned. -/
def AsyncWriter.writeAll (a : AsyncWriter) : List Bytes → AsyncWriter × List (Option WErr)
  | [] => (a, [])
  | p :: ps =>
    match AsyncWriter.writeAll (a.WriteLineAsync p).1 ps with
    | (a1, rs) => (a1, (a.WriteLineAsync p).2 :: rs)

/-- A hook that vetoes every message: it returns `(false, nil)`. -/
def vetoHook : Trace → Bytes → Bool × Option Nat := fun _ _ => (false, none)

/-- The calls of the hooks recorded in a trace: hook number and message. -/
def hookCalls : Trace → List (Nat × Bytes)
  | [] => []
  | Event.onLine i line :: t => (i, line) :: hookCalls t
  | _ :: t => hookCalls t

/-! ## Environments and lines used as examples -/

/-- The line `MarshalNMDC` writes for a record of bob whose mode is unknown:
the mode byte of the tag is a space. -/
def unknownModeLine : Bytes :=
  str "$ALL bob <++ V:1,M: ,H:1/0/0,S:1>$ $1000" ++ [1] ++ str "$$0$"

/-- A line without a tag whose legacy mode field is a space. -/
def legacySpaceLine : Bytes := str "$ALL bob $ $1000" ++ [1] ++ str "$$0$"

/-- An environment whose compressor fails `Flush` with the error `ext 7` and
`Close` with the error `ext 8`, the sink itself never failing. -/
def zfailEnv : Env where
  sink := fun _ _ => none
  zlibWrite := fun _ _ => none
  zlibFlush := fun _ => some 7
  zlibClose := fun _ => some 8

/-! ## The operations once an error is latched -/

/-- The depth an operation leaves: `EndBatch` decrements it, whatever it
returns. -/
def depthAfter (w : Writer) : Op → Int
  | Op.endBatch _ => w.lvl - 1
  | _ => w.lvl

/-- What an operation returns on a writer `w` on which the error `e` is
latched, `DisableZlib` with compression active excepted: `WriteLine`, `Flush`
and `StartBatch` return `e`; `EndBatch` returns the unpaired-EndBatch error
below depth 0, `nil` when it is not forced and batches remain open, and `e`
when it flushes; `EnableZlib` returns the already-active error when compression
is active and `e` otherwise; `DisableZlib` returns the not-active error. -/
def latchedResult (w : Writer) (e : WErr) : Op → Option WErr
  | Op.writeLine _ => some e
  | Op.flush => some e
  | Op.startBatch => some e
  | Op.endBatch force =>
    if w.lvl - 1 < 0 then some WErr.unpairedEndBatch
    else if !force ∧ w.lvl - 1 > 0 then none
    else some e
  | Op.enableZlib => if w.zlibOn then some WErr.zlibAlreadyActive else some e
  | Op.disableZlib => some WErr.zlibNotActive

/-- The call is not a `DisableZlib`. -/
def Op.isNotDisable : Op → Bool
  | Op.disableZlib => false
  | _ => true

/-! ## A write inside a batch, as the design describes it -/

/-- A write that requests no flush: the hooks run, then, inside the timeout
bracket, the data is handed to `bw.Write`, an error being latched. What
`bw.Write` does with data that does not fit in the buffer is up to `bufio`. -/
def Writer.bufferLine (w : Writer) (data : Bytes) : Writer × Option WErr :=
  match w.runHooks w.onLine 0 data with
  | (w1, HookOutcome.fail e) => (w1, some e)
  | (w1, HookOutcome.skip) => (w1, none)
  | (w1, HookOutcome.proceed) =>
    w1.withTimeout some (fun w =>
      match w.bwWrite data with
      | (w2, some e) => (w2.setError e, some e)
      | (w2, none) => (w2, none))

/-! ## A failing hook and a compressor whose `Close` fails -/

/-- An environment whose compressor fails `Close` with the error `ext 8`, the
sink and the other calls of the compressor never failing. -/
def closeFailEnv : Env where
  sink := fun _ _ => none
  zlibWrite := fun _ _ => none
  zlibFlush := fun _ => none
  zlibClose := fun _ => some 8

/-- A hook that fails every message with the error `ext 7`. -/
def failHook : Trace → Bytes → Bool × Option Nat := fun _ _ => (false, some 7)

/-! ## Lemmas on the byte-string helpers -/

theorem hasPrefix_nil (s : Bytes) : hasPrefix s [] = true := by
  cases s <;> rfl

theorem hasPrefix_cons_cons (a b : Nat) (s p : Bytes) :
    hasPrefix (a :: s) (b :: p) = (a == b && hasPrefix s p) := rfl

theorem hasPrefix_iff (s p : Bytes) : hasPrefix s p = true ↔ ∃ t, s = p ++ t := by
  induction p generalizing s with
  | nil => simp [hasPrefix_nil]
  | cons b p ih =>
    cases s with
    | nil => simp [hasPrefix]
    | cons a s =>
      rw [hasPrefix_cons_cons]
      simp only [Bool.and_eq_true, beq_iff_eq, ih, List.cons_append, List.cons.injEq]
      constructor
      · rintro ⟨rfl, t, rfl⟩
        exact ⟨t, rfl, rfl⟩
      · rintro ⟨t, rfl, rfl⟩
        exact ⟨rfl, t, rfl⟩

theorem hasPrefix_append (p t : Bytes) : hasPrefix (p ++ t) p = true :=
  (hasPrefix_iff _ _).2 ⟨t, rfl⟩

/-- `index` of a one-byte separator that does not occur. -/
theorem index_byte_none (c : Nat) (s : Bytes) (h : c ∉ s) : index [c] s = none := by
  induction s with
  | nil => simp [index, hasPrefix]
  | cons a s ih =>
    have h1 : a ≠ c := fun e => h (by simp [e])
    have h2 : c ∉ s := fun e => h (by simp [e])
    simp [index, hasPrefix, h1, ih h2]

/-- `index` of a one-byte separator finds its first occurrence. -/
theorem index_byte_append (c : Nat) (a b : Bytes) (h : c ∉ a) :
    index [c] (a ++ c :: b) = some a.length := by
  induction a with
  | nil => simp [index, hasPrefix, hasPrefix_nil]
  | cons x a ih =>
    have h1 : x ≠ c := fun e => h (by simp [e])
    have h2 : c ∉ a := fun e => h (by simp [e])
    simp [index, hasPrefix, h1, ih h2]

/-- `index` finds `sep` at position `a.length` when it occurs there and at no
earlier position. -/
theorem index_append_of_first (sep a rest : Bytes)
    (hfirst : ∀ k, k < a.length → hasPrefix ((a ++ rest).drop k) sep = false)
    (hrest : hasPrefix rest sep = true) :
    index sep (a ++ rest) = some a.length := by
  induction a with
  | nil =>
    cases rest with
    | nil => simp [index, hrest]
    | cons r rest => simp [index, hrest]
  | cons x a ih =>
    have h0 := hfirst 0 (by simp)
    simp only [List.drop_zero] at h0
    have ih1 := ih (fun k hk => by
      have := hfirst (k + 1) (by simpa using hk)
      simpa using this)
    simp only [List.cons_append] at h0 ⊢
    simp [index, h0, ih1]

theorem lastIndex_byte_none (c : Nat) (s : Bytes) (h : c ∉ s) : lastIndex [c] s = none := by
  induction s with
  | nil => simp [lastIndex, hasPrefix]
  | cons a s ih =>
    have h1 : a ≠ c := fun e => h (by simp [e])
    have h2 : c ∉ s := fun e => h (by simp [e])
    simp [lastIndex, hasPrefix, h1, ih h2]

/-- `lastIndex` of a one-byte separator finds its last occurrence. -/
theorem lastIndex_byte_append (c : Nat) (a b : Bytes) (h : c ∉ b) :
    lastIndex [c] (a ++ c :: b) = some a.length := by
  induction a with
  | nil => simp [lastIndex, hasPrefix, hasPrefix_nil, lastIndex_byte_none c b h]
  | cons x a ih => simp [lastIndex, ih]

theorem splitN_ne_nil (sep n : Nat) (s : Bytes) : splitN sep (n + 1) s ≠ [] := by
  induction s generalizing n with
  | nil => simp [splitN]
  | cons c cs ih =>
    unfold splitN
    split
    · simp
    · split
      · simp
      · split
        · simp
        · simp

theorem split_ne_nil (sep : Nat) (s : Bytes) : split sep s ≠ [] := by
  induction s with
  | nil => simp [split]
  | cons c cs ih =>
    unfold split
    split
    · simp
    · split <;> simp

/-- A string without the separator is a single piece. -/
theorem splitN_absent (sep n : Nat) (s : Bytes) (h : sep ∉ s) : splitN sep (n + 1) s = [s] := by
  induction s with
  | nil => simp [splitN]
  | cons c cs ih =>
    have h1 : c ≠ sep := fun e => h (by simp [e])
    have h2 : sep ∉ cs := fun e => h (by simp [e])
    unfold splitN
    by_cases hn : n = 0
    · simp [hn]
    · simp [hn, h1, ih h2]

theorem split_absent (sep : Nat) (s : Bytes) (h : sep ∉ s) : split sep s = [s] := by
  induction s with
  | nil => simp [split]
  | cons c cs ih =>
    have h1 : c ≠ sep := fun e => h (by simp [e])
    have h2 : sep ∉ cs := fun e => h (by simp [e])
    unfold split
    simp [h1, ih h2]

/-- The first piece of a split ends at the first separator. -/
theorem splitN_append (sep n : Nat) (a b : Bytes) (h : sep ∉ a) :
    splitN sep (n + 2) (a ++ sep :: b) = a :: splitN sep (n + 1) b := by
  induction a with
  | nil => simp [splitN]
  | cons c cs ih =>
    have h1 : c ≠ sep := fun e => h (by simp [e])
    have h2 : sep ∉ cs := fun e => h (by simp [e])
    simp only [List.cons_append]
    rw [splitN]
    simp [h1, ih h2]

theorem split_append (sep : Nat) (a b : Bytes) (h : sep ∉ a) :
    split sep (a ++ sep :: b) = a :: split sep b := by
  induction a with
  | nil => simp [split]
  | cons c cs ih =>
    have h1 : c ≠ sep := fun e => h (by simp [e])
    have h2 : sep ∉ cs := fun e => h (by simp [e])
    simp only [List.cons_append]
    rw [split]
    simp [h1, ih h2]


theorem trimSuffix_append (s p : Bytes) : trimSuffix (s ++ p) p = s := by
  have h : hasSuffix (s ++ p) p = true := by
    unfold hasSuffix
    rw [List.reverse_append]
    exact hasPrefix_append _ _
  simp [trimSuffix, h]

theorem str_space : str " " = [32] := rfl

/-- The decoder of `UserIP` on an input that ends in `$$` and whose address
part holds no space. -/
theorem userIP_unmarshal_eq (c : TextCodec) (m : UserIP) (n a : Bytes) (ha : 32 ∉ a) :
    UserIP.UnmarshalNMDC c m (n ++ str " " ++ a ++ str "$$") =
      match c.unmarshalName n with
      | Except.ok name => Res.ok { Name := name, IP := a }
      | Except.error e => Res.fail e { m with IP := a } := by
  unfold UserIP.UnmarshalNMDC
  rw [trimSuffix_append, str_space]
  have h : lastIndex [32] (n ++ [32] ++ a) = some n.length := by
    rw [List.append_assoc]
    exact lastIndex_byte_append 32 n a ha
  simp only [h]
  have h1 : List.take n.length (n ++ [32] ++ a) = n := by simp
  have h2 : List.drop (n.length + 1) (n ++ [32] ++ a) = a := by
    rw [List.append_assoc, List.drop_append_eq_append_drop]
    simp
  rw [h1, h2]
  cases c.unmarshalName n <;> rfl

/-- C8. `UserIP.UnmarshalNMDC` splits at the last space: on an input
`n ++ " " ++ a ++ "$$"` whose `a` contains no space it sets `IP = a`
and decodes `n` as the name, failing exactly when that decoding fails; in
particular `BobUser 192.168.1.5$$` gives Name `BobUser` and IP `192.168.1.5`
(for a codec that decodes the plain name `BobUser` to itself). -/
theorem userIP_unmarshal_splits_at_last_space (c : TextCodec) (m : UserIP) (n a : Bytes)
    (ha : 32 ∉ a) :
    (∀ name, c.unmarshalName n = Except.ok name →
      UserIP.UnmarshalNMDC c m (n ++ str " " ++ a ++ str "$$")
        = Res.ok { Name := name, IP := a }) ∧
    (∀ e, c.unmarshalName n = Except.error e →
      UserIP.UnmarshalNMDC c m (n ++ str " " ++ a ++ str "$$")
        = Res.fail e { m with IP := a }) ∧
    (c.unmarshalName (str "BobUser") = Except.ok (str "BobUser") →
      UserIP.UnmarshalNMDC c {} (str "BobUser 192.168.1.5$$")
        = Res.ok { Name := str "BobUser", IP := str "192.168.1.5" }) := by
  refine ⟨fun name h => ?_, fun e h => ?_, fun h => ?_⟩
  · rw [userIP_unmarshal_eq c m n a ha, h]
  · rw [userIP_unmarshal_eq c m n a ha, h]
  · have h2 := userIP_unmarshal_eq c {} (str "BobUser") (str "192.168.1.5") (by decide)
    rw [h] at h2
    exact h2

theorem userIP_unmarshal_splits_at_last_space_witness :
    32 ∉ str "10.0.0.1" ∧
    UserIP.UnmarshalNMDC plainCodec {} (str "Bob User" ++ str " " ++ str "10.0.0.1" ++ str "$$")
      = Res.ok { Name := str "Bob User", IP := str "10.0.0.1" } ∧
    UserIP.UnmarshalNMDC plainCodec {} (str "BobUser 192.168.1.5$$")
      = Res.ok { Name := str "BobUser", IP := str "192.168.1.5" } :=
  ⟨by decide,
   (userIP_unmarshal_splits_at_last_space plainCodec {} (str "Bob User") (str "10.0.0.1")
      (by decide)).1 (str "Bob User") rfl,
   (userIP_unmarshal_splits_at_last_space plainCodec {} (str "Bob User") (str "10.0.0.1")
      (by decide)).2.2 rfl⟩


theorem writeExtra_eq (buf : Bytes) (ex : StrMap) :
    writeExtra buf ex
      = buf ++ (ex.map (fun kv => str "," ++ kv.1 ++ str ":" ++ kv.2)).flatten := by
  induction ex generalizing buf with
  | nil => simp [writeExtra]
  | cons kv rest ih =>
    obtain ⟨k, v⟩ := kv
    simp [writeExtra, ih, List.append_assoc]

/-- The bytes `marshalRest` appends, in closed form. -/
theorem marshalRest_eq (m : MyINFO) (buf : Bytes) :
    marshalRest m buf =
      buf ++ str "<" ++ m.Client ++ str " V:" ++ m.Version ++ str ",M:"
        ++ [if m.Mode = UserModeUnknown ∨ m.Mode = 32 then 32 else m.Mode]
        ++ str ",H:" ++ itoa m.HubsNormal ++ str "/" ++ itoa m.HubsRegistered
        ++ str "/" ++ itoa m.HubsOperator ++ str ",S:" ++ itoa m.Slots
        ++ (m.Extra.map (fun kv => str "," ++ kv.1 ++ str ":" ++ kv.2)).flatten
        ++ str ">$ $" ++ m.Conn ++ [if m.Flag = 0 then FlagStatusNormal else m.Flag]
        ++ str "$" ++ m.Email ++ str "$" ++ formatUint m.ShareSize ++ str "$" := by
  unfold marshalRest
  simp only [writeExtra_eq]
  have e1 : str " V:" = str " " ++ str "V:" := rfl
  have e2 : str ">$ $" = str ">" ++ str "$ $" := rfl
  rw [e1, e2]
  by_cases hm : m.Mode = UserModeUnknown ∨ m.Mode = 32
  · have hm2 : ¬ (m.Mode ≠ UserModeUnknown ∧ m.Mode ≠ 32) := by tauto
    by_cases hf : m.Flag = 0 <;> simp [hm, hm2, hf, List.append_assoc]
  · have hm2 : m.Mode ≠ UserModeUnknown ∧ m.Mode ≠ 32 := by tauto
    by_cases hf : m.Flag = 0 <;> simp [hm, hm2, hf, List.append_assoc]

/-- C7. Wire format of `MyINFO.MarshalNMDC`: when the two field codecs encode
the name and the description, the output is `$ALL `, the escaped name, a space,
the escaped description, the tag `<client V:version,M:mode,H:n/r/o,S:slots`
followed by the extension entries and `>`, then `$ $`, conn, the flag byte,
`$`, email, `$`, the decimal share size and `$` (the mode byte being a space for
the unknown mode, the flag byte being 0x01 for the zero flag); and the record
of bob is written as `$ALL bob <++ V:1.0,M:A,H:2/1/0,S:3>$ $1000`, byte 0x01,
`$$0$` (for a codec that leaves `bob` and the empty description as they are). -/
theorem myINFO_marshal_wire_format (c : TextCodec) (m : MyINFO) (name desc : Bytes)
    (hn : c.marshalName m.Name = Except.ok name)
    (hd : c.marshalString m.Desc = Except.ok desc) :
    MyINFO.MarshalNMDC c m = Except.ok
      (str "$ALL " ++ name ++ str " " ++ desc ++ str "<" ++ m.Client ++ str " V:"
        ++ m.Version ++ str ",M:"
        ++ [if m.Mode = UserModeUnknown ∨ m.Mode = 32 then 32 else m.Mode]
        ++ str ",H:" ++ itoa m.HubsNormal ++ str "/" ++ itoa m.HubsRegistered
        ++ str "/" ++ itoa m.HubsOperator ++ str ",S:" ++ itoa m.Slots
        ++ (m.Extra.map (fun kv => str "," ++ kv.1 ++ str ":" ++ kv.2)).flatten
        ++ str ">$ $" ++ m.Conn ++ [if m.Flag = 0 then FlagStatusNormal else m.Flag]
        ++ str "$" ++ m.Email ++ str "$" ++ formatUint m.ShareSize ++ str "$") ∧
    (c.marshalName (str "bob") = Except.ok (str "bob") →
      c.marshalString [] = Except.ok [] →
      MyINFO.MarshalNMDC c
        { Name := str "bob", Client := str "++", Version := str "1.0",
          Mode := UserModeActive, HubsNormal := 2, HubsRegistered := 1,
          HubsOperator := 0, Slots := 3, Conn := str "1000", Flag := FlagStatusNormal }
        = Except.ok (str "$ALL bob <++ V:1.0,M:A,H:2/1/0,S:3>$ $1000" ++ [1] ++ str "$$0$")) := by
  constructor
  · unfold MyINFO.MarshalNMDC
    simp only [hn, hd]
    rw [marshalRest_eq]
  · intro h1 h2
    unfold MyINFO.MarshalNMDC
    simp only [h1, h2]
    rfl

theorem myINFO_marshal_wire_format_witness :
    MyINFO.MarshalNMDC plainCodec
        { Name := str "bob", Client := str "++", Version := str "1.0",
          Mode := UserModeActive, HubsNormal := 2, HubsRegistered := 1,
          HubsOperator := 0, Slots := 3, Conn := str "1000", Flag := FlagStatusNormal }
      = Except.ok (str "$ALL bob <++ V:1.0,M:A,H:2/1/0,S:3>$ $1000" ++ [1] ++ str "$$0$") :=
  (myINFO_marshal_wire_format plainCodec {} [] [] rfl rfl).2 rfl rfl


theorem str_ALL : str "$ALL " = [36, 65, 76, 76, 32] := rfl

/-- The decoder of `MyINFO` on a line with the prefix and a name without a
space: the name is decoded, then the rest goes to `unmarshalBody`. -/
theorem unmarshal_after_name (c : TextCodec) (m : MyINFO) (name rest : Bytes)
    (hname : 32 ∉ name) :
    MyINFO.UnmarshalNMDC c m (str "$ALL " ++ name ++ str " " ++ rest) =
      match c.unmarshalName name with
      | Except.ok nm => unmarshalBody c { m with Name := nm } rest
      | Except.error e => Res.fail e m := by
  unfold MyINFO.UnmarshalNMDC
  rw [str_space]
  have hp : hasPrefix (str "$ALL " ++ name ++ [32] ++ rest) (str "$ALL ") = true := by
    rw [List.append_assoc, List.append_assoc]
    exact hasPrefix_append _ _
  have ht : trimPrefix (str "$ALL " ++ name ++ [32] ++ rest) (str "$ALL ")
      = name ++ 32 :: rest := by
    unfold trimPrefix
    rw [hp]
    simp [str_ALL]
  simp only [hp, ht, Bool.not_true, Bool.false_eq_true, if_false]
  rw [index_byte_append 32 name rest hname]
  simp only
  have h1 : List.take name.length (name ++ 32 :: rest) = name := by simp
  have h2 : List.drop (name.length + 1) (name ++ 32 :: rest) = rest := by
    rw [List.drop_append_eq_append_drop]
    simp
  rw [h1, h2]
  cases c.unmarshalName name <;> rfl

/-- C2 (evaluation at the failing input). A line that ends right after the
space that follows the name makes `data[:l-1]` the slice `data[:-1]`:
`MyINFO.UnmarshalNMDC` panics. -/
theorem myINFO_unmarshal_panics_on_empty_body (c : TextCodec) (m : MyINFO)
    (name nm : Bytes) (hname : 32 ∉ name) (hdec : c.unmarshalName name = Except.ok nm) :
    MyINFO.UnmarshalNMDC c m (str "$ALL " ++ name ++ str " ") = Res.panic := by
  have h := unmarshal_after_name c m name [] hname
  rw [List.append_nil] at h
  rw [h, hdec]
  rfl

theorem myINFO_unmarshal_panics_on_empty_body_witness :
    MyINFO.UnmarshalNMDC plainCodec {} (str "$ALL bob ") = Res.panic :=
  myINFO_unmarshal_panics_on_empty_body plainCodec {} (str "bob") (str "bob")
    (by decide) rfl

/-- C6 (counterexample). With an address that holds a space the round trip of
`UserIP` does not return the record: the decoder splits at the last space. -/
theorem userIP_roundTrip_fails_on_space_in_IP :
    plainCodec.marshalName (str "bob") = Except.ok (str "bob") ∧
    plainCodec.unmarshalName (str "bob") = Except.ok (str "bob") ∧
    UserIP.roundTrip plainCodec { Name := str "bob", IP := str "10.0.0.1 x" }
      = some (Res.ok { Name := str "bob 10.0.0.1", IP := str "x" }) ∧
    UserIP.roundTrip plainCodec { Name := str "bob", IP := str "10.0.0.1 x" }
      ≠ some (Res.ok { Name := str "bob", IP := str "10.0.0.1 x" }) := by
  refine ⟨rfl, rfl, ?_, ?_⟩ <;> decide

/-- C6 (amended). Round trip of the address record: when the name is
round-tripped by the `Name` codec and the address contains no space,
`UserIP.MarshalNMDC` succeeds and `UserIP.UnmarshalNMDC` of its output into a
zero-valued record succeeds and yields the record. -/
theorem userIP_roundTrip (c : TextCodec) (r : UserIP) (wire : Bytes)
    (henc : c.marshalName r.Name = Except.ok wire)
    (hdec : c.unmarshalName wire = Except.ok r.Name)
    (hip : 32 ∉ r.IP) :
    UserIP.roundTrip c r = some (Res.ok r) := by
  unfold UserIP.roundTrip UserIP.MarshalNMDC
  simp only [henc]
  rw [userIP_unmarshal_eq c {} wire r.IP hip, hdec]

theorem userIP_roundTrip_witness :
    UserIP.roundTrip plainCodec { Name := str "Bob User", IP := str "192.168.1.5" }
      = some (Res.ok { Name := str "Bob User", IP := str "192.168.1.5" }) :=
  userIP_roundTrip plainCodec { Name := str "Bob User", IP := str "192.168.1.5" }
    (str "Bob User") rfl rfl (by decide)

/-! ## Lemmas on the `strconv` helpers -/

theorem decFrom_nil (n : Nat) : decFrom n [] = n := rfl

theorem decFrom_cons (n c : Nat) (ds : Bytes) :
    decFrom n (c :: ds) = decFrom (n * 10 + (c - 48)) ds := rfl

theorem decFrom_ge (n : Nat) (ds : Bytes) : n ≤ decFrom n ds := by
  induction ds generalizing n with
  | nil => exact Nat.le_refl _
  | cons c ds ih =>
    rw [decFrom_cons]
    exact Nat.le_trans (by omega) (ih _)

theorem leadingDigits_cons (c : Nat) (cs : Bytes) :
    leadingDigits (c :: cs) = if isDigit c then c :: leadingDigits cs else [] := by
  unfold leadingDigits
  by_cases h : isDigit c = true <;> simp [List.takeWhile, h]

theorem leadingDigits_nil : leadingDigits [] = [] := rfl

/-- What the digit loop of `ParseUint` returns, in terms of the digits the
string starts with. -/
theorem parseUintLoop_eq (cs : Bytes) (n : Nat) (hn : n < 2 ^ 64) :
    parseUintLoop cs n =
      if 2 ^ 64 ≤ decFrom n (leadingDigits cs) then (maxUint64, some NumErr.range)
      else if leadingDigits cs = cs then (decFrom n cs, none)
      else (0, some NumErr.syntax_) := by
  induction cs generalizing n with
  | nil =>
    have h1 : ¬ (2 ^ 64 ≤ decFrom n (leadingDigits [])) := by
      rw [leadingDigits_nil, decFrom_nil]; omega
    rw [if_neg h1, if_pos leadingDigits_nil]
    rfl
  | cons c cs ih =>
    rw [leadingDigits_cons]
    by_cases hd : isDigit c = true
    · have hd2 : 48 ≤ c ∧ c ≤ 57 := by simpa [isDigit] using hd
      rw [if_pos hd, decFrom_cons]
      unfold parseUintLoop
      rw [if_pos hd2]
      have hge := decFrom_ge (n * 10 + (c - 48)) (leadingDigits cs)
      by_cases hcut : n ≥ maxUint64 / 10 + 1
      · have h1 : 2 ^ 64 ≤ decFrom (n * 10 + (c - 48)) (leadingDigits cs) := by
          simp only [maxUint64] at hcut
          norm_num at hcut ⊢
          omega
        rw [if_pos hcut, if_pos h1]
      · rw [if_neg hcut]
        by_cases hov : 2 ^ 64 ≤ n * 10 + (c - 48)
        · have h1 : 2 ^ 64 ≤ decFrom (n * 10 + (c - 48)) (leadingDigits cs) :=
            Nat.le_trans hov hge
          have h2 : (n * 10 + (c - 48)) % 2 ^ 64 < n * 10 := by
            norm_num at hov ⊢
            omega
          simp only
          rw [if_pos (Or.inl h2), if_pos h1]
        · have h2 : (n * 10 + (c - 48)) % 2 ^ 64 = n * 10 + (c - 48) :=
            Nat.mod_eq_of_lt (by omega)
          have h3 : ¬ (n * 10 + (c - 48) < n * 10 ∨ n * 10 + (c - 48) > maxUint64) := by
            simp only [maxUint64]
            norm_num at hov ⊢
            omega
          simp only
          rw [h2, if_neg h3, ih _ (by omega)]
          by_cases h4 : 2 ^ 64 ≤ decFrom (n * 10 + (c - 48)) (leadingDigits cs)
          · rw [if_pos h4, if_pos h4]
          · rw [if_neg h4, if_neg h4]
            by_cases h5 : leadingDigits cs = cs
            · rw [if_pos h5, if_pos (by rw [h5]), decFrom_cons]
            · rw [if_neg h5, if_neg (by simpa using h5)]
    · have hd2 : ¬ (48 ≤ c ∧ c ≤ 57) := by simpa [isDigit] using hd
      have hn2 : ¬ (2 ^ 64 ≤ decFrom n []) := by rw [decFrom_nil]; omega
      unfold parseUintLoop
      rw [if_neg hd2, if_neg hd, if_neg hn2, if_neg (by simp)]

/-- What `strconv.ParseUint(s, 10, 64)` returns, value and error. -/
theorem parseUint_eq (s : Bytes) :
    parseUint s =
      if 2 ^ 64 ≤ decVal (leadingDigits s) then (maxUint64, some NumErr.range)
      else if s ≠ [] ∧ leadingDigits s = s then (decVal s, none)
      else (0, some NumErr.syntax_) := by
  unfold parseUint
  by_cases hs : s = []
  · subst hs
    have h1 : ¬ (2 ^ 64 ≤ decVal (leadingDigits [])) := by
      rw [leadingDigits_nil]; simp [decVal, decFrom_nil]
    rw [if_pos rfl, if_neg h1, if_neg (by simp)]
  · rw [if_neg hs, parseUintLoop_eq s 0 (by norm_num)]
    unfold decVal
    by_cases h1 : 2 ^ 64 ≤ decFrom 0 (leadingDigits s)
    · rw [if_pos h1, if_pos h1]
    · rw [if_neg h1, if_neg h1]
      by_cases h2 : leadingDigits s = s
      · rw [if_pos h2, if_pos ⟨hs, h2⟩]
      · rw [if_neg h2, if_neg (fun h => h2 h.2)]

theorem parseUint_valid (s : Bytes) (h : IsDecimalUint64 s) :
    parseUint s = (decVal s, none) := by
  obtain ⟨h1, h2, h3⟩ := h
  have h4 : ¬ (2 ^ 64 ≤ decVal (leadingDigits s)) := by rw [h2]; omega
  rw [parseUint_eq, if_neg h4, if_pos ⟨h1, h2⟩]

theorem parseUint_ok_iff (s : Bytes) : (parseUint s).2 = none ↔ IsDecimalUint64 s := by
  constructor
  · intro h
    rw [parseUint_eq] at h
    by_cases h1 : 2 ^ 64 ≤ decVal (leadingDigits s)
    · rw [if_pos h1] at h; simp at h
    · rw [if_neg h1] at h
      by_cases h2 : s ≠ [] ∧ leadingDigits s = s
      · refine ⟨h2.1, h2.2, ?_⟩
        rw [h2.2] at h1
        omega
      · rw [if_neg h2] at h; simp at h
  · intro h
    rw [parseUint_valid s h]

/-! ## Lemmas on `MyINFO.UnmarshalNMDC` -/

theorem str_dollar : str "$" = [36] := rfl

theorem sliceTo_append_singleton (body : Bytes) (x : Nat) :
    sliceTo (body ++ [x]) (((body ++ [x]).length : Int) - 1) = some body := by
  unfold sliceTo
  have h : ((body ++ [x]).length : Int) - 1 = (body.length : Int) := by
    simp
  rw [h]
  simp

theorem splitN_five (f1 f2 f3 f4 f5 : Bytes) (h1 : 36 ∉ f1) (h2 : 36 ∉ f2)
    (h3 : 36 ∉ f3) (h4 : 36 ∉ f4) (h5 : 36 ∉ f5) :
    splitN 36 6 (f1 ++ 36 :: (f2 ++ 36 :: (f3 ++ 36 :: (f4 ++ 36 :: f5))))
      = [f1, f2, f3, f4, f5] := by
  rw [splitN_append 36 4 f1 _ h1, splitN_append 36 3 f2 _ h2, splitN_append 36 2 f3 _ h3,
    splitN_append 36 1 f4 _ h4, splitN_absent 36 1 f5 h5]

/-- On a body of five fields and a final byte, the decoder goes on to the
fields. -/
theorem unmarshalBody_five (c : TextCodec) (m : MyINFO) (f1 f2 f3 f4 f5 : Bytes) (x : Nat)
    (h1 : 36 ∉ f1) (h2 : 36 ∉ f2) (h3 : 36 ∉ f3) (h4 : 36 ∉ f4) (h5 : 36 ∉ f5) :
    unmarshalBody c m
        (f1 ++ str "$" ++ f2 ++ str "$" ++ f3 ++ str "$" ++ f4 ++ str "$" ++ f5 ++ [x])
      = unmarshalSplit c m f1 f2 f3 f4 f5 := by
  unfold unmarshalBody
  simp only [sliceTo_append_singleton]
  have e : f1 ++ str "$" ++ f2 ++ str "$" ++ f3 ++ str "$" ++ f4 ++ str "$" ++ f5
      = f1 ++ 36 :: (f2 ++ 36 :: (f3 ++ 36 :: (f4 ++ 36 :: f5))) := by
    simp [str_dollar]
  rw [e, splitN_five f1 f2 f3 f4 f5 h1 h2 h3 h4 h5]

/-- The decoder on a line of five fields. -/
theorem unmarshal_infoLine (c : TextCodec) (m : MyINFO) (name f1 f2 f3 f4 f5 : Bytes)
    (x : Nat) (hname : 32 ∉ name)
    (h1 : 36 ∉ f1) (h2 : 36 ∉ f2) (h3 : 36 ∉ f3) (h4 : 36 ∉ f4) (h5 : 36 ∉ f5) :
    MyINFO.UnmarshalNMDC c m (infoLine name f1 f2 f3 f4 f5 x) =
      match c.unmarshalName name with
      | Except.ok nm => unmarshalSplit c { m with Name := nm } f1 f2 f3 f4 f5
      | Except.error e => Res.fail e m := by
  unfold infoLine
  rw [unmarshal_after_name c m name _ hname]
  cases c.unmarshalName name with
  | error e => rfl
  | ok nm => exact unmarshalBody_five c _ f1 f2 f3 f4 f5 x h1 h2 h3 h4 h5

/-- The fifth field only sets the share size. -/
theorem unmarshalFields_share (c : TextCodec) (m m1 : MyINFO) ( hasTag : Bool)
    (desc f2 f3 f4 f5 : Bytes) (hne : f5 ≠ [])
    (h : unmarshalFields c m hasTag desc f2 f3 f4 [] = Res.ok m1) :
    unmarshalFields c m hasTag desc f2 f3 f4 f5
      = Res.ok { m1 with ShareSize := (parseUint (trimSpace f5)).1 } := by
  unfold unmarshalFields at h ⊢
  cases hd : c.unmarshalString desc with
  | error e => rw [hd] at h; simp at h
  | ok s =>
    rw [hd] at h
    simp only at h ⊢
    by_cases hf2 : f2.length ≠ 1
    · rw [if_pos hf2] at h; simp at h
    · have hlen : f5.length ≠ 0 := by
        intro h0; exact hne (List.length_eq_zero.mp h0)
      rw [if_neg hf2] at h ⊢
      rw [if_pos hlen]
      simp only [List.length_nil, ne_eq, not_true_eq_false, if_false, Res.ok.injEq] at h
      rw [← h]

theorem unmarshalSplit_share (c : TextCodec) (m m1 : MyINFO)
    (f1 f2 f3 f4 f5 : Bytes) (hne : f5 ≠ [])
    (h : unmarshalSplit c m f1 f2 f3 f4 [] = Res.ok m1) :
    unmarshalSplit c m f1 f2 f3 f4 f5
      = Res.ok { m1 with ShareSize := (parseUint (trimSpace f5)).1 } := by
  unfold unmarshalSplit at h ⊢
  cases hi : index (str "<") f1 with
  | none =>
    rw [hi] at h
    exact unmarshalFields_share c _ m1 false f1 f2 f3 f4 f5 hne h
  | some i =>
    rw [hi] at h
    simp only at h ⊢
    by_cases ht : (List.drop (i + 1) f1).length = 0
    · rw [if_pos ht] at h; simp at h
    · rw [if_neg ht] at h ⊢
      revert h
      cases MyINFO.unmarshalTag
        { m with Mode := UserModeUnknown }
        (if (List.drop (i + 1) f1).getLastD 0 = 62
          then List.take ((List.drop (i + 1) f1).length - 1) (List.drop (i + 1) f1)
          else List.drop (i + 1) f1) with
      | mk mt e =>
        cases e with
        | some e => intro h; simp at h
        | none =>
          intro h
          exact unmarshalFields_share c _ m1 true _ f2 f3 f4 f5 hne h


/-- C9 (counterexample). A share-size field of twenty nines does not fit in 64
bits, hence is not a valid decimal unsigned 64-bit integer, and yet the decoded
`ShareSize` is not `0`: it is `2 ^ 64 - 1`, the value `strconv.ParseUint`
returns along with its range error. -/
theorem myINFO_share_size_overflow_is_not_zero :
    ¬ IsDecimalUint64 (trimSpace (str "99999999999999999999")) ∧
    MyINFO.UnmarshalNMDC plainCodec {}
        (infoLine (str "bob") [] (str " ") (str "1000" ++ [1]) [] [] 36)
      = Res.ok { Name := str "bob", Conn := str "1000", Flag := 1 } ∧
    MyINFO.UnmarshalNMDC plainCodec {}
        (infoLine (str "bob") [] (str " ") (str "1000" ++ [1]) []
          (str "99999999999999999999") 36)
      = Res.ok { Name := str "bob", Conn := str "1000", Flag := 1,
                 ShareSize := 18446744073709551615 } := by
  refine ⟨?_, by decide, by decide⟩
  rintro ⟨-, -, h3⟩
  revert h3
  decide

/-- C9 (amended). Lenient share size: on a line that decodes when its fifth
field is empty, a non-empty fifth field never makes the decoder fail; with
`t` the field without its surrounding white space, `ShareSize` becomes the
integer when `t` is a valid decimal unsigned 64-bit integer, `2 ^ 64 - 1` when
the digits `t` starts with exceed 64 bits, and `0` in every other case. -/
theorem myINFO_share_size_lenient (c : TextCodec) (m m1 : MyINFO)
    (name f1 f2 f3 f4 f5 : Bytes) (x : Nat) (hname : 32 ∉ name)
    (h1 : 36 ∉ f1) (h2 : 36 ∉ f2) (h3 : 36 ∉ f3) (h4 : 36 ∉ f4) (h5 : 36 ∉ f5)
    (hne : f5 ≠ [])
    (hwf : MyINFO.UnmarshalNMDC c m (infoLine name f1 f2 f3 f4 [] x) = Res.ok m1) :
    ∃ size,
      MyINFO.UnmarshalNMDC c m (infoLine name f1 f2 f3 f4 f5 x)
        = Res.ok { m1 with ShareSize := size } ∧
      (IsDecimalUint64 (trimSpace f5) → size = decVal (trimSpace f5)) ∧
      (2 ^ 64 ≤ decVal (leadingDigits (trimSpace f5)) → size = 2 ^ 64 - 1) ∧
      (¬ IsDecimalUint64 (trimSpace f5) →
        decVal (leadingDigits (trimSpace f5)) < 2 ^ 64 → size = 0) := by
  refine ⟨(parseUint (trimSpace f5)).1, ?_, ?_, ?_, ?_⟩
  · rw [unmarshal_infoLine c m name f1 f2 f3 f4 [] x hname h1 h2 h3 h4 (by simp)] at hwf
    rw [unmarshal_infoLine c m name f1 f2 f3 f4 f5 x hname h1 h2 h3 h4 h5]
    cases hn : c.unmarshalName name with
    | error e => rw [hn] at hwf; simp at hwf
    | ok nm =>
      rw [hn] at hwf
      exact unmarshalSplit_share c _ m1 f1 f2 f3 f4 f5 hne hwf
  · intro hv
    rw [parseUint_valid _ hv]
  · intro hov
    rw [parseUint_eq, if_pos hov]
    rfl
  · intro hnv hlt
    have h6 : ¬ (2 ^ 64 ≤ decVal (leadingDigits (trimSpace f5))) := by omega
    have h7 : ¬ (trimSpace f5 ≠ [] ∧ leadingDigits (trimSpace f5) = trimSpace f5) := by
      rintro ⟨ha, hb⟩
      exact hnv ⟨ha, hb, by rw [hb] at hlt; exact hlt⟩
    rw [parseUint_eq, if_neg h6, if_neg h7]

theorem myINFO_share_size_lenient_witness :
    ∃ size,
      MyINFO.UnmarshalNMDC plainCodec {}
          (infoLine (str "bob") (str "hi<++ V:1,M:A,H:1/0/0,S:2>") (str " ")
            (str "1000" ++ [1]) (str "a@b") (str " 12x") 36)
        = Res.ok { ({ Name := str "bob", Desc := str "hi", Client := str "++",
                      Version := str "1", Mode := 65, HubsNormal := 1, Slots := 2,
                      Conn := str "1000", Flag := 1, Email := str "a@b" } : MyINFO)
                   with ShareSize := size } ∧
      (IsDecimalUint64 (trimSpace (str " 12x")) → size = decVal (trimSpace (str " 12x"))) ∧
      (2 ^ 64 ≤ decVal (leadingDigits (trimSpace (str " 12x"))) → size = 2 ^ 64 - 1) ∧
      (¬ IsDecimalUint64 (trimSpace (str " 12x")) →
        decVal (leadingDigits (trimSpace (str " 12x"))) < 2 ^ 64 → size = 0) :=
  myINFO_share_size_lenient plainCodec {} _ (str "bob") (str "hi<++ V:1,M:A,H:1/0/0,S:2>")
    (str " ") (str "1000" ++ [1]) (str "a@b") (str " 12x") 36
    (by decide) (by decide) (by decide) (by decide) (by decide) (by decide) (by decide)
    (by decide)


theorem isDigit_iff (c : Nat) : isDigit c = true ↔ 48 ≤ c ∧ c ≤ 57 := by
  simp [isDigit]

theorem leadingDigits_eq_self_cons (c : Nat) (cs : Bytes)
    (h : leadingDigits (c :: cs) = c :: cs) : isDigit c = true ∧ leadingDigits cs = cs := by
  rw [leadingDigits_cons] at h
  by_cases hd : isDigit c = true
  · rw [if_pos hd] at h
    exact ⟨hd, List.tail_eq_of_cons_eq h⟩
  · rw [if_neg hd] at h
    simp at h

/-- `ParseInt` on a string whose digits part `ds` is a valid unsigned numeral. -/
theorem parseInt_digits (c : Nat) (cs ds : Bytes)
    (hds : ds = if c = 43 ∨ c = 45 then cs else c :: cs)
    (hv : IsDecimalUint64 ds) :
    parseInt (c :: cs) =
      if ¬ c = 45 ∧ decVal ds ≥ 2 ^ 63 then ((2 : Int) ^ 63 - 1, some NumErr.range)
      else if c = 45 ∧ decVal ds > 2 ^ 63 then (-(2 : Int) ^ 63, some NumErr.range)
      else (if c = 45 then -(decVal ds : Int) else (decVal ds : Int), none) := by
  unfold parseInt
  simp only [← hds, parseUint_valid _ hv]
  by_cases h45 : c = 45 <;> simp [h45]

theorem atoi_of_isDecimalInt64 (s : Bytes) (v : Int) (h : IsDecimalInt64 s v) :
    atoi s = (v, none) := by
  obtain ⟨sign, ds, hs, hsign, hne, hds, hv, hlo, hhi⟩ := h
  unfold atoi
  obtain ⟨d, ds', rfl⟩ := List.exists_cons_of_ne_nil hne
  have hd := (leadingDigits_eq_self_cons d ds' hds).1
  rw [isDigit_iff] at hd
  rcases hsign with rfl | rfl | rfl
  · have h1 : ¬ (d = 43 ∨ d = 45) := by omega
    have hv2 : (decVal (d :: ds') : Int) = v := by simpa using hv.symm
    have hlt : decVal (d :: ds') < 2 ^ 63 := by
      have : (decVal (d :: ds') : Int) < 2 ^ 63 := by rw [hv2]; exact hhi
      exact_mod_cast this
    subst hs
    rw [List.nil_append, parseInt_digits d ds' (d :: ds') (if_neg h1).symm
      ⟨by simp, hds, by omega⟩]
    have h45 : ¬ d = 45 := by omega
    have h2 : ¬ (¬ d = 45 ∧ decVal (d :: ds') ≥ 2 ^ 63) := by omega
    rw [if_neg h2, if_neg (by tauto), if_neg h45, hv2]
  · have hv2 : (decVal (d :: ds') : Int) = v := by simpa using hv.symm
    have hlt : decVal (d :: ds') < 2 ^ 63 := by
      have : (decVal (d :: ds') : Int) < 2 ^ 63 := by rw [hv2]; exact hhi
      exact_mod_cast this
    subst hs
    rw [List.singleton_append, parseInt_digits 43 (d :: ds') (d :: ds')
      (if_pos (Or.inl rfl)).symm ⟨by simp, hds, by omega⟩]
    have h2 : ¬ (¬ (43 : Nat) = 45 ∧ decVal (d :: ds') ≥ 2 ^ 63) := by omega
    rw [if_neg h2, if_neg (by omega), if_neg (by omega), hv2]
  · have hv2 : -(decVal (d :: ds') : Int) = v := by simpa using hv.symm
    have hle : decVal (d :: ds') ≤ 2 ^ 63 := by
      have : (decVal (d :: ds') : Int) ≤ 2 ^ 63 := by omega
      exact_mod_cast this
    subst hs
    rw [List.singleton_append, parseInt_digits 45 (d :: ds') (d :: ds')
      (if_pos (Or.inr rfl)).symm ⟨by simp, hds, by omega⟩]
    have h2 : ¬ (¬ (45 : Nat) = 45 ∧ decVal (d :: ds') ≥ 2 ^ 63) := by omega
    rw [if_neg h2, if_neg (by omega), if_pos rfl, hv2]

theorem atoi_ok_isDecimalInt64 (s : Bytes) (h : (atoi s).2 = none) :
    ∃ v, IsDecimalInt64 s v := by
  unfold atoi at h
  cases s with
  | nil => simp [parseInt] at h
  | cons c cs =>
    by_cases hv : IsDecimalUint64 (if c = 43 ∨ c = 45 then cs else c :: cs)
    · rw [parseInt_digits c cs _ rfl hv] at h
      by_cases h1 : ¬ c = 45 ∧ decVal (if c = 43 ∨ c = 45 then cs else c :: cs) ≥ 2 ^ 63
      · rw [if_pos h1] at h; simp at h
      · rw [if_neg h1] at h
        by_cases h2 : c = 45 ∧ decVal (if c = 43 ∨ c = 45 then cs else c :: cs) > 2 ^ 63
        · rw [if_pos h2] at h; simp at h
        · by_cases h45 : c = 45
          · subst h45
            rw [if_pos (Or.inr rfl)] at hv h1 h2
            refine ⟨-(decVal cs : Int), [45], cs, rfl, Or.inr (Or.inr rfl), hv.1, hv.2.1,
              by simp, ?_, ?_⟩
            · have : decVal cs ≤ 2 ^ 63 := by omega
              have : (decVal cs : Int) ≤ 2 ^ 63 := by exact_mod_cast this
              omega
            · have : (0 : Int) ≤ (decVal cs : Int) := Int.natCast_nonneg _
              have h63 : (0 : Int) < 2 ^ 63 := by norm_num
              omega
          · by_cases h43 : c = 43
            · subst h43
              rw [if_pos (Or.inl rfl)] at hv h1 h2
              refine ⟨(decVal cs : Int), [43], cs, rfl, Or.inr (Or.inl rfl), hv.1, hv.2.1,
                by simp, ?_, ?_⟩
              · have : (0 : Int) ≤ (decVal cs : Int) := Int.natCast_nonneg _
                have h63 : (0 : Int) < 2 ^ 63 := by norm_num
                omega
              · have : decVal cs < 2 ^ 63 := by omega
                exact_mod_cast this
            · have hno : ¬ (c = 43 ∨ c = 45) := by tauto
              rw [if_neg hno] at hv h1 h2
              refine ⟨(decVal (c :: cs) : Int), [], c :: cs, rfl, Or.inl rfl, hv.1, hv.2.1,
                by simp, ?_, ?_⟩
              · have : (0 : Int) ≤ (decVal (c :: cs) : Int) := Int.natCast_nonneg _
                have h63 : (0 : Int) < 2 ^ 63 := by norm_num
                omega
              · have : decVal (c :: cs) < 2 ^ 63 := by omega
                exact_mod_cast this
    · exfalso
      have hp := parseUint_eq (if c = 43 ∨ c = 45 then cs else c :: cs)
      have hnone : (parseUint (if c = 43 ∨ c = 45 then cs else c :: cs)).2 ≠ none :=
        fun hh => hv ((parseUint_ok_iff _).1 hh)
      unfold parseInt at h
      simp only at h
      by_cases hov : 2 ^ 64 ≤ decVal (leadingDigits (if c = 43 ∨ c = 45 then cs else c :: cs))
      · rw [if_pos hov] at hp
        rw [hp] at h
        simp only [maxUint64] at h
        by_cases h45 : c = 45 <;> simp [h45] at h
      · rw [if_neg hov] at hp
        by_cases hall : (if c = 43 ∨ c = 45 then cs else c :: cs) ≠ [] ∧
            leadingDigits (if c = 43 ∨ c = 45 then cs else c :: cs)
              = (if c = 43 ∨ c = 45 then cs else c :: cs)
        · rw [if_pos hall] at hp
          rw [hp] at hnone
          exact hnone rfl
        · rw [if_neg hall] at hp
          rw [hp] at h
          simp at h

/-! ## Lemmas on `MyINFO.unmarshalTag` -/

theorem splitN_two_inv (sep n : Nat) (s f g : Bytes) (rest : List Bytes)
    (h : splitN sep (n + 2) s = f :: g :: rest) :
    sep ∉ f ∧ ∃ s', s = f ++ sep :: s' ∧ splitN sep (n + 1) s' = g :: rest := by
  induction s generalizing f with
  | nil => simp [splitN] at h
  | cons c cs ih =>
    rw [splitN] at h
    simp only [Nat.add_one_ne_zero, if_false] at h
    by_cases hc : c = sep
    · rw [if_pos hc] at h
      simp only [List.cons.injEq] at h
      obtain ⟨rfl, h2⟩ := h
      exact ⟨by simp, cs, by simp [hc], h2⟩
    · rw [if_neg hc] at h
      cases hsp : splitN sep (n + 1 + 1) cs with
      | nil => exact absurd hsp (splitN_ne_nil sep (n + 1) cs)
      | cons f' fs =>
        rw [hsp] at h
        simp only [List.cons.injEq] at h
        obtain ⟨rfl, rfl⟩ := h
        obtain ⟨h1, s', h2, h3⟩ := ih f' hsp
        refine ⟨?_, s', by simp [h2], h3⟩
        intro hmem
        rcases List.mem_cons.1 hmem with h4 | h4
        · exact hc h4.symm
        · exact h1 h4

theorem splitN_one_inv (sep n : Nat) (s f : Bytes)
    (h : splitN sep (n + 2) s = [f]) : sep ∉ f ∧ s = f := by
  induction s generalizing f with
  | nil =>
    simp only [splitN, List.cons.injEq, and_true] at h
    subst h
    simp
  | cons c cs ih =>
    rw [splitN] at h
    simp only [Nat.add_one_ne_zero, if_false] at h
    by_cases hc : c = sep
    · rw [if_pos hc] at h
      simp only [List.cons.injEq] at h
      exact absurd h.2 (splitN_ne_nil sep n cs)
    · rw [if_neg hc] at h
      cases hsp : splitN sep (n + 1 + 1) cs with
      | nil => exact absurd hsp (splitN_ne_nil sep (n + 1) cs)
      | cons f' fs =>
        rw [hsp] at h
        simp only [List.cons.injEq] at h
        obtain ⟨rfl, rfl⟩ := h
        obtain ⟨h1, h2⟩ := ih f' hsp
        refine ⟨?_, by rw [h2]⟩
        intro hmem
        rcases List.mem_cons.1 hmem with h4 | h4
        · exact hc h4.symm
        · exact h1 h4

/-- A value splits into exactly three pieces when, and only when, it is three
pieces free of `/` joined by `/`. -/
theorem splitN_three_iff (val h0 h1 h2 : Bytes) :
    splitN 47 4 val = [h0, h1, h2] ↔
      val = h0 ++ str "/" ++ h1 ++ str "/" ++ h2 ∧ 47 ∉ h0 ∧ 47 ∉ h1 ∧ 47 ∉ h2 := by
  have e : str "/" = [47] := rfl
  constructor
  · intro h
    obtain ⟨a0, s1, e1, r1⟩ := splitN_two_inv 47 2 val h0 h1 [h2] h
    obtain ⟨a1, s2, e2, r2⟩ := splitN_two_inv 47 1 s1 h1 h2 [] r1
    obtain ⟨a2, e3⟩ := splitN_one_inv 47 0 s2 h2 r2
    refine ⟨?_, a0, a1, a2⟩
    rw [e1, e2, e3, e]
    simp
  · rintro ⟨rfl, a0, a1, a2⟩
    have e4 : h0 ++ str "/" ++ h1 ++ str "/" ++ h2 = h0 ++ 47 :: (h1 ++ 47 :: h2) := by
      rw [e]; simp
    rw [e4, splitN_append 47 2 h0 _ a0, splitN_append 47 1 h1 _ a1, splitN_absent 47 1 h2 a2]

theorem tagHubs_ok (st : TagState) (val : Bytes) (a b c : Int) (h : IsHubCounts val a b c) :
    tagHubs st val =
      ({ st with m := { st.m with HubsNormal := a, HubsRegistered := b, HubsOperator := c } },
        none) := by
  obtain ⟨h0, h1, h2, hval, a0, a1, a2, d0, d1, d2⟩ := h
  have hs := (splitN_three_iff val h0 h1 h2).2 ⟨hval, a0, a1, a2⟩
  unfold tagHubs
  rw [hs]
  simp only [atoi_of_isDecimalInt64 _ _ d0, atoi_of_isDecimalInt64 _ _ d1,
    atoi_of_isDecimalInt64 _ _ d2]

theorem tagHubs_fail (st : TagState) (val : Bytes) (h : ¬ ∃ a b c, IsHubCounts val a b c) :
    (tagHubs st val).2 ≠ none := by
  intro hok
  apply h
  unfold tagHubs at hok
  split at hok
  · rename_i h0 h1 h2 hs
    obtain ⟨hval, a0, a1, a2⟩ := (splitN_three_iff val h0 h1 h2).1 hs
    simp only at hok
    cases e0 : (atoi (trimSpace h0)).2 with
    | some e => rw [e0] at hok; simp at hok
    | none =>
      rw [e0] at hok
      simp only at hok
      cases e1 : (atoi (trimSpace h1)).2 with
      | some e => rw [e1] at hok; simp at hok
      | none =>
        rw [e1] at hok
        simp only at hok
        cases e2 : (atoi (trimSpace h2)).2 with
        | some e => rw [e2] at hok; simp at hok
        | none =>
          obtain ⟨a, da⟩ := atoi_ok_isDecimalInt64 _ e0
          obtain ⟨b, db⟩ := atoi_ok_isDecimalInt64 _ e1
          obtain ⟨c, dc⟩ := atoi_ok_isDecimalInt64 _ e2
          exact ⟨a, b, c, h0, h1, h2, hval, a0, a1, a2, da, db, dc⟩
  · simp at hok

theorem str_colon : str ":" = [58] := rfl

/-- The round of the loop on a field with the key `H` or `h`. -/
theorem tagField_hubs (st : TagState) (r : Nat) (key val : Bytes)
    (hkey : key = str "H" ∨ key = str "h") :
    tagField st r (key ++ str ":" ++ val) =
      if val.length = 0 then ({ st with m := { st.m with HubsNormal := 1 } }, none)
      else tagHubs st val := by
  have hidx : index (str ":") (key ++ str ":" ++ val) = some 1 := by
    have h58 : 58 ∉ key := by rcases hkey with rfl | rfl <;> decide
    have hl : key.length = 1 := by rcases hkey with rfl | rfl <;> rfl
    rw [str_colon, List.append_assoc, List.singleton_append,
      index_byte_append 58 key val h58, hl]
  have hlen : ¬ ((key ++ str ":" ++ val).length = 0) := by
    rcases hkey with rfl | rfl <;> simp [str_colon]
  have htake : List.take 1 (key ++ str ":" ++ val) = key := by
    rcases hkey with rfl | rfl <;> rfl
  have hdrop : List.drop (1 + 1) (key ++ str ":" ++ val) = val := by
    rcases hkey with rfl | rfl <;> rfl
  have hV : ¬ (key = str "V" ∨ key = str "v") := by
    rcases hkey with rfl | rfl <;> decide
  have hM : ¬ (key = str "M" ∨ key = str "m") := by
    rcases hkey with rfl | rfl <;> decide
  unfold tagField
  rw [if_neg hlen, hidx]
  simp only [htake, hdrop]
  rw [if_neg hV, if_neg hM, if_pos hkey]

theorem tagLoop_fails (f : Bytes) (hf : ∀ st r, (tagField st r f).2 ≠ none)
    (fields : List Bytes) (hmem : f ∈ fields) (st : TagState) (r : Nat) :
    (tagLoop st r fields).2 ≠ none := by
  induction fields generalizing st r with
  | nil => simp at hmem
  | cons g rest ih =>
    unfold tagLoop
    cases hg : tagField st r g with
    | mk st1 e =>
      cases e with
      | some e => simp
      | none =>
        simp only
        rcases List.mem_cons.1 hmem with h1 | h1
        · subst h1
          exact absurd (by rw [hg]) (hf st r)
        · exact ih h1 st1 (r + 1)

theorem unmarshalTag_fails (m : MyINFO) (tag : Bytes)
    (h : (tagLoop { m := m, client := (tagSplit tag).1, extra := [] } 0 (tagSplit tag).2).2
      ≠ none) :
    (MyINFO.unmarshalTag m tag).2 ≠ none := by
  unfold MyINFO.unmarshalTag
  cases hl : tagLoop { m := m, client := (tagSplit tag).1, extra := [] } 0 (tagSplit tag).2 with
  | mk st e =>
    rw [hl] at h
    cases e with
    | some e => simp
    | none => exact absurd rfl h


/-- C10 (counterexample). A hub-counter value with a negative part is
accepted: `H:-1/0/0` decodes without error, with `HubsNormal = -1`. -/
theorem hub_counters_negative_part_accepted :
    MyINFO.unmarshalTag {} (str "H:-1/0/0") = ({ HubsNormal := -1 }, none) := by
  decide

/-- C10 (amended). Hub-counter decoding in `MyINFO.unmarshalTag`, for a field
with the key `H` or `h`. An empty value sets `HubsNormal` to 1 and leaves the
rest of the record alone, so that a tag block made of this field decodes into a
zero-valued record as (1, 0, 0). A non-empty value is accepted exactly when it
splits on `/` into three parts each of which, without its surrounding white
space, is an optionally signed decimal integer of the 64-bit signed range; the
three integers, negative ones included, become the three counters. Every other
non-empty value makes the decoding of any tag block that holds the field fail
with an error. -/
theorem hub_counters_decoding (key val : Bytes) (hkey : key = str "H" ∨ key = str "h") :
    (∀ st r, tagField st r (key ++ str ":")
        = ({ st with m := { st.m with HubsNormal := 1 } }, none)) ∧
    MyINFO.unmarshalTag {} (key ++ str ":") = ({ HubsNormal := 1 }, none) ∧
    (val ≠ [] → ∀ a b c, IsHubCounts val a b c →
      (∀ st r, tagField st r (key ++ str ":" ++ val)
        = ({ st with m := { st.m with HubsNormal := a, HubsRegistered := b,
                                       HubsOperator := c } }, none)) ∧
      (∀ tag client, tagSplit tag = (client, [key ++ str ":" ++ val]) →
        MyINFO.unmarshalTag {} tag
          = ({ Client := client, HubsNormal := a, HubsRegistered := b, HubsOperator := c },
             none))) ∧
    (val ≠ [] → (¬ ∃ a b c, IsHubCounts val a b c) →
      (∀ st r, (tagField st r (key ++ str ":" ++ val)).2 ≠ none) ∧
      (∀ m tag, key ++ str ":" ++ val ∈ (tagSplit tag).2 →
        (MyINFO.unmarshalTag m tag).2 ≠ none)) := by
  have hlen : ∀ v : Bytes, v ≠ [] → ¬ (v.length = 0) :=
    fun v hv h0 => hv (List.length_eq_zero.mp h0)
  refine ⟨?_, ?_, ?_, ?_⟩
  · intro st r
    have h := tagField_hubs st r key [] hkey
    rw [List.append_nil] at h
    rw [h]
    rfl
  · rcases hkey with rfl | rfl <;> decide
  · intro hne a b c hc
    have hstep : ∀ st r, tagField st r (key ++ str ":" ++ val)
        = ({ st with m := { st.m with HubsNormal := a, HubsRegistered := b,
                                       HubsOperator := c } }, none) := by
      intro st r
      rw [tagField_hubs st r key val hkey, if_neg (hlen val hne), tagHubs_ok st val a b c hc]
    refine ⟨hstep, ?_⟩
    intro tag client hsplit
    unfold MyINFO.unmarshalTag
    rw [hsplit]
    simp only [tagLoop, hstep]
    rfl
  · intro hne hbad
    have hstep : ∀ st r, (tagField st r (key ++ str ":" ++ val)).2 ≠ none := by
      intro st r
      rw [tagField_hubs st r key val hkey, if_neg (hlen val hne)]
      exact tagHubs_fail st val hbad
    refine ⟨hstep, ?_⟩
    intro m tag hmem
    exact unmarshalTag_fails m tag (tagLoop_fails _ hstep _ hmem _ _)

theorem hub_counters_decoding_witness :
    MyINFO.unmarshalTag {} (str "H:-1/ 2/+3")
      = ({ HubsNormal := -1, HubsRegistered := 2, HubsOperator := 3 }, none) ∧
    (MyINFO.unmarshalTag {} (str "++ V:1,H:1/2,S:3")).2 ≠ none :=
  ⟨((hub_counters_decoding (str "H") (str "-1/ 2/+3") (Or.inl rfl)).2.2.1 (by decide)
      (-1) 2 3
      ⟨str "-1", str " 2", str "+3", by decide, by decide, by decide, by decide,
        ⟨[45], [49], by decide, by decide, by decide, by decide, by decide, by decide,
          by decide⟩,
        ⟨[], [50], by decide, by decide, by decide, by decide, by decide, by decide,
          by decide⟩,
        ⟨[43], [51], by decide, by decide, by decide, by decide, by decide, by decide,
          by decide⟩⟩).2 (str "H:-1/ 2/+3") [] (by decide),
   ((hub_counters_decoding (str "H") (str "1/2") (Or.inl rfl)).2.2.2 (by decide)
      (by
        rintro ⟨a, b, c, h0, h1, h2, hval, a0, a1, a2, -⟩
        have h3 := (splitN_three_iff (str "1/2") h0 h1 h2).2 ⟨hval, a0, a1, a2⟩
        revert h3
        have h4 : splitN 47 4 (str "1/2") = [[49], [50]] := by decide
        rw [h4]
        simp)).2 {} (str "++ V:1,H:1/2,S:3") (by decide)⟩

/-! ## Lemmas on the writer: latching of errors -/

theorem setError_latched (w : Writer) (e : WErr) : (w.setError e).Latched e :=
  ⟨rfl, rfl⟩

theorem withTimeout_latches (w : Writer) (body : Writer → Writer × Option WErr) (e : WErr)
    (hbody : ∀ w0, w0.errNolock = w.errNolock → w0.err = w.err →
      (body w0).2 = some e → (body w0).1.Latched e)
    (h : (w.withTimeout some body).2 = some e) :
    (w.withTimeout some body).1.Latched e := by
  unfold Writer.withTimeout at h ⊢
  cases hT : w.Timeout with
  | none =>
    rw [hT] at h
    exact hbody w rfl rfl h
  | some f =>
    rw [hT] at h
    simp only at h ⊢
    cases hf : f w.trace true with
    | some code =>
      rw [hf] at h
      simp only [Option.some.injEq] at h
      subst h
      exact setError_latched _ _
    | none =>
      rw [hf] at h
      simp only at h ⊢
      exact hbody _ rfl rfl h

theorem wrWrite_err (w : Writer) (p : Bytes) :
    (w.wrWrite p).1.err = w.err ∧ (w.wrWrite p).1.errNolock = w.errNolock := by
  unfold Writer.wrWrite
  split <;> exact ⟨rfl, rfl⟩

theorem bwFlush_err (w : Writer) :
    (w.bwFlush).1.err = w.err ∧ (w.bwFlush).1.errNolock = w.errNolock := by
  unfold Writer.bwFlush
  cases w.bw.err with
  | some e => exact ⟨rfl, rfl⟩
  | none =>
    simp only
    split
    · exact ⟨rfl, rfl⟩
    · have h := wrWrite_err w w.bw.buf
      cases hw : w.wrWrite w.bw.buf with
      | mk w1 r =>
        rw [hw] at h
        cases r with
        | none => exact h
        | some nc => exact h

theorem flushBody_latches (e : WErr) (w0 : Writer)
    (h : (match w0.bwFlush with
          | (w1, some e) => (w1.setError e, some e)
          | (w1, none) =>
            if !w1.zlibOn then (w1, none)
            else
              match w1.zFlush with
              | (w2, some e) => (w2.setError e, some e)
              | (w2, none) => (w2, none)).2 = some e) :
    (match w0.bwFlush with
          | (w1, some e) => (w1.setError e, some e)
          | (w1, none) =>
            if !w1.zlibOn then (w1, none)
            else
              match w1.zFlush with
              | (w2, some e) => (w2.setError e, some e)
              | (w2, none) => (w2, none)).1.Latched e := by
  cases hb : w0.bwFlush with
  | mk w1 r =>
    rw [hb] at h
    cases r with
    | some e1 =>
      simp only [Option.some.injEq] at h ⊢
      subst h
      exact setError_latched _ _
    | none =>
      simp only at h ⊢
      by_cases hz : (!w1.zlibOn) = true
      · rw [if_pos hz] at h
        simp at h
      · rw [if_neg hz] at h ⊢
        cases hzf : w1.zFlush with
        | mk w2 r2 =>
          rw [hzf] at h
          cases r2 with
          | some e2 =>
            simp only [Option.some.injEq] at h ⊢
            subst h
            exact setError_latched _ _
          | none => simp at h

/-- An error returned by `flush` is latched. -/
theorem flush_latches (w : Writer) (hs : w.errNolock = w.err) (e : WErr)
    (h : (w.flush).2 = some e) : (w.flush).1.Latched e := by
  unfold Writer.flush at h ⊢
  cases he : w.err with
  | some e0 =>
    rw [he] at h
    simp only [Option.some.injEq] at h
    subst h
    exact ⟨he, by rw [hs, he]⟩
  | none =>
    rw [he] at h
    exact withTimeout_latches w _ e (fun w0 _ _ => flushBody_latches e w0) h

theorem bwWrite_err (w : Writer) (p : Bytes) :
    (w.bwWrite p).1.err = w.err ∧ (w.bwWrite p).1.errNolock = w.errNolock := by
  unfold Writer.bwWrite
  cases w.bw.err with
  | some e => exact ⟨rfl, rfl⟩
  | none =>
    simp only
    split
    · exact ⟨rfl, rfl⟩
    · split
      · have h := wrWrite_err w p
        cases hw : w.wrWrite p with
        | mk w1 r =>
          rw [hw] at h
          cases r with
          | none => exact h
          | some nc => exact h
      · have h1 := bwFlush_err
          { w with bw := { w.bw with
              buf := w.bw.buf ++ List.take (bufSize - w.bw.buf.length) p } }
        cases hf : Writer.bwFlush
          { w with bw := { w.bw with
              buf := w.bw.buf ++ List.take (bufSize - w.bw.buf.length) p } } with
        | mk w2 r =>
          rw [hf] at h1
          cases r with
          | some e => exact h1
          | none =>
            simp only
            split
            · exact h1
            · have h2 := wrWrite_err w2 (List.drop (bufSize - w.bw.buf.length) p)
              cases hw : w2.wrWrite (List.drop (bufSize - w.bw.buf.length) p) with
              | mk w3 r3 =>
                rw [hw] at h2
                cases r3 with
                | none => exact ⟨h2.1.trans h1.1, h2.2.trans h1.2⟩
                | some nc => exact ⟨h2.1.trans h1.1, h2.2.trans h1.2⟩

theorem runHooks_err (hooks : List (Trace → Bytes → Bool × Option Nat)) (w : Writer)
    (i : Nat) (data : Bytes) :
    (∀ e, (w.runHooks hooks i data).2 = HookOutcome.fail e →
      (w.runHooks hooks i data).1.Latched e) ∧
    ((∀ e, (w.runHooks hooks i data).2 ≠ HookOutcome.fail e) →
      (w.runHooks hooks i data).1.err = w.err ∧
      (w.runHooks hooks i data).1.errNolock = w.errNolock) := by
  induction hooks generalizing w i with
  | nil =>
    unfold Writer.runHooks
    exact ⟨fun e h => by simp at h, fun _ => ⟨rfl, rfl⟩⟩
  | cons fnc rest ih =>
    unfold Writer.runHooks
    cases hf : fnc w.trace data with
    | mk ok err =>
      cases err with
      | some code =>
        simp only
        refine ⟨fun e h => ?_, fun h => ?_⟩
        · simp only [HookOutcome.fail.injEq] at h
          subst h
          exact setError_latched _ _
        · exact absurd rfl (h (WErr.ext code))
      | none =>
        cases ok with
        | false =>
          refine ⟨fun e h => ?_, fun _ => ⟨rfl, rfl⟩⟩
          simp at h
        | true =>
          simp only
          exact ih { w with trace := w.trace ++ [Event.onLine i data] } (i + 1)

/-- An error returned by `writeLine` is latched. -/
theorem writeLine_latches (w : Writer) (hs : w.errNolock = w.err) (data : Bytes) (e : WErr)
    (h : (w.writeLine data).2 = some e) : (w.writeLine data).1.Latched e := by
  unfold Writer.writeLine at h ⊢
  cases he : w.err with
  | some e0 =>
    rw [he] at h
    simp only [Option.some.injEq] at h
    subst h
    exact ⟨he, by rw [hs, he]⟩
  | none =>
    rw [he] at h
    simp only at h ⊢
    have hh := runHooks_err w.onLine w 0 data
    cases hr : w.runHooks w.onLine 0 data with
    | mk w1 out =>
      rw [hr] at h hh
      cases out with
      | fail e1 =>
        simp only [Option.some.injEq] at h ⊢
        subst h
        exact hh.1 e1 rfl
      | skip => simp at h
      | proceed =>
        simp only at h ⊢
        have hsync1 : w1.errNolock = w1.err := by
          have := hh.2 (fun e => by simp)
          rw [this.1, this.2, hs]
        refine withTimeout_latches w1 _ e ?_ h
        intro w0 hn0 he0 hb
        have hsync0 : w0.errNolock = w0.err := by rw [hn0, he0, hsync1]
        by_cases hl : w0.lvl > 0
        · rw [if_pos hl] at hb ⊢
          cases hw : w0.bwWrite data with
          | mk w2 r =>
            rw [hw] at hb
            cases r with
            | some e2 =>
              simp only [Option.some.injEq] at hb ⊢
              subst hb
              exact setError_latched _ _
            | none => simp at hb
        · rw [if_neg hl] at hb ⊢
          by_cases hsz : w0.bw.Size ≠ 0
          · rw [if_pos hsz] at hb ⊢
            have hfr := bwWrite_err w0 data
            cases hw : w0.bwWrite data with
            | mk w2 r =>
              rw [hw] at hb hfr
              cases r with
              | some e2 =>
                simp only [Option.some.injEq] at hb ⊢
                subst hb
                exact setError_latched _ _
              | none =>
                simp only at hb ⊢
                exact flush_latches w2 (by rw [hfr.1, hfr.2, hsync0]) e hb
          · rw [if_neg hsz] at hb ⊢
            cases hw : w0.sinkWrite data with
            | mk w2 r =>
              rw [hw] at hb
              cases r with
              | some nc =>
                simp only [Option.some.injEq] at hb ⊢
                subst hb
                exact setError_latched _ _
              | none => simp at hb

/-- An error returned by `WriteLine`, `Flush` or `EndBatch`, other than the
complaint of `EndBatch` about an unpaired call, is latched. -/
theorem step_latches (w : Writer) (hs : w.errNolock = w.err) (op : Op)
    (hop : op.isWriteFlushEnd = true) (code : Nat)
    (h : (w.step op).2 = some (WErr.ext code)) : (w.step op).1.Latched (WErr.ext code) := by
  cases op with
  | writeLine data =>
    simp only [Writer.step, Writer.WriteLine, Writer.Err] at h ⊢
    cases hn : w.errNolock with
    | some e0 =>
      rw [hn] at h
      simp only [Option.some.injEq] at h
      subst h
      exact ⟨by rw [← hs, hn], hn⟩
    | none =>
      rw [hn] at h
      exact writeLine_latches w hs data _ h
  | flush => exact flush_latches w hs _ h
  | endBatch force =>
    simp only [Writer.step, Writer.EndBatch] at h ⊢
    by_cases h1 : w.lvl - 1 < 0
    · rw [if_pos h1] at h
      simp at h
    · rw [if_neg h1] at h ⊢
      by_cases h2 : (!force) = true ∧ w.lvl - 1 > 0
      · rw [if_pos h2] at h
        simp at h
      · rw [if_neg h2] at h ⊢
        exact flush_latches { w with lvl := w.lvl - 1 } hs _ h
  | startBatch => simp [Op.isWriteFlushEnd] at hop
  | enableZlib => simp [Op.isWriteFlushEnd] at hop
  | disableZlib => simp [Op.isWriteFlushEnd] at hop

/-- With an error latched, `WriteLine`, `Flush` and `StartBatch` return it and
leave the writer, its trace included, as it is. -/
theorem step_of_latched (w : Writer) (e : WErr) (hl : w.Latched e) (op : Op)
    (hop : op.isWriteFlushStart = true) : w.step op = (w, some e) := by
  obtain ⟨h1, h2⟩ := hl
  cases op with
  | writeLine data => simp [Writer.step, Writer.WriteLine, Writer.Err, h2]
  | flush => simp [Writer.step, Writer.Flush, Writer.flush, h1]
  | startBatch => simp [Writer.step, Writer.StartBatch, Writer.Err, h2]
  | endBatch force => simp [Op.isWriteFlushStart] at hop
  | enableZlib => simp [Op.isWriteFlushStart] at hop
  | disableZlib => simp [Op.isWriteFlushStart] at hop

theorem run_of_latched (w : Writer) (e : WErr) (hl : w.Latched e) (ops : List Op)
    (hops : ∀ o ∈ ops, o.isWriteFlushStart = true) :
    w.run ops = (w, ops.map (fun _ => some e)) := by
  induction ops with
  | nil => rfl
  | cons op ops ih =>
    have h1 := step_of_latched w e hl op (hops op (by simp))
    have h2 := ih (fun o ho => hops o (by simp [ho]))
    unfold Writer.run
    rw [h1]
    simp only [h2, List.map_cons]


/-- The sticky error along a run of `WriteLine`, `Flush` and `StartBatch`
calls only: once a `WriteLine`, `Flush` or `EndBatch` has failed with an error
of the sink, of the compressor, of the timeout callback or of a hook (an `ext`
error), each call of the run returns exactly that error, and none of them calls
a collaborator: the trace, hence the list of the sink's `Write` calls, stays as
the failed call left it. -/
theorem writer_sticky_error (w : Writer) (hs : w.errNolock = w.err) (op : Op)
    (hop : op.isWriteFlushEnd = true) (code : Nat)
    (hfail : (w.step op).2 = some (WErr.ext code))
    (ops : List Op) (hops : ∀ o ∈ ops, o.isWriteFlushStart = true) :
    ((w.step op).1.run ops).2 = ops.map (fun _ => some (WErr.ext code)) ∧
    ((w.step op).1.run ops).1.trace = (w.step op).1.trace ∧
    sinkCalls ((w.step op).1.run ops).1.trace = sinkCalls (w.step op).1.trace := by
  have hl := step_latches w hs op hop code hfail
  rw [run_of_latched (w.step op).1 (WErr.ext code) hl ops hops]
  exact ⟨rfl, rfl, rfl⟩

theorem writer_sticky_error_witness :
    (((NewWriter failEnv).step (Op.writeLine [1])).1.run
        [Op.writeLine [2], Op.flush, Op.startBatch]).2
      = [some (WErr.ext 7), some (WErr.ext 7), some (WErr.ext 7)] ∧
    (((NewWriter failEnv).step (Op.writeLine [1])).1.run
        [Op.writeLine [2], Op.flush, Op.startBatch]).1.trace
      = ((NewWriter failEnv).step (Op.writeLine [1])).1.trace ∧
    sinkCalls (((NewWriter failEnv).step (Op.writeLine [1])).1.run
        [Op.writeLine [2], Op.flush, Op.startBatch]).1.trace
      = sinkCalls ((NewWriter failEnv).step (Op.writeLine [1])).1.trace :=
  writer_sticky_error (NewWriter failEnv) rfl (Op.writeLine [1]) rfl 7 (by decide)
    [Op.writeLine [2], Op.flush, Op.startBatch] (by decide)

/-! ## Lemmas on the writer: a sink that never fails -/

theorem sinkBytes_append (t1 t2 : Trace) :
    sinkBytes (t1 ++ t2) = sinkBytes t1 ++ sinkBytes t2 := by
  induction t1 with
  | nil => rfl
  | cons ev t ih =>
    cases ev <;> simp [sinkBytes, ih]

theorem sinkCalls_append (t1 t2 : Trace) :
    sinkCalls (t1 ++ t2) = sinkCalls t1 ++ sinkCalls t2 := by
  induction t1 with
  | nil => rfl
  | cons ev t ih =>
    cases ev <;> simp [sinkCalls, ih]

theorem plain_wrWrite (w : Writer) (hp : w.Plain) (p : Bytes) :
    w.wrWrite p = ({ w with trace := w.trace ++ [Event.sinkWrite p] }, none) := by
  unfold Writer.wrWrite
  rw [hp.bwTarget]
  simp [hp.sink w.trace p]

/-- `bufio.Writer.Flush` over a sink that never fails: the buffered bytes go to
the sink in one `Write`, and nothing is written when nothing is buffered. -/
theorem plain_bwFlush (w : Writer) (hp : w.Plain) :
    ∃ w1, w.bwFlush = (w1, none) ∧ w1.Plain ∧ w1.bw.buf = [] ∧ w1.lvl = w.lvl ∧
      sinkBytes w1.trace = sinkBytes w.trace ++ w.bw.buf ∧
      sinkCalls w1.trace = sinkCalls w.trace ++ (if w.bw.buf = [] then [] else [w.bw.buf]) := by
  unfold Writer.bwFlush
  rw [hp.bwErr]
  simp only
  by_cases hb : w.bw.buf.length = 0
  · have hnil : w.bw.buf = [] := List.length_eq_zero.mp hb
    rw [if_pos hb]
    exact ⟨w, rfl, hp, hnil, rfl, by simp [hnil], by simp [hnil]⟩
  · have hnil : w.bw.buf ≠ [] := fun h => hb (by rw [h]; rfl)
    rw [if_neg hb, plain_wrWrite w hp]
    refine ⟨_, rfl, ?_, rfl, rfl, ?_, ?_⟩
    · exact ⟨hp.sink, hp.timeout, hp.hooks, hp.err, hp.errNolock, hp.bwErr, hp.bwTarget,
        hp.zlibOff⟩
    · simp [sinkBytes_append, sinkBytes]
    · simp [sinkCalls_append, sinkCalls, hnil]

/-- `bufio.Writer.Write` over a sink that never fails: no byte is lost or
reordered, and a payload that fits in the free space is only buffered. -/
theorem plain_bwWrite (w : Writer) (hp : w.Plain) (p : Bytes) :
    ∃ w1, w.bwWrite p = (w1, none) ∧ w1.Plain ∧ w1.lvl = w.lvl ∧
      sinkBytes w1.trace ++ w1.bw.buf = sinkBytes w.trace ++ w.bw.buf ++ p ∧
      (p.length ≤ bufSize - w.bw.buf.length →
        w1.trace = w.trace ∧ w1.bw.buf = w.bw.buf ++ p) := by
  unfold Writer.bwWrite
  rw [hp.bwErr]
  simp only
  by_cases h1 : p.length ≤ bufSize - w.bw.buf.length
  · rw [if_pos h1]
    refine ⟨_, rfl, ?_, rfl, by simp, fun _ => ⟨rfl, rfl⟩⟩
    exact ⟨hp.sink, hp.timeout, hp.hooks, hp.err, hp.errNolock, hp.bwErr, hp.bwTarget,
      hp.zlibOff⟩
  · rw [if_neg h1]
    by_cases h2 : w.bw.buf.length = 0
    · have hnil : w.bw.buf = [] := List.length_eq_zero.mp h2
      rw [if_pos h2, plain_wrWrite w hp]
      refine ⟨_, rfl, ?_, rfl, ?_, fun h => absurd h h1⟩
      · exact ⟨hp.sink, hp.timeout, hp.hooks, hp.err, hp.errNolock, hp.bwErr, hp.bwTarget,
          hp.zlibOff⟩
      · simp [sinkBytes_append, sinkBytes, hnil]
    · rw [if_neg h2]
      have hp1 : Writer.Plain { w with bw := { w.bw with
          buf := w.bw.buf ++ List.take (bufSize - w.bw.buf.length) p } } :=
        ⟨hp.sink, hp.timeout, hp.hooks, hp.err, hp.errNolock, hp.bwErr, hp.bwTarget,
          hp.zlibOff⟩
      obtain ⟨w2, hf, hp2, hbuf2, hlvl2, hbytes2, -⟩ := plain_bwFlush _ hp1
      simp only at hf hbytes2 hlvl2
      rw [hf]
      simp only
      by_cases h3 : (List.drop (bufSize - w.bw.buf.length) p).length ≤ bufSize - w2.bw.buf.length
      · rw [if_pos h3]
        refine ⟨_, rfl, ?_, hlvl2, ?_, fun h => absurd h h1⟩
        · exact ⟨hp2.sink, hp2.timeout, hp2.hooks, hp2.err, hp2.errNolock, hp2.bwErr,
            hp2.bwTarget, hp2.zlibOff⟩
        · simp only [hbuf2, hbytes2, List.nil_append, List.append_assoc,
            List.take_append_drop]
      · rw [if_neg h3, plain_wrWrite w2 hp2]
        refine ⟨_, rfl, ?_, hlvl2, ?_, fun h => absurd h h1⟩
        · exact ⟨hp2.sink, hp2.timeout, hp2.hooks, hp2.err, hp2.errNolock, hp2.bwErr,
            hp2.bwTarget, hp2.zlibOff⟩
        · simp only [sinkBytes_append, sinkBytes, hbuf2, hbytes2, List.append_nil,
            List.append_assoc, List.take_append_drop]

theorem plain_flush (w : Writer) (hp : w.Plain) :
    ∃ w1, w.flush = (w1, none) ∧ w1.Plain ∧ w1.bw.buf = [] ∧ w1.lvl = w.lvl ∧
      sinkBytes w1.trace = sinkBytes w.trace ++ w.bw.buf ∧
      sinkCalls w1.trace = sinkCalls w.trace ++ (if w.bw.buf = [] then [] else [w.bw.buf]) := by
  obtain ⟨w1, hf, hp1, hrest⟩ := plain_bwFlush w hp
  refine ⟨w1, ?_, hp1, hrest⟩
  unfold Writer.flush Writer.withTimeout
  rw [hp.err, hp.timeout]
  simp only [hf, hp1.zlibOff]
  rfl


theorem plain_lvl (w : Writer) (hp : w.Plain) (l : Int) : Writer.Plain { w with lvl := l } :=
  ⟨hp.sink, hp.timeout, hp.hooks, hp.err, hp.errNolock, hp.bwErr, hp.bwTarget, hp.zlibOff⟩

/-- `WriteLine` over a sink that never fails, without hooks: the payload is
accepted and ends up behind the bytes written and buffered before. -/
theorem plain_WriteLine (w : Writer) (hp : w.Plain) (data : Bytes) :
    ∃ w1, w.WriteLine data = (w1, none) ∧ w1.Plain ∧ w1.lvl = w.lvl ∧
      sinkBytes w1.trace ++ w1.bw.buf = sinkBytes w.trace ++ w.bw.buf ++ data ∧
      (w.lvl > 0 → data.length ≤ bufSize - w.bw.buf.length →
        w1.trace = w.trace ∧ w1.bw.buf = w.bw.buf ++ data) := by
  unfold Writer.WriteLine Writer.Err Writer.writeLine Writer.withTimeout
  rw [hp.errNolock, hp.err, hp.hooks]
  simp only [Writer.runHooks, hp.timeout]
  obtain ⟨w1, hw, hp1, hlvl1, hbytes1, hfit1⟩ := plain_bwWrite w hp data
  by_cases hl : w.lvl > 0
  · rw [if_pos hl, hw]
    exact ⟨w1, rfl, hp1, hlvl1, hbytes1, fun _ h => hfit1 h⟩
  · have hsz : w.bw.Size ≠ 0 := by simp [BufWriter.Size, bufSize]
    rw [if_neg hl, if_pos hsz, hw]
    obtain ⟨w2, hf, hp2, hbuf2, hlvl2, hbytes2, -⟩ := plain_flush w1 hp1
    simp only [hf]
    refine ⟨w2, rfl, hp2, by rw [hlvl2, hlvl1], ?_, fun h => absurd h hl⟩
    rw [hbuf2, hbytes2, List.append_nil, hbytes1]

/-- A call of `WriteLine`, `StartBatch`, `EndBatch` or `Flush` over a sink that
never fails, without hooks: the bytes written and buffered grow by the payload
the call accepts, and a successful `Flush` or `EndBatch(true)` leaves nothing
buffered. -/
theorem plain_step (w : Writer) (hp : w.Plain) (op : Op) (hop : op.isWriteOrBatch = true) :
    (w.step op).1.Plain ∧
    sinkBytes (w.step op).1.trace ++ (w.step op).1.bw.buf
      = sinkBytes w.trace ++ w.bw.buf ++ accepted [op] [(w.step op).2] ∧
    ((op = Op.flush ∨ op = Op.endBatch true) → (w.step op).2 = none →
      (w.step op).1.bw.buf = []) := by
  cases op with
  | writeLine data =>
    obtain ⟨w1, hw, hp1, -, hbytes1, -⟩ := plain_WriteLine w hp data
    simp only [Writer.step, hw]
    refine ⟨hp1, ?_, fun h => ?_⟩
    · simp [accepted, hbytes1]
    · rcases h with h | h <;> simp at h
  | flush =>
    obtain ⟨w1, hf, hp1, hbuf1, -, hbytes1, -⟩ := plain_flush w hp
    simp only [Writer.step, Writer.Flush, hf]
    refine ⟨hp1, ?_, fun _ _ => hbuf1⟩
    simp [accepted, hbuf1, hbytes1]
  | startBatch =>
    have hs : w.StartBatch = ({ w with lvl := w.lvl + 1 }, none) := by
      unfold Writer.StartBatch
      rw [show w.Err = none from hp.errNolock]
      simp only [hp.err]
    simp only [Writer.step, hs]
    refine ⟨plain_lvl w hp _, ?_, fun h => ?_⟩
    · simp [accepted]
    · rcases h with h | h <;> simp at h
  | endBatch force =>
    simp only [Writer.step, Writer.EndBatch]
    by_cases h1 : w.lvl - 1 < 0
    · rw [if_pos h1]
      refine ⟨plain_lvl w hp _, ?_, fun _ h => ?_⟩
      · simp [accepted]
      · simp at h
    · rw [if_neg h1]
      by_cases h2 : (!force) = true ∧ w.lvl - 1 > 0
      · rw [if_pos h2]
        refine ⟨plain_lvl w hp _, ?_, fun h _ => ?_⟩
        · simp [accepted]
        · rcases h with h | h
          · simp at h
          · simp only [Op.endBatch.injEq] at h
            rw [h] at h2
            simp at h2
      · rw [if_neg h2]
        obtain ⟨w1, hf, hp1, hbuf1, -, hbytes1, -⟩ := plain_flush _ (plain_lvl w hp (w.lvl - 1))
        simp only at hbytes1
        rw [hf]
        refine ⟨hp1, ?_, fun _ _ => hbuf1⟩
        simp [accepted, hbuf1, hbytes1]
  | enableZlib => simp [Op.isWriteOrBatch] at hop
  | disableZlib => simp [Op.isWriteOrBatch] at hop

theorem accepted_cons (op : Op) (r : Option WErr) (ops : List Op) (rs : List (Option WErr)) :
    accepted (op :: ops) (r :: rs) = accepted [op] [r] ++ accepted ops rs := by
  cases op <;> cases r <;> simp [accepted]

/-- Over a sink that never fails, without hooks, the bytes written and the bytes
still buffered are, together, the payloads accepted so far, in order. -/
theorem plain_run (ops : List Op) (hops : ∀ o ∈ ops, o.isWriteOrBatch = true)
    (w : Writer) (hp : w.Plain) :
    (w.run ops).1.Plain ∧
    sinkBytes (w.run ops).1.trace ++ (w.run ops).1.bw.buf
      = sinkBytes w.trace ++ w.bw.buf ++ accepted ops (w.run ops).2 := by
  induction ops generalizing w with
  | nil => exact ⟨hp, by simp [Writer.run, accepted]⟩
  | cons op ops ih =>
    obtain ⟨hp1, hbytes1, -⟩ := plain_step w hp op (hops op (by simp))
    obtain ⟨hp2, hbytes2⟩ := ih (fun o ho => hops o (by simp [ho])) (w.step op).1 hp1
    unfold Writer.run
    refine ⟨hp2, ?_⟩
    simp only
    rw [accepted_cons op (w.step op).2 ops ((w.step op).1.run ops).2, hbytes2, hbytes1,
      List.append_assoc]

theorem newWriter_plain (env : Env) (hsink : env.SinkNeverFails) : (NewWriter env).Plain :=
  ⟨hsink, rfl, rfl, rfl, rfl, rfl, rfl, rfl⟩

/-- C4. Ordering and flush completeness: after any sequence of `WriteLine`,
`StartBatch`, `EndBatch` and `Flush` calls on a writer made by `NewWriter` (no
hooks, compression off) over a sink that never fails, the bytes the sink has
received are a prefix of the concatenation of the payloads accepted so far, in
acceptance order; and when the next call is a `Flush` or an `EndBatch(true)`
that succeeds, the sink has received that whole concatenation when the call
returns. -/
theorem writer_order_and_flush (env : Env) (hsink : env.SinkNeverFails) (ops : List Op)
    (hops : ∀ o ∈ ops, o.isWriteOrBatch = true) :
    sinkBytes ((NewWriter env).run ops).1.trace <+: accepted ops ((NewWriter env).run ops).2 ∧
    ∀ op, (op = Op.flush ∨ op = Op.endBatch true) →
      (((NewWriter env).run ops).1.step op).2 = none →
      sinkBytes (((NewWriter env).run ops).1.step op).1.trace
        = accepted ops ((NewWriter env).run ops).2 := by
  obtain ⟨hp, hbytes⟩ := plain_run ops hops (NewWriter env) (newWriter_plain env hsink)
  have h0 : sinkBytes (NewWriter env).trace ++ (NewWriter env).bw.buf = [] := rfl
  rw [h0, List.nil_append] at hbytes
  refine ⟨⟨_, hbytes⟩, ?_⟩
  intro op hop hok
  have hwb : op.isWriteOrBatch = true := by rcases hop with rfl | rfl <;> rfl
  obtain ⟨-, hbytes1, hbuf1⟩ := plain_step _ hp op hwb
  rw [hbuf1 hop hok, List.append_nil, hbytes] at hbytes1
  rw [hbytes1]
  rcases hop with rfl | rfl <;> simp [accepted]

theorem writer_order_and_flush_witness :
    sinkBytes ((NewWriter okEnv).run
        [Op.startBatch, Op.writeLine [1, 2], Op.startBatch, Op.writeLine [3]]).1.trace
      <+: accepted [Op.startBatch, Op.writeLine [1, 2], Op.startBatch, Op.writeLine [3]]
        ((NewWriter okEnv).run
          [Op.startBatch, Op.writeLine [1, 2], Op.startBatch, Op.writeLine [3]]).2 ∧
    sinkBytes (((NewWriter okEnv).run
        [Op.startBatch, Op.writeLine [1, 2], Op.startBatch, Op.writeLine [3]]).1.step
          (Op.endBatch true)).1.trace
      = [1, 2, 3] :=
  ⟨(writer_order_and_flush okEnv (fun _ _ => rfl)
      [Op.startBatch, Op.writeLine [1, 2], Op.startBatch, Op.writeLine [3]] (by decide)).1,
   (writer_order_and_flush okEnv (fun _ _ => rfl)
      [Op.startBatch, Op.writeLine [1, 2], Op.startBatch, Op.writeLine [3]] (by decide)).2
      (Op.endBatch true) (Or.inr rfl) (by decide)⟩


theorem run_cons (w : Writer) (op : Op) (ops : List Op) :
    w.run (op :: ops) = (((w.step op).1.run ops).1, (w.step op).2 :: ((w.step op).1.run ops).2) :=
  rfl

theorem run_append (ops1 ops2 : List Op) (w : Writer) :
    w.run (ops1 ++ ops2) =
      (((w.run ops1).1.run ops2).1, (w.run ops1).2 ++ ((w.run ops1).1.run ops2).2) := by
  induction ops1 generalizing w with
  | nil => simp [Writer.run]
  | cons op ops ih =>
    rw [List.cons_append, run_cons, run_cons, ih]
    rfl

/-- Inside a batch, payloads that fit in the buffer are only buffered. -/
theorem plain_batch_writes (ps : List Bytes) (w : Writer) (hp : w.Plain) (hl : w.lvl > 0)
    (hfit : w.bw.buf.length + ps.flatten.length ≤ bufSize) :
    (w.run (ps.map Op.writeLine)).1.Plain ∧
    (w.run (ps.map Op.writeLine)).1.lvl = w.lvl ∧
    (w.run (ps.map Op.writeLine)).1.trace = w.trace ∧
    (w.run (ps.map Op.writeLine)).1.bw.buf = w.bw.buf ++ ps.flatten ∧
    (w.run (ps.map Op.writeLine)).2 = List.replicate ps.length none := by
  induction ps generalizing w with
  | nil => exact ⟨hp, rfl, rfl, by simp [Writer.run], rfl⟩
  | cons p ps ih =>
    simp only [List.flatten_cons, List.length_append] at hfit
    obtain ⟨w1, hw, hp1, hlvl1, -, hfit1⟩ := plain_WriteLine w hp p
    obtain ⟨htr1, hbuf1⟩ := hfit1 hl (by omega)
    have hstep : w.step (Op.writeLine p) = (w1, none) := hw
    obtain ⟨hp2, hlvl2, htr2, hbuf2, hres2⟩ := ih w1 hp1 (by rw [hlvl1]; exact hl)
      (by rw [hbuf1, List.length_append]; omega)
    simp only [List.map_cons, Writer.run, hstep]
    refine ⟨hp2, by rw [hlvl2, hlvl1], by rw [htr2, htr1], ?_, ?_⟩
    · rw [hbuf2, hbuf1, List.flatten_cons, List.append_assoc]
    · rw [hres2]
      rfl

/-- `bufio.Writer.Write` of a payload that does not fit behind the bytes
already buffered: the buffer is filled and written to the sink, and the
remainder, when it fits, is buffered. -/
theorem plain_bwWrite_overflow (w : Writer) (hp : w.Plain) (p : Bytes)
    (hne : w.bw.buf.length ≠ 0) (hov : ¬ p.length ≤ bufSize - w.bw.buf.length)
    (hrest : (p.drop (bufSize - w.bw.buf.length)).length ≤ bufSize) :
    w.bwWrite p =
      ({ w with
          trace := w.trace ++
            [Event.sinkWrite (w.bw.buf ++ p.take (bufSize - w.bw.buf.length))],
          bw := { w.bw with buf := p.drop (bufSize - w.bw.buf.length) } }, none) := by
  have hp1 : Writer.Plain { w with bw := { w.bw with
      buf := w.bw.buf ++ List.take (bufSize - w.bw.buf.length) p } } :=
    ⟨hp.sink, hp.timeout, hp.hooks, hp.err, hp.errNolock, hp.bwErr, hp.bwTarget, hp.zlibOff⟩
  have hlen : ¬ ((w.bw.buf ++ List.take (bufSize - w.bw.buf.length) p).length = 0) := by
    rw [List.length_append]; omega
  have hfl : Writer.bwFlush { w with bw := { w.bw with
      buf := w.bw.buf ++ List.take (bufSize - w.bw.buf.length) p } }
      = ({ w with
            trace := w.trace ++
              [Event.sinkWrite (w.bw.buf ++ p.take (bufSize - w.bw.buf.length))],
            bw := { w.bw with buf := [] } }, none) := by
    unfold Writer.bwFlush
    rw [plain_wrWrite _ hp1]
    simp only [hp.bwErr, if_neg hlen]
  unfold Writer.bwWrite
  rw [hp.bwErr]
  simp only
  rw [if_neg hov, if_neg hne]
  simp only [hfl, List.length_nil, Nat.sub_zero, if_pos hrest, List.nil_append]

/-- A batch of two payloads of which the second overflows the buffer makes two
`Write` calls on the sink. -/
theorem batch_overflow_two_writes (env : Env) (hsink : env.SinkNeverFails) (a p : Bytes)
    (ha : a.length ≠ 0) (ha2 : a.length ≤ bufSize) (hov : ¬ p.length ≤ bufSize - a.length)
    (hrest : (p.drop (bufSize - a.length)).length ≤ bufSize)
    (hrest0 : p.drop (bufSize - a.length) ≠ []) :
    sinkCalls ((NewWriter env).run
        [Op.startBatch, Op.writeLine a, Op.writeLine p, Op.endBatch false]).1.trace
      = [a ++ p.take (bufSize - a.length), p.drop (bufSize - a.length)] ∧
    ((NewWriter env).run
        [Op.startBatch, Op.writeLine a, Op.writeLine p, Op.endBatch false]).2
      = [none, none, none, none] := by
  have hp0 : Writer.Plain { NewWriter env with lvl := 1 } :=
    plain_lvl _ (newWriter_plain env hsink) 1
  have hs0 : (NewWriter env).step Op.startBatch = ({ NewWriter env with lvl := 1 }, none) := rfl
  -- the first payload is buffered
  have hs1 : Writer.step { NewWriter env with lvl := 1 } (Op.writeLine a)
      = ({ NewWriter env with lvl := 1, bw := { buf := a } }, none) := by
    have hfit : a.length ≤ bufSize - 0 := by omega
    simp only [Writer.step, Writer.WriteLine, Writer.Err, Writer.writeLine, Writer.runHooks,
      Writer.withTimeout, NewWriter, Writer.bwWrite, List.length_nil, if_pos hfit,
      List.nil_append]
    rfl
  have hp1 : Writer.Plain { NewWriter env with lvl := 1, bw := { buf := a } } :=
    ⟨hsink, rfl, rfl, rfl, rfl, rfl, rfl, rfl⟩
  -- the second one fills the buffer, which is written out
  have hs2 : Writer.step { NewWriter env with lvl := 1, bw := { buf := a } } (Op.writeLine p)
      = ({ NewWriter env with
            lvl := 1,
            trace := [Event.sinkWrite (a ++ p.take (bufSize - a.length))],
            bw := { buf := p.drop (bufSize - a.length) } }, none) := by
    have hw := plain_bwWrite_overflow _ hp1 p ha hov hrest
    simp only [Writer.step, Writer.WriteLine, Writer.Err, Writer.writeLine, Writer.runHooks,
      Writer.withTimeout, NewWriter] at hw ⊢
    rw [hw]
    rfl
  -- the end of the batch writes the remainder
  have hs3 : Writer.step { NewWriter env with
            lvl := 1,
            trace := [Event.sinkWrite (a ++ p.take (bufSize - a.length))],
            bw := { buf := p.drop (bufSize - a.length) } } (Op.endBatch false)
      = ({ NewWriter env with
            lvl := 0,
            trace := [Event.sinkWrite (a ++ p.take (bufSize - a.length)),
              Event.sinkWrite (p.drop (bufSize - a.length))],
            bw := { buf := [] } }, none) := by
    have hl : ¬ ((p.drop (bufSize - a.length)).length = 0) :=
      fun h => hrest0 (List.length_eq_zero.mp h)
    simp only [Writer.step, Writer.EndBatch, Writer.flush, Writer.withTimeout, NewWriter,
      Writer.bwFlush, Writer.wrWrite, if_neg hl, hsink _ _]
    rfl
  simp only [run_cons, hs0, hs1, hs2, hs3, Writer.run, sinkCalls, and_self]

/-- C5 (counterexample). A batch need not end in exactly one `Write` of the
sink: a batch whose only payload is empty ends without any `Write`, and a batch
of a 1-byte and a 4096-byte payload, which overflows the 4096-byte buffer of the
`bufio.Writer`, makes two. -/
theorem batch_not_always_one_write :
    sinkCalls ((NewWriter okEnv).run
        [Op.startBatch, Op.writeLine [], Op.endBatch false]).1.trace = [] ∧
    ((NewWriter okEnv).run [Op.startBatch, Op.writeLine [], Op.endBatch false]).2
      = [none, none, none] ∧
    (sinkCalls ((NewWriter okEnv).run
        [Op.startBatch, Op.writeLine [1], Op.writeLine (List.replicate 4096 2),
          Op.endBatch false]).1.trace).length = 2 ∧
    ((NewWriter okEnv).run
        [Op.startBatch, Op.writeLine [1], Op.writeLine (List.replicate 4096 2),
          Op.endBatch false]).2
      = [none, none, none, none] := by
  have h := batch_overflow_two_writes okEnv (fun _ _ => rfl) [1] (List.replicate 4096 2)
    (by simp) (by simp [bufSize])
    (by rw [List.length_replicate]; simp [bufSize])
    (by rw [List.length_drop, List.length_replicate]; simp [bufSize])
    (by
      intro h0
      have := congrArg List.length h0
      rw [List.length_drop, List.length_replicate] at this
      simp [bufSize] at this)
  refine ⟨by decide, by decide, ?_, h.2⟩
  rw [h.1]
  rfl


/-- C5 (amended). Batch coalescing: on a writer made by `NewWriter` (no hooks,
compression off) over a sink that never fails, `StartBatch`, `WriteLine(p1)`,
..., `WriteLine(pN)`, `EndBatch(false)` results in exactly one `Write` of the
sink, with the argument `p1 ++ ... ++ pN`, provided the payloads have between 1
and 4096 bytes in total (the size of the buffer of the `bufio.Writer`); every
call returns `nil`. -/
theorem batch_coalescing (env : Env) (hsink : env.SinkNeverFails) (ps : List Bytes)
    (hpos : ps.flatten ≠ []) (hle : ps.flatten.length ≤ bufSize) :
    sinkCalls ((NewWriter env).run
        (Op.startBatch :: (ps.map Op.writeLine ++ [Op.endBatch false]))).1.trace
      = [ps.flatten] ∧
    ((NewWriter env).run
        (Op.startBatch :: (ps.map Op.writeLine ++ [Op.endBatch false]))).2
      = List.replicate (ps.length + 2) none := by
  have hp0 : Writer.Plain { NewWriter env with lvl := 1 } :=
    plain_lvl _ (newWriter_plain env hsink) 1
  have hs0 : (NewWriter env).step Op.startBatch = ({ NewWriter env with lvl := 1 }, none) := rfl
  obtain ⟨hp1, hlvl1, htr1, hbuf1, hres1⟩ :=
    plain_batch_writes ps { NewWriter env with lvl := 1 } hp0
      (show (1 : Int) > 0 by decide)
      (by simpa [NewWriter] using hle)
  have hbuf : (Writer.run { NewWriter env with lvl := 1 } (ps.map Op.writeLine)).1.bw.buf
      = ps.flatten := by
    rw [hbuf1]; rfl
  have htr : (Writer.run { NewWriter env with lvl := 1 } (ps.map Op.writeLine)).1.trace
      = [] := by
    rw [htr1]; rfl
  have hlvl : (Writer.run { NewWriter env with lvl := 1 } (ps.map Op.writeLine)).1.lvl
      = 1 := by
    rw [hlvl1]
  obtain ⟨w2, hf, -, -, -, -, hcalls⟩ := plain_flush _
    (plain_lvl _ hp1
      ((Writer.run { NewWriter env with lvl := 1 } (ps.map Op.writeLine)).1.lvl - 1))
  simp only [hbuf, htr, if_neg hpos] at hcalls
  have hend : Writer.step (Writer.run { NewWriter env with lvl := 1 }
      (ps.map Op.writeLine)).1 (Op.endBatch false) = (w2, none) := by
    simp only [Writer.step, Writer.EndBatch, hlvl]
    rw [hlvl] at hf
    simp only [hf]
    rfl
  rw [run_cons, hs0, run_append, run_cons, hend]
  simp only [Writer.run, hres1, hcalls]
  refine ⟨rfl, ?_⟩
  rw [List.replicate_succ, List.replicate_succ']

theorem batch_coalescing_witness :
    sinkCalls ((NewWriter okEnv).run
        (Op.startBatch :: ([[1, 2], [], [3]].map Op.writeLine ++ [Op.endBatch false]))).1.trace
      = [[[1, 2], [], [3]].flatten] ∧
    ((NewWriter okEnv).run
        (Op.startBatch :: ([[1, 2], [], [3]].map Op.writeLine ++ [Op.endBatch false]))).2
      = List.replicate (([[1, 2], [], [3]] : List Bytes).length + 2) none :=
  batch_coalescing okEnv (fun _ _ => rfl) [[1, 2], [], [3]] (by decide) (by decide)

/-! ## Lemmas for the round trip of `MyINFO`: numerals -/

theorem decFrom_append (k : Nat) (a b : Bytes) :
    decFrom k (a ++ b) = decFrom (decFrom k a) b := by
  unfold decFrom
  rw [List.foldl_append]

/-- The digits written by `formatAux` are decimal digits whose value is `n`. -/
theorem formatAux_spec (fuel n : Nat) (acc : Bytes) (hfuel : n < fuel) :
    ∃ ds, formatAux fuel n acc = ds ++ acc ∧ ds ≠ [] ∧ (∀ c ∈ ds, isDigit c = true) ∧
      ∀ k, decFrom k ds = k * 10 ^ ds.length + n := by
  induction fuel generalizing n acc with
  | zero => omega
  | succ fuel ih =>
    unfold formatAux
    by_cases h10 : n < 10
    · rw [if_pos h10]
      refine ⟨[48 + n], rfl, by simp, ?_, ?_⟩
      · intro c hc
        simp only [List.mem_singleton] at hc
        subst hc
        rw [isDigit_iff]
        omega
      · intro k
        simp [decFrom]
    · rw [if_neg h10]
      obtain ⟨ds, hds, hne, hdig, hval⟩ := ih (n / 10) ((48 + n % 10) :: acc) (by omega)
      refine ⟨ds ++ [48 + n % 10], by rw [hds]; simp, by simp, ?_, ?_⟩
      · intro c hc
        rcases List.mem_append.1 hc with h | h
        · exact hdig c h
        · simp only [List.mem_singleton] at h
          subst h
          rw [isDigit_iff]
          omega
      · intro k
        rw [decFrom_append, hval k]
        simp only [decFrom, List.foldl_cons, List.foldl_nil, List.length_append,
          List.length_singleton, Nat.add_sub_cancel_left]
        rw [pow_succ]
        have := Nat.div_add_mod n 10
        nlinarith [Nat.div_add_mod n 10]

theorem leadingDigits_of_all (ds : Bytes) (h : ∀ c ∈ ds, isDigit c = true) :
    leadingDigits ds = ds := by
  induction ds with
  | nil => rfl
  | cons c cs ih =>
    rw [leadingDigits_cons, if_pos (h c (by simp)), ih (fun d hd => h d (by simp [hd]))]

/-- `FormatUint` writes a non-empty string of decimal digits of value `n`. -/
theorem formatUint_spec (n : Nat) :
    formatUint n ≠ [] ∧ (∀ c ∈ formatUint n, isDigit c = true) ∧ decVal (formatUint n) = n := by
  obtain ⟨ds, hds, hne, hdig, hval⟩ := formatAux_spec (n + 1) n [] (by omega)
  unfold formatUint
  rw [hds, List.append_nil]
  refine ⟨hne, hdig, ?_⟩
  unfold decVal
  rw [hval 0]
  simp

theorem formatUint_isDecimalUint64 (n : Nat) (h : n < 2 ^ 64) :
    IsDecimalUint64 (formatUint n) := by
  obtain ⟨hne, hdig, hval⟩ := formatUint_spec n
  exact ⟨hne, leadingDigits_of_all _ hdig, by rw [hval]; exact h⟩

theorem itoa_nonneg (i : Int) (h : 0 ≤ i) : itoa i = formatUint i.toNat := by
  unfold itoa
  rw [if_neg (by omega)]

theorem itoa_isDecimalInt64 (i : Int) (h0 : 0 ≤ i) (h1 : i < 2 ^ 63) :
    IsDecimalInt64 (itoa i) i := by
  obtain ⟨hne, hdig, hval⟩ := formatUint_spec i.toNat
  refine ⟨[], formatUint i.toNat, by rw [itoa_nonneg i h0]; rfl, Or.inl rfl, hne,
    leadingDigits_of_all _ hdig, ?_, by omega, h1⟩
  rw [hval]
  rw [if_neg (by simp)]
  omega


theorem hasPrefix_cons_ne (a b : Nat) (s p : Bytes) (h : a ≠ b) :
    hasPrefix (a :: s) (b :: p) = false := by
  simp [hasPrefix, h]

/-- A printable ASCII byte other than the space starts no white-space rune and
ends none. -/
theorem leadWidth_printable (c : Nat) (s : Bytes) (h1 : 32 < c) (h2 : c < 128) :
    leadWidth spaceRunes (c :: s) = 0 ∧
    leadWidth (spaceRunes.map List.reverse) (c :: s) = 0 := by
  have e : ∀ b p, (b ≤ 32 ∨ 128 ≤ b) → hasPrefix (c :: s) (b :: p) = false :=
    fun b p hb => hasPrefix_cons_ne c b s p (by omega)
  constructor
  · simp [leadWidth, spaceRunes, List.find?, e]
  · simp [leadWidth, spaceRunes, List.find?, e]

theorem trimLeftAux_of_zero (runes : List Bytes) (fuel : Nat) (s : Bytes)
    (h : leadWidth runes s = 0) : trimLeftAux runes fuel s = s := by
  cases fuel with
  | zero => rfl
  | succ fuel => simp [trimLeftAux, h]

/-- `TrimSpace` leaves alone a string that starts and ends with printable ASCII
bytes other than the space. -/
theorem trimSpace_printable (a b : Nat) (mid : Bytes) (ha : 32 < a ∧ a < 128)
    (hb : 32 < b ∧ b < 128) :
    trimSpace ([a] ++ mid ++ [b]) = [a] ++ mid ++ [b] ∧ trimSpace [a] = [a] := by
  have hleft : ∀ s, trimLeft (a :: s) = a :: s := fun s =>
    trimLeftAux_of_zero _ _ _ (leadWidth_printable a s ha.1 ha.2).1
  have hright : ∀ (c : Nat) (s : Bytes), 32 < c ∧ c < 128 → trimRight (s ++ [c]) = s ++ [c] := by
    intro c s hc
    unfold trimRight
    rw [List.reverse_append, List.reverse_singleton, List.singleton_append,
      trimLeftAux_of_zero _ _ _ (leadWidth_printable c s.reverse hc.1 hc.2).2]
    simp
  constructor
  · unfold trimSpace
    rw [List.singleton_append, List.cons_append, hleft]
    exact hright b (a :: mid) hb
  · unfold trimSpace
    rw [hleft]
    exact hright a [] ha

/-- `TrimSpace` leaves a non-empty string of decimal digits alone. -/
theorem trimSpace_digits (ds : Bytes) (hne : ds ≠ []) (hdig : ∀ c ∈ ds, isDigit c = true) :
    trimSpace ds = ds := by
  have hp : ∀ c ∈ ds, 32 < c ∧ c < 128 := by
    intro c hc
    have := (isDigit_iff c).1 (hdig c hc)
    omega
  obtain ⟨a, rest, rfl⟩ := List.exists_cons_of_ne_nil hne
  rcases List.eq_nil_or_concat rest with rfl | ⟨mid, b, rfl⟩
  · exact (trimSpace_printable a a [] (hp a (by simp)) (hp a (by simp))).2
  · have := (trimSpace_printable a b mid (hp a (by simp)) (hp b (by simp))).1
    simpa using this

theorem trimSpace_formatUint (n : Nat) : trimSpace (formatUint n) = formatUint n := by
  obtain ⟨hne, hdig, -⟩ := formatUint_spec n
  exact trimSpace_digits _ hne hdig

theorem atoi_trimSpace_itoa (i : Int) (h0 : 0 ≤ i) (h1 : i < 2 ^ 63) :
    atoi (trimSpace (itoa i)) = (i, none) := by
  rw [itoa_nonneg i h0, trimSpace_formatUint, ← itoa_nonneg i h0]
  exact atoi_of_isDecimalInt64 _ _ (itoa_isDecimalInt64 i h0 h1)

theorem parseUint_trimSpace_formatUint (n : Nat) (h : n < 2 ^ 64) :
    parseUint (trimSpace (formatUint n)) = (n, none) := by
  rw [trimSpace_formatUint, parseUint_valid _ (formatUint_isDecimalUint64 n h),
    (formatUint_spec n).2.2]

theorem not_mem_of_digits (x : Nat) (ds : Bytes) (hdig : ∀ c ∈ ds, isDigit c = true)
    (hx : x < 48 ∨ 57 < x) : x ∉ ds := by
  intro hmem
  have := (isDigit_iff x).1 (hdig x hmem)
  omega

theorem not_mem_itoa (x : Nat) (i : Int) (h0 : 0 ≤ i) (hx : x < 48 ∨ 57 < x) : x ∉ itoa i := by
  rw [itoa_nonneg i h0]
  exact not_mem_of_digits x _ (formatUint_spec _).2.1 hx

/-! ## Lemmas for the round trip of `MyINFO`: the tag -/

theorem str_marker : str " V:" = [32, 86, 58] := rfl

/-- The marker ` V:` is found right after a client name without `:`. -/
theorem index_marker (client rest : Bytes) (h : 58 ∉ client) :
    index (str " V:") (client ++ str " V:" ++ rest) = some client.length := by
  rw [str_marker]
  induction client with
  | nil => simp [index, hasPrefix, hasPrefix_nil]
  | cons x cl ih =>
    have hx : x ≠ 58 := fun e => h (by simp [e])
    have hcl : 58 ∉ cl := fun e => h (by simp [e])
    have hno : hasPrefix (x :: cl ++ [32, 86, 58] ++ rest) [32, 86, 58] = false := by
      cases cl with
      | nil => simp [hasPrefix]
      | cons y cl2 =>
        cases cl2 with
        | nil => simp [hasPrefix]
        | cons z cl3 =>
          have hz : z ≠ 58 := fun e => h (by simp [e])
          simp [hasPrefix, hz]
    have ih1 := ih hcl
    simp only [List.cons_append, List.append_assoc, List.nil_append] at hno ih1 ⊢
    simp [index, hno, ih1]

/-- Fields free of the comma, joined by commas, are what `Split` returns. -/
theorem split_fields (fs : List Bytes) (f : Bytes) (hf : 44 ∉ f) (hfs : ∀ g ∈ fs, 44 ∉ g) :
    split 44 (f ++ (fs.map (fun g => 44 :: g)).flatten) = f :: fs := by
  induction fs generalizing f with
  | nil => simpa using split_absent 44 f hf
  | cons g gs ih =>
    simp only [List.map_cons, List.flatten_cons, List.cons_append]
    rw [split_append 44 f _ hf, ih g (hfs g (by simp)) (fun x hx => hfs x (by simp [hx]))]

/-- The round of the loop on a field `key:val`. -/
theorem tagField_keyed (st : TagState) (r : Nat) (key val : Bytes) (h58 : 58 ∉ key) :
    tagField st r (key ++ str ":" ++ val) =
      if key = str "V" ∨ key = str "v" then
        ({ st with m := { st.m with Version := val } }, none)
      else if key = str "M" ∨ key = str "m" then
        if val.length = 1 then
          ({ st with m := { st.m with Mode := val.headD 0 } }, none)
        else ({ st with m := { st.m with Mode := UserModeUnknown } }, none)
      else if key = str "H" ∨ key = str "h" then
        if val.length = 0 then
          ({ st with m := { st.m with HubsNormal := 1 } }, none)
        else tagHubs st val
      else if key = str "S" ∨ key = str "s" then
        match (atoi (trimSpace val)).2 with
        | some _ =>
          ({ st with m := { st.m with Slots := (atoi (trimSpace val)).1 } },
            some (Err.badSlots val))
        | none => ({ st with m := { st.m with Slots := (atoi (trimSpace val)).1 } }, none)
      else ({ st with extra := mapSet st.extra key val }, none) := by
  have hidx : index (str ":") (key ++ str ":" ++ val) = some key.length := by
    rw [str_colon, List.append_assoc, List.singleton_append, index_byte_append 58 key val h58]
  have hlen : ¬ ((key ++ str ":" ++ val).length = 0) := by simp [str_colon]
  have htake : List.take key.length (key ++ str ":" ++ val) = key := by
    rw [List.append_assoc, List.take_left']
    rfl
  have hdrop : List.drop (key.length + 1) (key ++ str ":" ++ val) = val := by
    rw [str_colon, List.append_assoc, List.drop_append_eq_append_drop]
    simp
  unfold tagField
  rw [if_neg hlen, hidx]
  simp only [htake, hdrop]

theorem tagField_extra (st : TagState) (r : Nat) (kv : Bytes × Bytes) (h58 : 58 ∉ kv.1)
    (hres : kv.1 ∉ reservedKeys) :
    tagField st r (extraField kv) = ({ st with extra := mapSet st.extra kv.1 kv.2 }, none) := by
  unfold extraField
  rw [tagField_keyed st r kv.1 kv.2 h58]
  have h : ∀ k ∈ reservedKeys, kv.1 ≠ k := fun k hk e => hres (e ▸ hk)
  have hV : ¬ (kv.1 = str "V" ∨ kv.1 = str "v") := by
    rintro (e | e)
    · exact h _ (by simp [reservedKeys]) e
    · exact h _ (by simp [reservedKeys]) e
  have hM : ¬ (kv.1 = str "M" ∨ kv.1 = str "m") := by
    rintro (e | e)
    · exact h _ (by simp [reservedKeys]) e
    · exact h _ (by simp [reservedKeys]) e
  have hH : ¬ (kv.1 = str "H" ∨ kv.1 = str "h") := by
    rintro (e | e)
    · exact h _ (by simp [reservedKeys]) e
    · exact h _ (by simp [reservedKeys]) e
  have hS : ¬ (kv.1 = str "S" ∨ kv.1 = str "s") := by
    rintro (e | e)
    · exact h _ (by simp [reservedKeys]) e
    · exact h _ (by simp [reservedKeys]) e
  rw [if_neg hV, if_neg hM, if_neg hH, if_neg hS]

theorem tagLoop_extras (ex : StrMap) (st : TagState) (r : Nat)
    (h : ∀ kv ∈ ex, 58 ∉ kv.1 ∧ kv.1 ∉ reservedKeys) :
    tagLoop st r (ex.map extraField) =
      ({ st with extra := ex.foldl (fun acc kv => mapSet acc kv.1 kv.2) st.extra }, none) := by
  induction ex generalizing st r with
  | nil => rfl
  | cons kv rest ih =>
    have hkv := h kv (by simp)
    simp only [List.map_cons, tagLoop, tagField_extra st r kv hkv.1 hkv.2, List.foldl_cons]
    rw [ih _ _ (fun x hx => h x (by simp [hx]))]

theorem mapSet_new (mp : StrMap) (k v : Bytes) (h : k ∉ mp.map Prod.fst) :
    mapSet mp k v = mp ++ [(k, v)] := by
  induction mp with
  | nil => rfl
  | cons kv rest ih =>
    obtain ⟨k1, v1⟩ := kv
    have h1 : k1 ≠ k := fun e => h (by simp [e])
    have h2 : k ∉ rest.map Prod.fst := fun e => h (by simp [e])
    simp [mapSet, h1, ih h2]

/-- Assigning entries with pairwise distinct new keys, in order, appends them. -/
theorem mapSet_foldl (ex acc : StrMap) (hnodup : ((acc ++ ex).map Prod.fst).Nodup) :
    ex.foldl (fun a kv => mapSet a kv.1 kv.2) acc = acc ++ ex := by
  induction ex generalizing acc with
  | nil => simp
  | cons kv rest ih =>
    have hk : kv.1 ∉ acc.map Prod.fst := by
      intro hmem
      rw [List.map_append, List.map_cons] at hnodup
      have := (List.nodup_append.1 hnodup).2.2
      exact this hmem (by simp)
    rw [List.foldl_cons, mapSet_new acc kv.1 kv.2 hk]
    have := ih (acc ++ [(kv.1, kv.2)]) (by simpa using hnodup)
    simpa using this


theorem hubsWire_isHubCounts (c : TextCodec) (r : MyINFO) (wn wd : Bytes)
    (hv : r.FieldsValid c wn wd) :
    IsHubCounts (hubsWire r) r.HubsNormal r.HubsRegistered r.HubsOperator := by
  refine ⟨itoa r.HubsNormal, itoa r.HubsRegistered, itoa r.HubsOperator, rfl,
    not_mem_itoa 47 _ hv.hubsNormal.1 (by omega), not_mem_itoa 47 _ hv.hubsRegistered.1 (by omega),
    not_mem_itoa 47 _ hv.hubsOperator.1 (by omega), ?_, ?_, ?_⟩
  · rw [itoa_nonneg _ hv.hubsNormal.1, trimSpace_formatUint, ← itoa_nonneg _ hv.hubsNormal.1]
    exact itoa_isDecimalInt64 _ hv.hubsNormal.1 hv.hubsNormal.2
  · rw [itoa_nonneg _ hv.hubsRegistered.1, trimSpace_formatUint,
      ← itoa_nonneg _ hv.hubsRegistered.1]
    exact itoa_isDecimalInt64 _ hv.hubsRegistered.1 hv.hubsRegistered.2
  · rw [itoa_nonneg _ hv.hubsOperator.1, trimSpace_formatUint,
      ← itoa_nonneg _ hv.hubsOperator.1]
    exact itoa_isDecimalInt64 _ hv.hubsOperator.1 hv.hubsOperator.2

theorem itoa_ne_nil (i : Int) (h0 : 0 ≤ i) : itoa i ≠ [] := by
  rw [itoa_nonneg i h0]
  exact (formatUint_spec _).1

theorem hubsWire_ne_nil (r : MyINFO) : hubsWire r ≠ [] := by
  unfold hubsWire
  intro h
  have := congrArg List.length h
  simp [str] at this

theorem not_mem_hubsWire (x : Nat) (c : TextCodec) (r : MyINFO) (wn wd : Bytes)
    (hv : r.FieldsValid c wn wd) (hx : x < 47 ∨ 57 < x) : x ∉ hubsWire r := by
  unfold hubsWire
  have h47 : x ∉ str "/" := by
    intro h
    have : x = 47 := by simpa [str] using h
    omega
  simp only [List.mem_append, not_or]
  exact ⟨⟨⟨⟨not_mem_itoa x _ hv.hubsNormal.1 (by omega), h47⟩,
    not_mem_itoa x _ hv.hubsRegistered.1 (by omega)⟩, h47⟩,
    not_mem_itoa x _ hv.hubsOperator.1 (by omega)⟩

/-- The fields of the written tag hold no comma. -/
theorem tagFieldsWire_no_comma (c : TextCodec) (r : MyINFO) (wn wd : Bytes)
    (hv : r.FieldsValid c wn wd) (hmode : r.Mode ≠ 44) :
    ∀ g ∈ tagFieldsWire r, 44 ∉ g := by
  intro g hg
  unfold tagFieldsWire at hg
  simp only [List.mem_append, List.mem_cons, List.mem_singleton, List.mem_map,
    List.not_mem_nil, or_false] at hg
  rcases hg with (rfl | rfl | rfl | rfl) | ⟨kv, hkv, rfl⟩
  · simp only [List.mem_append, not_or]
    exact ⟨⟨by decide, by decide⟩, hv.version.2.1⟩
  · simp only [List.mem_append, not_or, List.mem_singleton]
    exact ⟨⟨by decide, by decide⟩, fun e => hmode e.symm⟩
  · simp only [List.mem_append, not_or]
    exact ⟨⟨by decide, by decide⟩, not_mem_hubsWire 44 c r wn wd hv (by omega)⟩
  · simp only [List.mem_append, not_or]
    exact ⟨⟨by decide, by decide⟩, not_mem_itoa 44 _ hv.slots.1 (by omega)⟩
  · have h := hv.extra kv hkv
    unfold extraField
    simp only [List.mem_append, not_or]
    exact ⟨⟨h.1.2.1, by decide⟩, h.2.1.2.1⟩

theorem tagSplit_tagWire (c : TextCodec) (r : MyINFO) (wn wd : Bytes)
    (hv : r.FieldsValid c wn wd) (hmode : r.Mode ≠ 44) :
    tagSplit (tagWire r) = (r.Client, tagFieldsWire r) := by
  have hrest : tagWire r = r.Client ++ str " V:" ++
      (r.Version ++ ((tagFieldsWire r).tail.map (fun g => 44 :: g)).flatten) := by
    unfold tagWire
    simp only [List.append_assoc]
  have hidx := index_marker r.Client
    (r.Version ++ ((tagFieldsWire r).tail.map (fun g => 44 :: g)).flatten) hv.client.2.2.2.2
  have hcomma := tagFieldsWire_no_comma c r wn wd hv hmode
  unfold tagSplit
  rw [hrest, hidx]
  simp only
  have htake : List.take r.Client.length (r.Client ++ str " V:" ++
      (r.Version ++ ((tagFieldsWire r).tail.map (fun g => 44 :: g)).flatten)) = r.Client := by
    rw [List.append_assoc, List.take_left']
    rfl
  have hdrop : List.drop (r.Client.length + 1) (r.Client ++ str " V:" ++
      (r.Version ++ ((tagFieldsWire r).tail.map (fun g => 44 :: g)).flatten))
      = (str "V" ++ str ":" ++ r.Version)
        ++ ((tagFieldsWire r).tail.map (fun g => 44 :: g)).flatten := by
    rw [str_marker, List.append_assoc, List.drop_append_eq_append_drop]
    simp [str]
  rw [htake, hdrop]
  have hsplit := split_fields (tagFieldsWire r).tail (str "V" ++ str ":" ++ r.Version)
    (hcomma _ (by simp [tagFieldsWire]))
    (fun g hg => hcomma g (List.mem_of_mem_tail hg))
  rw [hsplit]
  rfl


theorem tagLoop_cons_ok (st st1 : TagState) (r : Nat) (f : Bytes) (fs : List Bytes)
    (h : tagField st r f = (st1, none)) : tagLoop st r (f :: fs) = tagLoop st1 (r + 1) fs := by
  rw [tagLoop, h]

theorem tagField_version (st : TagState) (r : Nat) (val : Bytes) :
    tagField st r (str "V" ++ str ":" ++ val)
      = ({ st with m := { st.m with Version := val } }, none) := by
  rw [tagField_keyed st r (str "V") val (by decide), if_pos (Or.inl rfl)]

theorem tagField_mode (st : TagState) (r : Nat) (b : Nat) :
    tagField st r (str "M" ++ str ":" ++ [b])
      = ({ st with m := { st.m with Mode := b } }, none) := by
  rw [tagField_keyed st r (str "M") [b] (by decide), if_neg (by decide), if_pos (Or.inl rfl)]
  rfl

theorem tagField_slots (st : TagState) (r : Nat) (i : Int) (h0 : 0 ≤ i) (h1 : i < 2 ^ 63) :
    tagField st r (str "S" ++ str ":" ++ itoa i)
      = ({ st with m := { st.m with Slots := i } }, none) := by
  rw [tagField_keyed st r (str "S") (itoa i) (by decide), if_neg (by decide),
    if_neg (by decide), if_neg (by decide), if_pos (Or.inl rfl), atoi_trimSpace_itoa i h0 h1]

theorem tagField_hubsWire (c : TextCodec) (r : MyINFO) (wn wd : Bytes)
    (hv : r.FieldsValid c wn wd) (st : TagState) (q : Nat) :
    tagField st q (str "H" ++ str ":" ++ hubsWire r)
      = ({ st with m := { st.m with HubsNormal := r.HubsNormal,
                                     HubsRegistered := r.HubsRegistered,
                                     HubsOperator := r.HubsOperator } }, none) := by
  rw [tagField_hubs st q (str "H") (hubsWire r) (Or.inl rfl),
    if_neg (fun h => hubsWire_ne_nil r (List.length_eq_zero.mp h)),
    tagHubs_ok _ _ _ _ _ (hubsWire_isHubCounts c r wn wd hv)]

/-- Decoding the written tag gives back the fields of the tag. -/
theorem unmarshalTag_tagWire (c : TextCodec) (r : MyINFO) (wn wd : Bytes)
    (hv : r.FieldsValid c wn wd) (hmode : r.Mode ≠ 44) (m : MyINFO) (hm : m.Extra = []) :
    MyINFO.unmarshalTag m (tagWire r) =
      ({ m with Client := r.Client, Version := r.Version, Mode := r.Mode,
                HubsNormal := r.HubsNormal, HubsRegistered := r.HubsRegistered,
                HubsOperator := r.HubsOperator, Slots := r.Slots, Extra := r.Extra }, none) := by
  have hH := tagField_hubsWire c r wn wd hv
  have hfold : List.foldl (fun acc kv => mapSet acc kv.1 kv.2) [] r.Extra = r.Extra := by
    rw [mapSet_foldl r.Extra [] (by simpa using hv.extraKeys), List.nil_append]
  unfold MyINFO.unmarshalTag
  rw [tagSplit_tagWire c r wn wd hv hmode]
  simp only [tagFieldsWire, List.cons_append, List.nil_append]
  rw [tagLoop_cons_ok _ _ _ _ _ (tagField_version _ _ _),
    tagLoop_cons_ok _ _ _ _ _ (tagField_mode _ _ _),
    tagLoop_cons_ok _ _ _ _ _ (hH _ _),
    tagLoop_cons_ok _ _ _ _ _ (tagField_slots _ _ _ hv.slots.1 hv.slots.2),
    tagLoop_extras r.Extra _ _
      (fun kv hkv => ⟨(hv.extra kv hkv).1.2.2.2.2, (hv.extra kv hkv).2.2⟩)]
  simp only [hfold]
  by_cases hex : r.Extra.length ≠ 0
  · rw [if_pos hex]
  · rw [if_neg hex]
    have : r.Extra = [] := List.length_eq_zero.mp (by simpa using hex)
    simp only [this, hm]

/-! ## The round trip of `MyINFO` -/

theorem str_lt : str "<" = [60] := rfl
theorem str_gt : str ">" = [62] := rfl
theorem str_slash : str "/" = [47] := rfl
theorem str_comma : str "," = [44] := rfl
theorem str_V : str "V" = [86] := rfl
theorem str_M : str "M" = [77] := rfl
theorem str_H : str "H" = [72] := rfl
theorem str_S : str "S" = [83] := rfl
theorem str_cM : str ",M:" = [44, 77, 58] := rfl
theorem str_cH : str ",H:" = [44, 72, 58] := rfl
theorem str_cS : str ",S:" = [44, 83, 58] := rfl
theorem str_tail : str ">$ $" = [62, 36, 32, 36] := rfl

theorem extras_flatten (ex : StrMap) :
    (ex.map (fun kv => str "," ++ kv.1 ++ str ":" ++ kv.2)).flatten
      = ((ex.map extraField).map (fun g => 44 :: g)).flatten := by
  induction ex with
  | nil => rfl
  | cons kv rest ih =>
    rw [List.map_cons, List.flatten_cons, ih]
    simp only [List.map_cons, List.flatten_cons, extraField, str_comma, str_colon,
      List.cons_append, List.nil_append, List.append_assoc]

theorem mem_tagWire (r : MyINFO) (x : Nat) (h : x ∈ tagWire r) :
    x ∈ r.Client ∨ x ∈ r.Version ∨ x ∈ [32, 86, 58, 44, 77, 72, 83] ∨ x = r.Mode ∨
      x ∈ hubsWire r ∨ x ∈ itoa r.Slots ∨ ∃ kv ∈ r.Extra, x ∈ kv.1 ∨ x ∈ kv.2 := by
  unfold tagWire tagFieldsWire at h
  simp only [List.tail_cons, List.cons_append, List.nil_append, List.map_cons,
    List.flatten_cons, List.mem_append, List.mem_cons, List.mem_flatten, List.mem_map,
    str_marker, str_M, str_H, str_S, str_colon, List.mem_singleton, List.not_mem_nil,
    or_false, List.map_map] at h
  have lit : ∀ y : Nat, y ∈ [32, 86, 58, 44, 77, 72, 83] →
      x = y → x ∈ r.Client ∨ x ∈ r.Version ∨ x ∈ [32, 86, 58, 44, 77, 72, 83] ∨ x = r.Mode ∨
        x ∈ hubsWire r ∨ x ∈ itoa r.Slots ∨ ∃ kv ∈ r.Extra, x ∈ kv.1 ∨ x ∈ kv.2 :=
    fun y hy e => Or.inr (Or.inr (Or.inl (e ▸ hy)))
  rcases h with ((h | h | h | h) | h) | h | h | h | h | h | h | h | h | h | h | h | h | h
  · exact Or.inl h
  · exact lit 32 (by simp) h
  · exact lit 86 (by simp) h
  · exact lit 58 (by simp) h
  · exact Or.inr (Or.inl h)
  · exact lit 44 (by simp) h
  · exact lit 77 (by simp) h
  · exact lit 58 (by simp) h
  · exact Or.inr (Or.inr (Or.inr (Or.inl h)))
  · exact lit 44 (by simp) h
  · exact lit 72 (by simp) h
  · exact lit 58 (by simp) h
  · exact Or.inr (Or.inr (Or.inr (Or.inr (Or.inl h))))
  · exact lit 44 (by simp) h
  · exact lit 83 (by simp) h
  · exact lit 58 (by simp) h
  · exact Or.inr (Or.inr (Or.inr (Or.inr (Or.inr (Or.inl h)))))
  · obtain ⟨l, ⟨kv, hkv, rfl⟩, hmem⟩ := h
    simp only [Function.comp, extraField, List.mem_cons, List.mem_append, str_colon,
      List.mem_singleton, List.not_mem_nil, or_false] at hmem
    rcases hmem with h1 | (h1 | h1) | h1
    · exact lit 44 (by simp) h1
    · exact Or.inr (Or.inr (Or.inr (Or.inr (Or.inr (Or.inr ⟨kv, hkv, Or.inl h1⟩)))))
    · exact lit 58 (by simp) h1
    · exact Or.inr (Or.inr (Or.inr (Or.inr (Or.inr (Or.inr ⟨kv, hkv, Or.inr h1⟩)))))

/-- The written tag holds neither `$` nor `<`. -/
theorem tagWire_clean (c : TextCodec) (r : MyINFO) (wn wd : Bytes)
    (hv : r.FieldsValid c wn wd) (x : Nat) (hx : x = 36 ∨ x = 60) (hmode : r.Mode ≠ x) :
    x ∉ tagWire r := by
  intro hmem
  rcases mem_tagWire r x hmem with h | h | h | h | h | h | ⟨kv, hkv, h⟩
  · rcases hx with rfl | rfl
    · exact hv.client.1 h
    · exact hv.client.2.2.1 h
  · rcases hx with rfl | rfl
    · exact hv.version.1 h
    · exact hv.version.2.2.1 h
  · rcases hx with rfl | rfl <;> simp at h
  · exact hmode h.symm
  · exact not_mem_hubsWire x c r wn wd hv (by omega) h
  · exact not_mem_itoa x _ hv.slots.1 (by omega) h
  · have hk := hv.extra kv hkv
    rcases hx with rfl | rfl
    · rcases h with h | h
      · exact hk.1.1 h
      · exact hk.2.1.1 h
    · rcases h with h | h
      · exact hk.1.2.2.1 h
      · exact hk.2.1.2.2.1 h

/-- What `MarshalNMDC` writes for a valid record with a known mode and a
non-zero flag, as a line of five fields. -/
theorem marshal_eq_infoLine (c : TextCodec) (r : MyINFO) (wn wd : Bytes)
    (hv : r.FieldsValid c wn wd) (hmode : r.Mode ≠ UserModeUnknown ∧ r.Mode ≠ 32)
    (hflag : r.Flag ≠ 0) :
    MyINFO.MarshalNMDC c r = Except.ok
      (infoLine wn (wd ++ str "<" ++ tagWire r ++ str ">") (str " ") (r.Conn ++ [r.Flag])
        r.Email (formatUint r.ShareSize) 36) := by
  rw [(myINFO_marshal_wire_format c r wn wd hv.nameEnc hv.descEnc).1]
  have hm : ¬ (r.Mode = UserModeUnknown ∨ r.Mode = 32) := by tauto
  rw [if_neg hm, if_neg hflag, extras_flatten]
  unfold infoLine tagWire tagFieldsWire hubsWire
  simp only [str_lt, str_gt, str_slash, str_V, str_M, str_H, str_S, str_cM, str_cH, str_cS,
    str_tail, str_marker, str_colon, str_dollar, str_space,
    List.tail_cons, List.map_cons, List.map_append, List.flatten_cons,
    List.flatten_append, List.cons_append, List.nil_append, List.append_assoc, List.map_nil,
    List.flatten_nil, List.append_nil]


theorem getLastD_concat (s : Bytes) (x d : Nat) : (s ++ [x]).getLastD d = x := by
  rw [List.getLastD_eq_getLast?]
  simp

/-- The fields 2 to 5 of the written line, decoded after the tag. -/
theorem unmarshalFields_wire (c : TextCodec) (r : MyINFO) (wn wd : Bytes)
    (hv : r.FieldsValid c wn wd) (m : MyINFO) :
    unmarshalFields c m true wd (str " ") (r.Conn ++ [r.Flag]) r.Email
        (formatUint r.ShareSize)
      = Res.ok { m with Desc := r.Desc, Flag := r.Flag, Conn := r.Conn, Email := r.Email,
                        ShareSize := r.ShareSize } := by
  have h3 : (r.Conn ++ [r.Flag]).length > 0 := by simp
  have h5 : (formatUint r.ShareSize).length ≠ 0 :=
    fun h => (formatUint_spec r.ShareSize).1 (List.length_eq_zero.mp h)
  unfold unmarshalFields
  rw [hv.descDec]
  simp only
  rw [if_neg (by decide), if_pos h3, if_pos h5, parseUint_trimSpace_formatUint _ hv.share]
  simp [getLastD_concat]

/-- The five fields of the written line, decoded. -/
theorem unmarshalSplit_wire (c : TextCodec) (r : MyINFO) (wn wd : Bytes)
    (hv : r.FieldsValid c wn wd) (hmode : r.Mode ≠ 44) (m : MyINFO) (hm : m.Extra = []) :
    unmarshalSplit c m (wd ++ str "<" ++ tagWire r ++ str ">") (str " ")
        (r.Conn ++ [r.Flag]) r.Email (formatUint r.ShareSize)
      = Res.ok { r with Name := m.Name } := by
  have hidx : index (str "<") (wd ++ str "<" ++ tagWire r ++ str ">") = some wd.length := by
    rw [str_lt, List.append_assoc, List.append_assoc, List.singleton_append,
      index_byte_append 60 wd _ hv.descWire.2.2]
  have htake : List.take wd.length (wd ++ str "<" ++ tagWire r ++ str ">") = wd := by
    rw [List.append_assoc, List.append_assoc, List.take_left']
    rfl
  have hdrop : List.drop (wd.length + 1) (wd ++ str "<" ++ tagWire r ++ str ">")
      = tagWire r ++ [62] := by
    rw [str_lt, str_gt, List.append_assoc, List.append_assoc,
      List.drop_append_eq_append_drop]
    simp
  have hlen : ¬ ((tagWire r ++ [62]).length = 0) := by simp
  have hlast : (tagWire r ++ [62]).getLastD 0 = 62 := getLastD_concat _ _ _
  have hstrip : List.take ((tagWire r ++ [62]).length - 1) (tagWire r ++ [62]) = tagWire r := by
    simp
  unfold unmarshalSplit
  rw [hidx]
  simp only [htake, hdrop]
  rw [if_neg hlen, if_pos hlast, hstrip,
    unmarshalTag_tagWire c r wn wd hv hmode { m with Mode := UserModeUnknown } hm]
  simp only
  rw [unmarshalFields_wire c r wn wd hv]

/-- C1 (counterexample). The round trip fails on records that are valid as the
claim has it: a record with the flag byte 0x24 (`FlagStatusServer` and
`FlagTLSUpload`), which is the separator `$`, is encoded into a line of six
fields that the decoder rejects; and a record with `Mode = UserModeUnknown` is
decoded with `Mode` the space byte 0x20. -/
theorem myINFO_roundTrip_fails :
    MyINFO.FieldsValid plainCodec { Name := str "bob", Mode := UserModeActive, Flag := 0x24 }
      (str "bob") [] ∧
    MyINFO.FieldsValid plainCodec { Name := str "bob", Mode := UserModeUnknown, Flag := 1 }
      (str "bob") [] ∧
    MyINFO.roundTrip plainCodec { Name := str "bob", Mode := UserModeActive, Flag := 0x24 }
      = some (Res.fail (Err.badInfo (str "< V:,M:A,H:0/0/0,S:0>$ $$$$0$"))
          { Name := str "bob" }) ∧
    MyINFO.roundTrip plainCodec { Name := str "bob", Mode := UserModeUnknown, Flag := 1 }
      = some (Res.ok { Name := str "bob", Mode := 32, Flag := 1 }) := by
  refine ⟨?_, ?_, by decide, by decide⟩
  · exact ⟨rfl, rfl, by decide, rfl, rfl, by decide, by decide, by decide, by decide,
      by decide, by simp, by simp, by decide, by decide, by decide, by decide, by decide⟩
  · exact ⟨rfl, rfl, by decide, rfl, rfl, by decide, by decide, by decide, by decide,
      by decide, by simp, by simp, by decide, by decide, by decide, by decide, by decide⟩

/-- C1 (amended). Round trip of the presence record: for every `MyINFO` value
`r` that is valid (the name and the description are round-tripped by their
codecs and their encoded forms hold no space, `$` or `<`; the client, the
version, the connection, the email and the keys and values of `Extra` hold no
wire delimiter; no key of `Extra` is a key of the tag; the counters and the
slots are non-negative), whose `Mode` is Active, Passive or SOCKS5 and whose
`Flag` is a non-zero combination of the flag bits other than the byte 0x24,
`MarshalNMDC` succeeds and `UnmarshalNMDC` of its output into a zero-valued
record succeeds and yields `r`. -/
theorem myINFO_roundTrip (c : TextCodec) (r : MyINFO) (wn wd : Bytes)
    (hv : r.FieldsValid c wn wd)
    (hmode : r.Mode = UserModeActive ∨ r.Mode = UserModePassive ∨ r.Mode = UserModeSOCKS5)
    (hflag : 0 < r.Flag ∧ r.Flag < 256 ∧ r.Flag ≠ 0x24) :
    MyINFO.roundTrip c r = some (Res.ok r) := by
  have hm : r.Mode = 65 ∨ r.Mode = 80 ∨ r.Mode = 53 := hmode
  have hm0 : r.Mode ≠ UserModeUnknown ∧ r.Mode ≠ 32 := by
    simp only [UserModeUnknown]; omega
  have h1 : 36 ∉ wd ++ str "<" ++ tagWire r ++ str ">" := by
    simp only [List.mem_append, not_or, str_lt, str_gt, List.mem_singleton]
    exact ⟨⟨⟨hv.descWire.2.1, by decide⟩,
      tagWire_clean c r wn wd hv 36 (Or.inl rfl) (by omega)⟩, by decide⟩
  have h3 : 36 ∉ r.Conn ++ [r.Flag] := by
    simp only [List.mem_append, not_or, List.mem_singleton]
    exact ⟨hv.conn.1, fun e => hflag.2.2 e.symm⟩
  have h5 : 36 ∉ formatUint r.ShareSize :=
    not_mem_of_digits 36 _ (formatUint_spec _).2.1 (by omega)
  unfold MyINFO.roundTrip
  rw [marshal_eq_infoLine c r wn wd hv hm0 (by omega)]
  simp only
  rw [unmarshal_infoLine c {} wn _ _ _ _ _ 36 hv.nameWire.1 h1 (by decide) h3 hv.email.1 h5,
    hv.nameDec]
  simp only
  rw [unmarshalSplit_wire c r wn wd hv (by omega) _ rfl]

theorem myINFO_roundTrip_witness :
    MyINFO.roundTrip plainCodec
        { Name := str "bob", Desc := str "hi", Client := str "++", Version := str "1.0",
          Mode := UserModeActive, HubsNormal := 2, HubsRegistered := 1, HubsOperator := 0,
          Slots := 3, Extra := [(str "K", str "x y"), (str "", str "")],
          Conn := str "1000", Flag := FlagStatusNormal, Email := str "a@b",
          ShareSize := 12345 }
      = some (Res.ok
        { Name := str "bob", Desc := str "hi", Client := str "++", Version := str "1.0",
          Mode := UserModeActive, HubsNormal := 2, HubsRegistered := 1, HubsOperator := 0,
          Slots := 3, Extra := [(str "K", str "x y"), (str "", str "")],
          Conn := str "1000", Flag := FlagStatusNormal, Email := str "a@b",
          ShareSize := 12345 }) :=
  myINFO_roundTrip plainCodec _ (str "bob") (str "hi")
    ⟨rfl, rfl, by decide, rfl, rfl, by decide, by decide, by decide, by decide, by decide,
      by decide, by decide, by decide, by decide, by decide, by decide, by decide⟩
    (Or.inl rfl) (by decide)

/-! ## The copy `errNolock` of the sticky error -/

theorem withTimeout_synced {α : Type} (w : Writer) (hs : w.errNolock = w.err)
    (onErr : WErr → α) (body : Writer → Writer × α)
    (hbody : ∀ w0, w0.errNolock = w0.err → (body w0).1.errNolock = (body w0).1.err) :
    (w.withTimeout onErr body).1.errNolock = (w.withTimeout onErr body).1.err := by
  unfold Writer.withTimeout
  cases w.Timeout with
  | none => exact hbody w hs
  | some f =>
    simp only
    cases f w.trace true with
    | some code => rfl
    | none => exact hbody _ hs

theorem flush_synced (w : Writer) (hs : w.errNolock = w.err) :
    (w.flush).1.errNolock = (w.flush).1.err := by
  unfold Writer.flush
  cases w.err with
  | some e => exact hs
  | none =>
    refine withTimeout_synced w hs some _ ?_
    intro w0 hs0
    have hfr := bwFlush_err w0
    cases hb : w0.bwFlush with
    | mk w1 r =>
      rw [hb] at hfr
      cases r with
      | some e => rfl
      | none =>
        simp only
        split
        · rw [hfr.1, hfr.2, hs0]
        · simp only [Writer.zFlush]
          cases w1.env.zlibFlush w1.trace with
          | some code => rfl
          | none => exact (hfr.2.trans hs0).trans hfr.1.symm

theorem runHooks_synced (hooks : List (Trace → Bytes → Bool × Option Nat)) (w : Writer)
    (hs : w.errNolock = w.err) (i : Nat) (data : Bytes) :
    (w.runHooks hooks i data).1.errNolock = (w.runHooks hooks i data).1.err := by
  induction hooks generalizing w i with
  | nil => exact hs
  | cons fnc rest ih =>
    unfold Writer.runHooks
    cases hf : fnc w.trace data with
    | mk ok err =>
      cases err with
      | some code => cases ok <;> rfl
      | none =>
        cases ok with
        | false => exact hs
        | true =>
          exact ih { w with trace := w.trace ++ [Event.onLine i data] } hs (i + 1)

theorem writeLine_synced (w : Writer) (hs : w.errNolock = w.err) (data : Bytes) :
    (w.writeLine data).1.errNolock = (w.writeLine data).1.err := by
  unfold Writer.writeLine
  cases w.err with
  | some e => exact hs
  | none =>
    simp only
    have hh := runHooks_synced w.onLine w hs 0 data
    cases hr : w.runHooks w.onLine 0 data with
    | mk w1 out =>
      rw [hr] at hh
      cases out with
      | fail e1 => exact hh
      | skip => exact hh
      | proceed =>
        refine withTimeout_synced w1 hh some _ ?_
        intro w0 hs0
        have hfr := bwWrite_err w0 data
        have hs2 : (w0.bwWrite data).1.errNolock = (w0.bwWrite data).1.err := by
          rw [hfr.1, hfr.2, hs0]
        split
        · cases hw : w0.bwWrite data with
          | mk w2 r =>
            rw [hw] at hs2
            cases r with
            | some e => rfl
            | none => exact hs2
        · split
          · cases hw : w0.bwWrite data with
            | mk w2 r =>
              rw [hw] at hs2
              cases r with
              | some e => rfl
              | none => exact flush_synced w2 hs2
          · simp only [Writer.sinkWrite]
            cases w0.env.sink w0.trace data with
            | some nc => rfl
            | none => exact hs0

/-- Every operation keeps `errNolock` equal to `err`. -/
theorem step_synced (w : Writer) (hs : w.errNolock = w.err) (op : Op) :
    (w.step op).1.errNolock = (w.step op).1.err := by
  cases op with
  | writeLine data =>
    simp only [Writer.step, Writer.WriteLine, Writer.Err]
    cases hn : w.errNolock with
    | some e => exact hs
    | none => exact writeLine_synced w hs data
  | flush => exact flush_synced w hs
  | startBatch =>
    simp only [Writer.step, Writer.StartBatch, Writer.Err]
    cases hn : w.errNolock with
    | some e => exact hs
    | none =>
      show none = w.err
      rw [← hs, hn]
  | endBatch force =>
    simp only [Writer.step, Writer.EndBatch]
    split
    · exact hs
    · split
      · exact hs
      · exact flush_synced { w with lvl := w.lvl - 1 } hs
  | enableZlib =>
    simp only [Writer.step, Writer.EnableZlib]
    split
    · exact hs
    · have hf := flush_synced w hs
      cases hfl : w.flush with
      | mk w1 r =>
        rw [hfl] at hf
        cases r with
        | some e => exact hf
        | none =>
          simp only
          split <;> exact hf
  | disableZlib =>
    simp only [Writer.step, Writer.DisableZlib]
    split
    · exact hs
    · have hfr := bwFlush_err w
      cases hb : w.bwFlush with
      | mk w1 r =>
        rw [hb] at hfr
        cases r with
        | some e => rfl
        | none =>
          simp only [Writer.zClose]
          cases w1.env.zlibClose w1.trace with
          | some code => rfl
          | none => exact (hfr.2.trans hs).trans hfr.1.symm

/-- In every state reached from `NewWriter`, whatever hooks and timeout
callback are installed, `errNolock` equals `err`. -/
theorem run_synced (w : Writer) (hs : w.errNolock = w.err) (ops : List Op) :
    (w.run ops).1.errNolock = (w.run ops).1.err := by
  induction ops generalizing w with
  | nil => exact hs
  | cons op ops ih =>
    rw [run_cons]
    exact ih _ (step_synced w hs op)

/-! ## The mode byte of the tag -/

/-- C11 (evaluation at the failing input). A tag whose `M` value is a space is
decoded with `Mode` the space byte 0x20, not `UserModeUnknown`: the line is the
one `MarshalNMDC` writes for the unknown mode. The legacy field of a line
without a tag does turn the space into `UserModeUnknown`, and a tag value that
is not one byte long gives `UserModeUnknown` too. -/
theorem tag_mode_space_is_kept :
    MyINFO.MarshalNMDC plainCodec
        { Name := str "bob", Client := str "++", Version := str "1", HubsNormal := 1,
          Slots := 1, Conn := str "1000", Flag := 1 }
      = Except.ok unknownModeLine ∧
    MyINFO.UnmarshalNMDC plainCodec {} unknownModeLine
      = Res.ok { Name := str "bob", Client := str "++", Version := str "1", Mode := 32,
                 HubsNormal := 1, Slots := 1, Conn := str "1000", Flag := 1 } ∧
    MyINFO.UnmarshalNMDC plainCodec {} legacySpaceLine
      = Res.ok { Name := str "bob", Mode := UserModeUnknown, Conn := str "1000", Flag := 1 } ∧
    (MyINFO.unmarshalTag {} (str "M:AP")).1.Mode = UserModeUnknown := by
  refine ⟨rfl, by decide, by decide, by decide⟩

/-! ## Misuse of the compression toggle and of `EndBatch` -/

/-- C13. Compression toggle misuse is reported and harmless: `EnableZlib` on a
writer whose compression is active returns the already-active error,
`DisableZlib` on a writer whose compression is not active returns the
not-active error, and both leave the writer exactly as it was (trace of calls,
sticky error, buffer, depth, compression flag and compressor included); in
particular a second `EnableZlib` right after a successful one fails that way
and changes nothing. -/
theorem zlib_toggle_misuse (w : Writer) :
    (w.zlibOn = true → w.EnableZlib = (w, some WErr.zlibAlreadyActive)) ∧
    (w.zlibOn = false → w.DisableZlib = (w, some WErr.zlibNotActive)) ∧
    ((w.EnableZlib).2 = none →
      (w.EnableZlib).1.EnableZlib = ((w.EnableZlib).1, some WErr.zlibAlreadyActive)) := by
  have h1 : ∀ v : Writer, v.zlibOn = true → v.EnableZlib = (v, some WErr.zlibAlreadyActive) := by
    intro v hv
    unfold Writer.EnableZlib
    rw [if_pos hv]
  refine ⟨h1 w, ?_, ?_⟩
  · intro hz
    unfold Writer.DisableZlib
    rw [hz]
    rfl
  · intro hok
    apply h1
    unfold Writer.EnableZlib at hok ⊢
    by_cases hz : w.zlibOn = true
    · rw [if_pos hz] at hok
      simp at hok
    · rw [if_neg hz] at hok ⊢
      cases hf : w.flush with
      | mk w1 r =>
        rw [hf] at hok
        cases r with
        | some e => simp at hok
        | none =>
          simp only
          split <;> rfl

theorem zlib_toggle_misuse_witness :
    ((NewWriter okEnv).EnableZlib).1.EnableZlib
      = (((NewWriter okEnv).EnableZlib).1, some WErr.zlibAlreadyActive) ∧
    (NewWriter okEnv).DisableZlib = (NewWriter okEnv, some WErr.zlibNotActive) ∧
    ((NewWriter okEnv).EnableZlib).1.EnableZlib
      = (((NewWriter okEnv).EnableZlib).1, some WErr.zlibAlreadyActive) :=
  ⟨(zlib_toggle_misuse ((NewWriter okEnv).EnableZlib).1).1 rfl,
   (zlib_toggle_misuse (NewWriter okEnv)).2.1 rfl,
   (zlib_toggle_misuse (NewWriter okEnv)).2.2 (by decide)⟩

/-- C19 (evaluation at the failing input). `EndBatch` at depth 0 returns the
unpaired-EndBatch error but leaves the depth at -1; the `StartBatch` that
follows only brings it back to 0, so the `WriteLine` after it is written to the
sink at once instead of being batched, and the closing `EndBatch(false)`
returns the unpaired-EndBatch error again instead of `nil`. -/
theorem endBatch_unpaired_leaves_negative_depth :
    ((NewWriter okEnv).EndBatch false).2 = some WErr.unpairedEndBatch ∧
    ((NewWriter okEnv).EndBatch false).1.lvl = -1 ∧
    ((NewWriter okEnv).run [Op.endBatch false, Op.startBatch]).1.lvl = 0 ∧
    sinkCalls ((NewWriter okEnv).run
        [Op.endBatch false, Op.startBatch, Op.writeLine [1]]).1.trace = [[1]] ∧
    ((NewWriter okEnv).run
        [Op.endBatch false, Op.startBatch, Op.writeLine [1], Op.endBatch false]).2
      = [some WErr.unpairedEndBatch, none, none, some WErr.unpairedEndBatch] := by
  refine ⟨by decide, by decide, by decide, by decide, by decide⟩

/-! ## Hooks and the first write of `WriteLineAsync` -/

/-- C15 (evaluation at the failing input). With a hook that vetoes every
message, `WriteLine` calls the hook and buffers and writes nothing; the first
`WriteLineAsync` on the same writer, which goes through `startOrWrite`, calls
no hook and buffers the message, and `Flush` writes it to the sink. -/
theorem startOrWrite_bypasses_hooks :
    hookCalls (((NewWriter okEnv).OnLine vetoHook).WriteLine [1]).1.trace = [(0, [1])] ∧
    (((NewWriter okEnv).OnLine vetoHook).WriteLine [1]).1.bw.buf = [] ∧
    sinkCalls (((NewWriter okEnv).OnLine vetoHook).WriteLine [1]).1.trace = [] ∧
    hookCalls (AsyncWriter.WriteLineAsync
        { Writer := (NewWriter okEnv).OnLine vetoHook } [1]).1.Writer.trace = [] ∧
    (AsyncWriter.WriteLineAsync
        { Writer := (NewWriter okEnv).OnLine vetoHook } [1]).1.Writer.bw.buf = [1] ∧
    sinkCalls (AsyncWriter.WriteLineAsync
        { Writer := (NewWriter okEnv).OnLine vetoHook } [1]).1.Flush.1.Writer.trace = [[1]] ∧
    hookCalls (AsyncWriter.WriteLineAsync
        { Writer := (NewWriter okEnv).OnLine vetoHook } [1]).1.Flush.1.Writer.trace = [] := by
  refine ⟨by decide, by decide, by decide, by decide, by decide, by decide, by decide⟩

/-! ## The latched error over the whole interface -/

theorem flush_of_latched (w : Writer) (e : WErr) (h : w.err = some e) :
    w.flush = (w, some e) := by
  unfold Writer.flush
  rw [h]

/-- One operation on a writer with a latched error, `DisableZlib` with
compression active excepted: only the depth may change. -/
theorem step_latched_policy (w : Writer) (e : WErr) (hl : w.Latched e) (op : Op)
    (hop : op.isNotDisable = true ∨ w.zlibOn = false) :
    w.step op = ({ w with lvl := depthAfter w op }, latchedResult w e op) := by
  obtain ⟨h1, h2⟩ := hl
  cases op with
  | writeLine data =>
    show w.WriteLine data = _
    unfold Writer.WriteLine
    rw [show w.Err = some e from h2]
    rfl
  | flush =>
    show w.flush = _
    rw [flush_of_latched w e h1]
    rfl
  | startBatch =>
    show w.StartBatch = _
    unfold Writer.StartBatch
    rw [show w.Err = some e from h2]
    rfl
  | endBatch force =>
    simp only [Writer.step, Writer.EndBatch, depthAfter, latchedResult]
    by_cases ha : w.lvl - 1 < 0
    · rw [if_pos ha, if_pos ha]
    · rw [if_neg ha, if_neg ha]
      by_cases hb : (!force) = true ∧ w.lvl - 1 > 0
      · rw [if_pos hb, if_pos hb]
      · rw [if_neg hb, if_neg hb]
        exact flush_of_latched { w with lvl := w.lvl - 1 } e h1
  | enableZlib =>
    simp only [Writer.step, Writer.EnableZlib, depthAfter, latchedResult]
    by_cases hz : w.zlibOn = true
    · rw [if_pos hz, if_pos hz]
    · rw [if_neg hz, if_neg hz, flush_of_latched w e h1]
  | disableZlib =>
    rcases hop with hop | hop
    · simp [Op.isNotDisable] at hop
    · show w.DisableZlib = _
      unfold Writer.DisableZlib
      rw [if_pos (by rw [hop]; rfl)]
      rfl

/-- A sequence of operations on a writer with a latched error, without a
`DisableZlib` while compression is active: no collaborator is called, the
error stays latched, and buffer and compression flag stay as they are. -/
theorem run_latched_policy (ops : List Op) (w : Writer) (e : WErr) (hl : w.Latched e)
    (hops : (∀ o ∈ ops, o.isNotDisable = true) ∨ w.zlibOn = false) :
    (w.run ops).1.trace = w.trace ∧ (w.run ops).1.Latched e ∧
    (w.run ops).1.bw = w.bw ∧ (w.run ops).1.zlibOn = w.zlibOn := by
  induction ops generalizing w with
  | nil => exact ⟨rfl, hl, rfl, rfl⟩
  | cons op ops ih =>
    have hop : op.isNotDisable = true ∨ w.zlibOn = false := by
      rcases hops with h | h
      · exact Or.inl (h op (by simp))
      · exact Or.inr h
    have hstep := step_latched_policy w e hl op hop
    have hl1 : Writer.Latched { w with lvl := depthAfter w op } e := hl
    have hops1 : (∀ o ∈ ops, o.isNotDisable = true) ∨
        (Writer.zlibOn { w with lvl := depthAfter w op }) = false := by
      rcases hops with h | h
      · exact Or.inl (fun o ho => h o (by simp [ho]))
      · exact Or.inr h
    have := ih { w with lvl := depthAfter w op } hl1 hops1
    rw [run_cons, hstep]
    exact this

/-- C17 (counterexample). With the error `ext 7` of the sink latched at depth
2, `EndBatch(false)` returns `nil`, the next one returns the latched error, and
the one after that returns the unpaired-EndBatch error: not every later call
returns the latched error. -/
theorem latched_error_not_returned_by_every_call :
    ((NewWriter failEnv).run [Op.startBatch, Op.startBatch, Op.writeLine [1], Op.flush]).2
      = [none, none, none, some (WErr.ext 7)] ∧
    ((NewWriter failEnv).run
        [Op.startBatch, Op.startBatch, Op.writeLine [1], Op.flush]).1.err
      = some (WErr.ext 7) ∧
    (((NewWriter failEnv).run
        [Op.startBatch, Op.startBatch, Op.writeLine [1], Op.flush]).1.run
          [Op.endBatch false, Op.endBatch false, Op.endBatch false]).2
      = [none, some (WErr.ext 7), some WErr.unpairedEndBatch] := by
  refine ⟨by decide, by decide, by decide⟩

/-- After a latched error, `DisableZlib` with compression active still calls
the compressor and replaces the latched error by the error of `Close`. -/
theorem disableZlib_after_latched_error :
    ((NewWriter zfailEnv).run [Op.enableZlib, Op.writeLine [1]]).2
      = [none, some (WErr.ext 7)] ∧
    ((NewWriter zfailEnv).run [Op.enableZlib, Op.writeLine [1]]).1.err = some (WErr.ext 7) ∧
    (((NewWriter zfailEnv).run [Op.enableZlib, Op.writeLine [1]]).1.DisableZlib).2
      = some (WErr.ext 8) ∧
    (((NewWriter zfailEnv).run [Op.enableZlib, Op.writeLine [1]]).1.DisableZlib).1.err
      = some (WErr.ext 8) ∧
    (((NewWriter zfailEnv).run [Op.enableZlib, Op.writeLine [1]]).1.DisableZlib).1.trace
      = [Event.zlibNew, Event.zlibWrite [1], Event.zlibFlush, Event.zlibClose] := by
  refine ⟨by decide, by decide, by decide, by decide, by decide⟩

/-- C17 (amended). Latched error policy: once an error `e` is latched, every
later `WriteLine`, `Flush` and `StartBatch` returns `e`; `EndBatch` decrements
the depth and returns the unpaired-EndBatch error below depth 0, `nil` when it
is not forced and batches remain open, and `e` otherwise; `EnableZlib` returns
the already-active error when compression is active and `e` otherwise;
`DisableZlib` with compression not active returns the not-active error. None
of these calls reaches the sink or the compressor, and the latched error is
not replaced, along any sequence of them. -/
theorem latched_error_policy (w : Writer) (e : WErr) (hl : w.Latched e) :
    (∀ op, (op.isNotDisable = true ∨ w.zlibOn = false) →
      w.step op = ({ w with lvl := depthAfter w op }, latchedResult w e op)) ∧
    (∀ ops, ((∀ o ∈ ops, o.isNotDisable = true) ∨ w.zlibOn = false) →
      (w.run ops).1.trace = w.trace ∧ (w.run ops).1.Latched e ∧
      (w.run ops).1.bw = w.bw ∧ (w.run ops).1.zlibOn = w.zlibOn) :=
  ⟨fun op hop => step_latched_policy w e hl op hop,
   fun ops hops => run_latched_policy ops w e hl hops⟩

theorem latched_error_policy_witness :
    (((NewWriter failEnv).WriteLine [1]).1.run
        [Op.writeLine [2], Op.endBatch true, Op.enableZlib, Op.disableZlib, Op.flush]).1.trace
      = ((NewWriter failEnv).WriteLine [1]).1.trace ∧
    (((NewWriter failEnv).WriteLine [1]).1.run
        [Op.writeLine [2], Op.endBatch true, Op.enableZlib, Op.disableZlib, Op.flush]).1.Latched
      (WErr.ext 7) ∧
    ((NewWriter failEnv).WriteLine [1]).1.step Op.enableZlib
      = ({ ((NewWriter failEnv).WriteLine [1]).1 with
            lvl := depthAfter ((NewWriter failEnv).WriteLine [1]).1 Op.enableZlib },
         some (WErr.ext 7)) :=
  ⟨((latched_error_policy ((NewWriter failEnv).WriteLine [1]).1 (WErr.ext 7)
      ⟨by decide, by decide⟩).2 _ (Or.inr rfl)).1,
   ((latched_error_policy ((NewWriter failEnv).WriteLine [1]).1 (WErr.ext 7)
      ⟨by decide, by decide⟩).2 _ (Or.inr rfl)).2.1,
   (latched_error_policy ((NewWriter failEnv).WriteLine [1]).1 (WErr.ext 7)
      ⟨by decide, by decide⟩).1 Op.enableZlib (Or.inl rfl)⟩

/-! ## Nested batches -/

theorem runHooks_lvl (hooks : List (Trace → Bytes → Bool × Option Nat)) (w : Writer)
    (i : Nat) (data : Bytes) : (w.runHooks hooks i data).1.lvl = w.lvl := by
  induction hooks generalizing w i with
  | nil => rfl
  | cons fnc rest ih =>
    unfold Writer.runHooks
    cases hf : fnc w.trace data with
    | mk ok err =>
      cases err with
      | some code => cases ok <;> rfl
      | none =>
        cases ok with
        | false => rfl
        | true => exact ih { w with trace := w.trace ++ [Event.onLine i data] } (i + 1)

theorem withTimeout_congr {α : Type} (w : Writer) (onErr : WErr → α)
    (body1 body2 : Writer → Writer × α)
    (h : ∀ w0 : Writer, w0.lvl = w.lvl → body1 w0 = body2 w0) :
    w.withTimeout onErr body1 = w.withTimeout onErr body2 := by
  unfold Writer.withTimeout
  cases w.Timeout with
  | none => exact h w rfl
  | some f =>
    simp only
    cases f w.trace true with
    | some code => rfl
    | none =>
      simp only
      rw [h { w with Timeout := some f, trace := w.trace ++ [Event.timeout true] } rfl]

/-- Inside a batch `WriteLine` is the append-only write. -/
theorem WriteLine_in_batch (w : Writer) (hs : w.errNolock = w.err) (he : w.err = none)
    (hd : w.lvl ≥ 1) (data : Bytes) : w.WriteLine data = w.bufferLine data := by
  unfold Writer.WriteLine Writer.writeLine Writer.bufferLine
  rw [show w.Err = none from hs.trans he, he]
  simp only
  have hl := runHooks_lvl w.onLine w 0 data
  cases hr : w.runHooks w.onLine 0 data with
  | mk w1 out =>
    rw [hr] at hl
    cases out with
    | fail e => rfl
    | skip => rfl
    | proceed =>
      simp only
      apply withTimeout_congr
      intro w0 h0
      have : w0.lvl > 0 := by
        simp only at hl
        omega
      rw [if_pos this]

/-- `EndBatch` inside a batch: the depth is decremented; without `force` the
flush is requested exactly when the new depth is 0, with `force` always. -/
theorem EndBatch_in_batch (w : Writer) (hd : w.lvl ≥ 1) :
    w.EndBatch false =
      (if w.lvl - 1 = 0 then Writer.flush { w with lvl := w.lvl - 1 }
       else ({ w with lvl := w.lvl - 1 }, none)) ∧
    w.EndBatch true = Writer.flush { w with lvl := w.lvl - 1 } := by
  have h0 : ¬ (w.lvl - 1 < 0) := by omega
  constructor
  · unfold Writer.EndBatch
    simp only
    rw [if_neg h0]
    by_cases h1 : w.lvl - 1 = 0
    · rw [if_pos h1, if_neg (by simp [h1])]
    · rw [if_neg h1, if_pos ⟨rfl, by omega⟩]
  · unfold Writer.EndBatch
    simp only
    rw [if_neg h0, if_neg (by simp)]

/-- `StartBatch` on a writer with no error only raises the depth. -/
theorem plain_StartBatch (w : Writer) (hp : w.Plain) :
    ∃ w1, w.step Op.startBatch = (w1, none) ∧ w1.Plain ∧ w1.lvl = w.lvl + 1 ∧
      w1.trace = w.trace ∧ w1.bw.buf = w.bw.buf := by
  refine ⟨{ w with lvl := w.lvl + 1 }, ?_, plain_lvl w hp _, rfl, rfl, rfl⟩
  show w.StartBatch = _
  unfold Writer.StartBatch
  rw [show w.Err = none from hp.errNolock]
  simp only
  rw [show w.err = none from hp.err]

/-- `EndBatch(false)` that leaves a batch open only lowers the depth. -/
theorem plain_EndBatch_nested (w : Writer) (hp : w.Plain) (hl : w.lvl ≥ 2) :
    ∃ w1, w.step (Op.endBatch false) = (w1, none) ∧ w1.Plain ∧ w1.lvl = w.lvl - 1 ∧
      w1.trace = w.trace ∧ w1.bw.buf = w.bw.buf := by
  refine ⟨{ w with lvl := w.lvl - 1 }, ?_, plain_lvl w hp _, rfl, rfl, rfl⟩
  show w.EndBatch false = _
  rw [(EndBatch_in_batch w (by omega)).1, if_neg (by omega)]

/-- `EndBatch(false)` that closes the outermost batch flushes the buffer. -/
theorem plain_EndBatch_last (w : Writer) (hp : w.Plain) (hl : w.lvl = 1) :
    ∃ w1, w.step (Op.endBatch false) = (w1, none) ∧
      sinkCalls w1.trace = sinkCalls w.trace ++ (if w.bw.buf = [] then [] else [w.bw.buf]) := by
  obtain ⟨w5, hf, -, -, -, -, hcalls⟩ := plain_flush _ (plain_lvl w hp (w.lvl - 1))
  refine ⟨w5, ?_, hcalls⟩
  show w.EndBatch false = _
  rw [(EndBatch_in_batch w (by omega)).1, if_pos (by omega)]
  exact hf

/-- Two nested batches around two writes, on a writer at depth 0 with an empty
buffer over a sink that never fails: nothing reaches the sink before the last
`EndBatch`, which writes the two payloads at once. -/
theorem nested_batch_scenario (w : Writer) (hp : w.Plain) (hl : w.lvl = 0)
    (hb : w.bw.buf = []) (a b : Bytes)
    (hne : a ++ b ≠ []) (hfit : (a ++ b).length ≤ bufSize) :
    (w.run [Op.startBatch, Op.startBatch, Op.writeLine a, Op.writeLine b,
        Op.endBatch false]).1.trace = w.trace ∧
    sinkCalls (w.run [Op.startBatch, Op.startBatch, Op.writeLine a, Op.writeLine b,
        Op.endBatch false, Op.endBatch false]).1.trace = sinkCalls w.trace ++ [a ++ b] ∧
    (w.run [Op.startBatch, Op.startBatch, Op.writeLine a, Op.writeLine b, Op.endBatch false,
        Op.endBatch false]).2 = [none, none, none, none, none, none] := by
  obtain ⟨w1, h1, hp1, hl1, ht1, hb1⟩ := plain_StartBatch w hp
  obtain ⟨w2, h2, hp2, hl2, ht2, hb2⟩ := plain_StartBatch w1 hp1
  have hfit2 : w2.bw.buf.length + [a, b].flatten.length ≤ bufSize := by
    rw [hb2, hb1, hb]
    simpa using hfit
  obtain ⟨hp3, hl3, ht3, hb3, hr3⟩ := plain_batch_writes [a, b] w2 hp2 (by omega) hfit2
  obtain ⟨w4, h4, hp4, hl4, ht4, hb4⟩ :=
    plain_EndBatch_nested (w2.run ([a, b].map Op.writeLine)).1 hp3 (by omega)
  obtain ⟨w5, h5, hc5⟩ := plain_EndBatch_last w4 hp4 (by omega)
  have hbuf : w4.bw.buf = a ++ b := by
    rw [hb4, hb3, hb2, hb1, hb]
    simp
  have htr : w4.trace = w.trace := by rw [ht4, ht3, ht2, ht1]
  rw [hbuf, if_neg hne, htr] at hc5
  have hrun : ∀ rest, w.run
      (Op.startBatch :: Op.startBatch :: Op.writeLine a :: Op.writeLine b :: rest)
      = (((w2.run ([a, b].map Op.writeLine)).1.run rest).1,
          none :: none :: none :: none :: ((w2.run ([a, b].map Op.writeLine)).1.run rest).2) := by
    intro rest
    rw [run_cons, h1, run_cons, h2]
    have := run_append ([a, b].map Op.writeLine) rest w2
    simp only [List.map, List.cons_append, List.nil_append] at this
    rw [this]
    have hr : (w2.run [Op.writeLine a, Op.writeLine b]).2 = [none, none] := hr3
    rw [hr]
    rfl
  refine ⟨?_, ?_, ?_⟩
  · rw [hrun, run_cons, h4]
    exact htr
  · rw [hrun, run_cons, h4, run_cons, h5]
    exact hc5
  · rw [hrun, run_cons, h4, run_cons, h5]
    rfl

/-! ## Writes inside a batch and the buffer of the `bufio.Writer` -/

/-- Inside a batch, on a writer without hooks and timeout callback, data that
fits in the free space of the buffer is appended to the buffer and nothing
else happens. -/
theorem WriteLine_appends (w : Writer) (hs : w.errNolock = w.err) (he : w.err = none)
    (hd : w.lvl ≥ 1) (hh : w.onLine = []) (ht : w.Timeout = none) (hb : w.bw.err = none)
    (data : Bytes) (hfit : data.length ≤ bufSize - w.bw.buf.length) :
    w.WriteLine data = ({ w with bw := { w.bw with buf := w.bw.buf ++ data } }, none) := by
  have h1 : w.runHooks w.onLine 0 data = (w, HookOutcome.proceed) := by
    rw [hh]
    rfl
  have h2 : ∀ body : Writer → Writer × Option WErr, w.withTimeout some body = body w := by
    intro body
    unfold Writer.withTimeout
    rw [ht]
  have h3 : w.bwWrite data = ({ w with bw := { w.bw with buf := w.bw.buf ++ data } }, none) := by
    unfold Writer.bwWrite
    rw [hb]
    simp only
    rw [if_pos hfit]
  rw [WriteLine_in_batch w hs he hd data]
  unfold Writer.bufferLine
  rw [h1]
  simp only
  rw [h2, h3]

/-- Inside a batch, data that does not fit in the free space of a buffer that
is not empty fills the buffer, which `bufio` writes to the sink at once. -/
theorem plain_WriteLine_overflow (w : Writer) (hp : w.Plain) (hd : w.lvl ≥ 1) (p : Bytes)
    (hne : w.bw.buf.length ≠ 0) (hov : ¬ p.length ≤ bufSize - w.bw.buf.length)
    (hrest : (p.drop (bufSize - w.bw.buf.length)).length ≤ bufSize) :
    w.WriteLine p =
      ({ w with
          trace := w.trace ++
            [Event.sinkWrite (w.bw.buf ++ p.take (bufSize - w.bw.buf.length))],
          bw := { w.bw with buf := p.drop (bufSize - w.bw.buf.length) } }, none) := by
  have h1 : w.runHooks w.onLine 0 p = (w, HookOutcome.proceed) := by
    rw [hp.hooks]
    rfl
  have h2 : ∀ body : Writer → Writer × Option WErr, w.withTimeout some body = body w := by
    intro body
    unfold Writer.withTimeout
    rw [hp.timeout]
  rw [WriteLine_in_batch w (hp.errNolock.trans hp.err.symm) hp.err hd p]
  unfold Writer.bufferLine
  rw [h1]
  simp only
  rw [h2, plain_bwWrite_overflow w hp p hne hov hrest]

/-- Two nested batches in which the second payload overflows the buffer: the
sink is written during the second `WriteLine`, and again at the last
`EndBatch`. -/
theorem nested_batch_overflow (w : Writer) (hp : w.Plain) (hl : w.lvl = 0)
    (hb : w.bw.buf = []) (a p : Bytes)
    (ha : a.length ≠ 0) (ha2 : a.length ≤ bufSize) (hov : ¬ p.length ≤ bufSize - a.length)
    (hrest : (p.drop (bufSize - a.length)).length ≤ bufSize)
    (hrest0 : p.drop (bufSize - a.length) ≠ []) :
    sinkCalls (w.run [Op.startBatch, Op.startBatch, Op.writeLine a, Op.writeLine p]).1.trace
      = sinkCalls w.trace ++ [a ++ p.take (bufSize - a.length)] ∧
    sinkCalls (w.run [Op.startBatch, Op.startBatch, Op.writeLine a, Op.writeLine p,
        Op.endBatch false, Op.endBatch false]).1.trace
      = sinkCalls w.trace ++ [a ++ p.take (bufSize - a.length), p.drop (bufSize - a.length)] ∧
    (w.run [Op.startBatch, Op.startBatch, Op.writeLine a, Op.writeLine p,
        Op.endBatch false, Op.endBatch false]).2 = [none, none, none, none, none, none] := by
  obtain ⟨w1, h1, hp1, hl1, ht1, hb1⟩ := plain_StartBatch w hp
  obtain ⟨w2, h2, hp2, hl2, ht2, hb2⟩ := plain_StartBatch w1 hp1
  have hb2' : w2.bw.buf = [] := by rw [hb2, hb1, hb]
  obtain ⟨w3, h3, hp3, hl3, -, hfit3⟩ := plain_WriteLine w2 hp2 a
  obtain ⟨ht3, hb3⟩ := hfit3 (by omega) (by
    rw [hb2']
    show a.length ≤ bufSize - 0
    omega)
  have hb3' : w3.bw.buf = a := by rw [hb3, hb2', List.nil_append]
  have h4 := plain_WriteLine_overflow w3 hp3 (by omega) p (by rw [hb3']; exact ha)
    (by rw [hb3']; exact hov) (by rw [hb3']; exact hrest)
  rw [hb3'] at h4
  have hp4 : Writer.Plain { w3 with
      trace := w3.trace ++ [Event.sinkWrite (a ++ p.take (bufSize - a.length))],
      bw := { w3.bw with buf := p.drop (bufSize - a.length) } } :=
    ⟨hp3.sink, hp3.timeout, hp3.hooks, hp3.err, hp3.errNolock, hp3.bwErr, hp3.bwTarget,
      hp3.zlibOff⟩
  obtain ⟨w5, h5, hp5, hl5, ht5, hb5⟩ := plain_EndBatch_nested _ hp4 (by
    show w3.lvl ≥ 2
    omega)
  obtain ⟨w6, h6, hc6⟩ := plain_EndBatch_last w5 hp5 (by
    rw [hl5]
    show w3.lvl - 1 = 1
    omega)
  have hb5' : w5.bw.buf = p.drop (bufSize - a.length) := hb5
  have htr : sinkCalls w5.trace
      = sinkCalls w.trace ++ [a ++ p.take (bufSize - a.length)] := by
    rw [ht5]
    show sinkCalls (w3.trace ++ [Event.sinkWrite (a ++ p.take (bufSize - a.length))]) = _
    rw [sinkCalls_append, ht3, ht2, ht1]
    rfl
  rw [hb5', if_neg hrest0, htr, List.append_assoc] at hc6
  have h3s : w2.step (Op.writeLine a) = (w3, none) := h3
  have h4s : w3.step (Op.writeLine p) = _ := h4
  refine ⟨?_, ?_, ?_⟩
  · rw [run_cons, h1, run_cons, h2, run_cons, h3s, run_cons, h4s]
    show sinkCalls (w3.trace ++ [Event.sinkWrite (a ++ p.take (bufSize - a.length))]) = _
    rw [sinkCalls_append, ht3, ht2, ht1]
    rfl
  · rw [run_cons, h1, run_cons, h2, run_cons, h3s, run_cons, h4s, run_cons, h5, run_cons, h6]
    exact hc6
  · rw [run_cons, h1, run_cons, h2, run_cons, h3s, run_cons, h4s, run_cons, h5, run_cons, h6]
    rfl

/-- C14 (counterexample). Inside a batch `WriteLine` does not always only
append to the buffer, and the sink is not always written exactly once, at the
last call: in `StartBatch`, `StartBatch`, `WriteLine(a)`, `WriteLine(b)`,
`EndBatch(false)`, `EndBatch(false)` on a fresh writer, with `a` of 1 byte and
`b` of 4096 bytes the sink is written during `WriteLine(b)`, the 4096-byte
buffer of the `bufio.Writer` being full, and again at the last call; with `a`
and `b` empty the sink is never written. All the calls return nil. -/
theorem nested_batch_sink_writes_vary :
    (sinkCalls ((NewWriter okEnv).run [Op.startBatch, Op.startBatch, Op.writeLine [1],
        Op.writeLine (List.replicate 4096 2)]).1.trace).length = 1 ∧
    (sinkCalls ((NewWriter okEnv).run [Op.startBatch, Op.startBatch, Op.writeLine [1],
        Op.writeLine (List.replicate 4096 2), Op.endBatch false,
        Op.endBatch false]).1.trace).length = 2 ∧
    ((NewWriter okEnv).run [Op.startBatch, Op.startBatch, Op.writeLine [1],
        Op.writeLine (List.replicate 4096 2), Op.endBatch false, Op.endBatch false]).2
      = [none, none, none, none, none, none] ∧
    sinkCalls ((NewWriter okEnv).run [Op.startBatch, Op.startBatch, Op.writeLine [],
        Op.writeLine [], Op.endBatch false, Op.endBatch false]).1.trace = [] ∧
    ((NewWriter okEnv).run [Op.startBatch, Op.startBatch, Op.writeLine [],
        Op.writeLine [], Op.endBatch false, Op.endBatch false]).2
      = [none, none, none, none, none, none] := by
  have h := nested_batch_overflow (NewWriter okEnv) (newWriter_plain okEnv (fun _ _ => rfl))
    rfl rfl [1] (List.replicate 4096 2)
    (by simp) (by simp [bufSize])
    (by rw [List.length_replicate]; simp [bufSize])
    (by rw [List.length_drop, List.length_replicate]; simp [bufSize])
    (by
      intro h0
      have := congrArg List.length h0
      rw [List.length_drop, List.length_replicate] at this
      simp [bufSize] at this)
  refine ⟨?_, ?_, h.2.2, by decide, by decide⟩
  · rw [h.1]
    rfl
  · rw [h.2.1]
    rfl

/-- C14 (amended). Depth-counted batch nesting: on a writer with no sticky
error at depth `d >= 1`, `WriteLine` runs the hooks and hands the data to
`bw.Write` without requesting a flush; without hooks and timeout callback,
data that fits in the free space of the 4096-byte buffer is only appended to
the buffer. `EndBatch(false)` decrements the depth and requests the flush if
and only if the new depth is 0; `EndBatch(true)` decrements the depth and
requests the flush whatever the new depth is. Hence, on a fresh writer over a
sink that never fails, for payloads `a` and `b` that are not both empty and fit
together in the buffer, `StartBatch`, `StartBatch`, `WriteLine(a)`,
`WriteLine(b)`, `EndBatch(false)`, `EndBatch(false)` calls no collaborator
during the first five calls and makes exactly one `Write` of the sink, of
`a ++ b`, at the last call, all six calls returning nil. -/
theorem batch_nesting (w : Writer) (hs : w.errNolock = w.err) (he : w.err = none)
    (hd : w.lvl ≥ 1) :
    (∀ data, w.WriteLine data = w.bufferLine data) ∧
    (w.onLine = [] → w.Timeout = none → w.bw.err = none →
      ∀ data, data.length ≤ bufSize - w.bw.buf.length →
        w.WriteLine data = ({ w with bw := { w.bw with buf := w.bw.buf ++ data } }, none)) ∧
    w.EndBatch false =
      (if w.lvl - 1 = 0 then Writer.flush { w with lvl := w.lvl - 1 }
       else ({ w with lvl := w.lvl - 1 }, none)) ∧
    w.EndBatch true = Writer.flush { w with lvl := w.lvl - 1 } ∧
    (∀ (env : Env) (a b : Bytes), env.SinkNeverFails → a ++ b ≠ [] →
      (a ++ b).length ≤ bufSize →
      ((NewWriter env).run
          [Op.startBatch, Op.startBatch, Op.writeLine a, Op.writeLine b,
            Op.endBatch false]).1.trace = [] ∧
      sinkCalls ((NewWriter env).run
          [Op.startBatch, Op.startBatch, Op.writeLine a, Op.writeLine b, Op.endBatch false,
            Op.endBatch false]).1.trace = [a ++ b] ∧
      ((NewWriter env).run
          [Op.startBatch, Op.startBatch, Op.writeLine a, Op.writeLine b, Op.endBatch false,
            Op.endBatch false]).2 = [none, none, none, none, none, none]) :=
  ⟨fun data => WriteLine_in_batch w hs he hd data,
   fun hh ht hb data hfit => WriteLine_appends w hs he hd hh ht hb data hfit,
   (EndBatch_in_batch w hd).1,
   (EndBatch_in_batch w hd).2,
   fun env a b hsink hne hfit =>
     nested_batch_scenario (NewWriter env) (newWriter_plain env hsink) rfl rfl a b hne hfit⟩

theorem batch_nesting_witness :
    (Writer.WriteLine { NewWriter okEnv with lvl := 2 } [1]
      = Writer.bufferLine { NewWriter okEnv with lvl := 2 } [1]) ∧
    (Writer.WriteLine { NewWriter okEnv with lvl := 2 } [1]
      = ({ NewWriter okEnv with lvl := 2, bw := { buf := [] ++ [1] } }, none)) ∧
    (Writer.EndBatch { NewWriter okEnv with lvl := 2 } true
      = Writer.flush { NewWriter okEnv with lvl := 2 - 1 }) ∧
    sinkCalls ((NewWriter okEnv).run
        [Op.startBatch, Op.startBatch, Op.writeLine [1], Op.writeLine [2], Op.endBatch false,
          Op.endBatch false]).1.trace = [[1] ++ [2]] :=
  ⟨(batch_nesting { NewWriter okEnv with lvl := 2 } rfl rfl (by decide)).1 [1],
   (batch_nesting { NewWriter okEnv with lvl := 2 } rfl rfl (by decide)).2.1 rfl rfl rfl [1]
      (by decide),
   (batch_nesting { NewWriter okEnv with lvl := 2 } rfl rfl (by decide)).2.2.2.1,
   ((batch_nesting { NewWriter okEnv with lvl := 2 } rfl rfl (by decide)).2.2.2.2 okEnv [1] [2]
      (fun _ _ => rfl) (by decide) (by decide)).2.1⟩

/-! ## `AsyncWriter`: coalescing of the writes between two flushes -/

/-- The first asynchronous write on an idle writer, for a payload that fits in
the buffer: the payload is buffered and the writer is left inside a batch. -/
theorem plain_startOrWrite (w : Writer) (hp : w.Plain) (hl : w.lvl = 0) (data : Bytes)
    (hfit : data.length ≤ bufSize - w.bw.buf.length) :
    ∃ w1, w.startOrWrite data = (w1, true, none) ∧ w1.Plain ∧ w1.lvl = 1 ∧
      w1.trace = w.trace ∧ w1.bw.buf = w.bw.buf ++ data := by
  obtain ⟨w1, hw, hp1, hl1, -, hfit1⟩ := plain_bwWrite w hp data
  refine ⟨{ w1 with lvl := w1.lvl + 1 }, ?_, plain_lvl w1 hp1 _, ?_, (hfit1 hfit).1,
    (hfit1 hfit).2⟩
  · have hnl : ¬ w1.lvl > 0 := by omega
    unfold Writer.startOrWrite
    rw [show w.err = none from hp.err]
    simp only
    unfold Writer.withTimeout
    rw [show w.Timeout = none from hp.timeout]
    simp only
    rw [hw]
    simp only
    rw [if_neg hnl]
  · show w1.lvl + 1 = 1
    omega

theorem async_first_write (a : AsyncWriter) (hp : a.Writer.Plain) (hl : a.Writer.lvl = 0)
    (hu : a.unschedule = false) (data : Bytes)
    (hfit : data.length ≤ bufSize - a.Writer.bw.buf.length) :
    ∃ a1, a.WriteLineAsync data = (a1, none) ∧ a1.Writer.Plain ∧ a1.Writer.lvl = 1 ∧
      a1.Writer.trace = a.Writer.trace ∧ a1.Writer.bw.buf = a.Writer.bw.buf ++ data ∧
      a1.unschedule = true ∧ a1.schedule = 0 := by
  obtain ⟨w1, hw, hp1, hl1, ht1, hb1⟩ := plain_startOrWrite a.Writer hp hl data hfit
  refine ⟨{ a with Writer := w1, schedule := 0, unschedule := true }, ?_, hp1, hl1, ht1, hb1,
    rfl, rfl⟩
  unfold AsyncWriter.WriteLineAsync
  rw [show a.Writer.Err = none from hp.errNolock]
  simp only
  rw [if_neg (by rw [hu]; decide), hw]

theorem async_next_write (a : AsyncWriter) (hp : a.Writer.Plain) (hu : a.unschedule = true)
    (data : Bytes) :
    (a.WriteLineAsync data).1.Writer = (a.Writer.WriteLine data).1 ∧
    (a.WriteLineAsync data).2 = (a.Writer.WriteLine data).2 ∧
    (a.WriteLineAsync data).1.unschedule = true := by
  unfold AsyncWriter.WriteLineAsync
  rw [show a.Writer.Err = none from hp.errNolock]
  simp only
  rw [if_pos hu]
  exact ⟨rfl, rfl, hu⟩

/-- Once the batch is open, the asynchronous writes are the `WriteLine` calls of
the underlying writer. -/
theorem async_next_writes (ps : List Bytes) (a : AsyncWriter) (hp : a.Writer.Plain)
    (hu : a.unschedule = true) :
    (a.writeAll ps).1.Writer = (a.Writer.run (ps.map Op.writeLine)).1 ∧
    (a.writeAll ps).2 = (a.Writer.run (ps.map Op.writeLine)).2 ∧
    (a.writeAll ps).1.unschedule = true := by
  induction ps generalizing a with
  | nil => exact ⟨rfl, rfl, hu⟩
  | cons p ps ih =>
    obtain ⟨h1, h2, h3⟩ := async_next_write a hp hu p
    obtain ⟨w1, hw, hp1, -⟩ := plain_WriteLine a.Writer hp p
    have hp1' : (a.WriteLineAsync p).1.Writer.Plain := by
      rw [h1, hw]
      exact hp1
    obtain ⟨i1, i2, i3⟩ := ih (a.WriteLineAsync p).1 hp1' h3
    rw [List.map_cons, run_cons]
    have hstep : a.Writer.step (Op.writeLine p) = a.Writer.WriteLine p := rfl
    rw [hstep, ← h1, ← h2]
    exact ⟨i1, by
      show (a.WriteLineAsync p).2 :: ((a.WriteLineAsync p).1.writeAll ps).2 = _
      rw [i2], i3⟩

/-- `AsyncWriter.Flush` with a batch open: the batch is closed and the buffer
written out. -/
theorem async_flush_pending (a : AsyncWriter) (hp : a.Writer.Plain) (hl : a.Writer.lvl = 1)
    (hu : a.unschedule = true) :
    ∃ a2, a.Flush = (a2, none) ∧ a2.Writer.Plain ∧ a2.Writer.lvl = 0 ∧ a2.schedule = 0 ∧
      a2.unschedule = false ∧ a2.Writer.bw.buf = [] ∧
      sinkCalls a2.Writer.trace = sinkCalls a.Writer.trace ++
        (if a.Writer.bw.buf = [] then [] else [a.Writer.bw.buf]) := by
  obtain ⟨w1, hf1, hp1, hb1, hl1, -, hc1⟩ :=
    plain_flush _ (plain_lvl a.Writer hp (a.Writer.lvl - 1))
  obtain ⟨w2, hf2, hp2, hb2, hl2, -, hc2⟩ := plain_flush w1 hp1
  have he : a.Writer.EndBatch true = (w1, none) := by
    rw [(EndBatch_in_batch a.Writer (by omega)).2]
    exact hf1
  refine ⟨{ Writer := w2, schedule := 0, unschedule := false }, ?_, hp2, ?_, rfl, rfl, hb2, ?_⟩
  · unfold AsyncWriter.Flush
    rw [show a.Writer.Err = none from hp.errNolock]
    simp only
    rw [if_neg (by rw [hu]; decide), he]
    simp only
    rw [show w1.Flush = (w2, none) from hf2]
  · show w2.lvl = 0
    rw [hl2, hl1]
    show a.Writer.lvl - 1 = 0
    omega
  · show sinkCalls w2.trace = _
    rw [hc2, hb1, if_pos rfl, List.append_nil, hc1]

/-- `AsyncWriter.Flush` with no batch open and an empty buffer writes nothing. -/
theorem async_flush_idle (a : AsyncWriter) (hp : a.Writer.Plain) (hu : a.unschedule = false)
    (hb : a.Writer.bw.buf = []) :
    ∃ a1, a.Flush = (a1, none) ∧ sinkCalls a1.Writer.trace = sinkCalls a.Writer.trace ∧
      a1.unschedule = false ∧ a1.schedule = a.schedule ∧ a1.Writer.lvl = a.Writer.lvl := by
  obtain ⟨w1, hf1, -, -, hl1, -, hc1⟩ := plain_flush a.Writer hp
  refine ⟨{ a with Writer := w1 }, ?_, ?_, hu, rfl, hl1⟩
  · unfold AsyncWriter.Flush
    rw [show a.Writer.Err = none from hp.errNolock]
    simp only
    rw [if_pos (by rw [hu]; rfl), show a.Writer.Flush = (w1, none) from hf1]
  · show sinkCalls w1.trace = _
    rw [hc1, hb, if_pos rfl, List.append_nil]

theorem writeAll_cons (a : AsyncWriter) (p : Bytes) (ps : List Bytes) :
    a.writeAll (p :: ps) =
      (((a.WriteLineAsync p).1.writeAll ps).1,
        (a.WriteLineAsync p).2 :: ((a.WriteLineAsync p).1.writeAll ps).2) :=
  rfl

/-- The state after a run of asynchronous writes that fit in the buffer. -/
theorem async_writes_buffered (env : Env) (hsink : env.SinkNeverFails) (p : Bytes)
    (ps : List Bytes) (hle : (p :: ps).flatten.length ≤ bufSize) :
    ((NewAsyncWriter env).writeAll (p :: ps)).2 = List.replicate (ps.length + 1) none ∧
    ((NewAsyncWriter env).writeAll (p :: ps)).1.Writer.Plain ∧
    ((NewAsyncWriter env).writeAll (p :: ps)).1.Writer.lvl = 1 ∧
    ((NewAsyncWriter env).writeAll (p :: ps)).1.Writer.trace = [] ∧
    ((NewAsyncWriter env).writeAll (p :: ps)).1.Writer.bw.buf = (p :: ps).flatten ∧
    ((NewAsyncWriter env).writeAll (p :: ps)).1.unschedule = true := by
  have hlen : p.length + ps.flatten.length ≤ bufSize := by
    simpa [List.flatten] using hle
  obtain ⟨a1, h1, hp1, hl1, ht1, hb1, hu1, -⟩ :=
    async_first_write (NewAsyncWriter env) (newWriter_plain env hsink) rfl rfl p
      (by
        show p.length ≤ bufSize - 0
        omega)
  have hb1' : a1.Writer.bw.buf = p := hb1
  have ht1' : a1.Writer.trace = [] := ht1
  obtain ⟨n1, n2, n3⟩ := async_next_writes ps a1 hp1 hu1
  obtain ⟨hp3, hl3, ht3, hb3, hr3⟩ := plain_batch_writes ps a1.Writer hp1 (by omega)
    (by rw [hb1']; exact hlen)
  rw [writeAll_cons, h1]
  refine ⟨?_, ?_, ?_, ?_, ?_, n3⟩
  · show none :: (a1.writeAll ps).2 = _
    rw [n2, hr3, List.replicate_succ]
  · show (a1.writeAll ps).1.Writer.Plain
    rw [n1]
    exact hp3
  · show (a1.writeAll ps).1.Writer.lvl = 1
    rw [n1, hl3, hl1]
  · show (a1.writeAll ps).1.Writer.trace = []
    rw [n1, ht3, ht1']
  · show (a1.writeAll ps).1.Writer.bw.buf = _
    rw [n1, hb3, hb1']
    rfl

/-- A payload that overflows the buffer during a run of asynchronous writes is
written in two pieces. -/
theorem async_overflow_two_writes (env : Env) (hsink : env.SinkNeverFails) (a p : Bytes)
    (ha : a.length ≠ 0) (ha2 : a.length ≤ bufSize) (hov : ¬ p.length ≤ bufSize - a.length)
    (hrest : (p.drop (bufSize - a.length)).length ≤ bufSize)
    (hrest0 : p.drop (bufSize - a.length) ≠ []) :
    ((NewAsyncWriter env).writeAll [a, p]).2 = [none, none] ∧
    (((NewAsyncWriter env).writeAll [a, p]).1.Flush).2 = none ∧
    sinkCalls (((NewAsyncWriter env).writeAll [a, p]).1.Flush).1.Writer.trace
      = [a ++ p.take (bufSize - a.length), p.drop (bufSize - a.length)] := by
  obtain ⟨a1, h1, hp1, hl1, ht1, hb1, hu1, -⟩ :=
    async_first_write (NewAsyncWriter env) (newWriter_plain env hsink) rfl rfl a
      (by
        show a.length ≤ bufSize - 0
        omega)
  have hb1' : a1.Writer.bw.buf = a := hb1
  have ht1' : a1.Writer.trace = [] := ht1
  obtain ⟨n1, n2, n3⟩ := async_next_write a1 hp1 hu1 p
  have hw := plain_bwWrite_overflow a1.Writer hp1 p (by rw [hb1']; exact ha)
    (by rw [hb1']; exact hov) (by rw [hb1']; exact hrest)
  have hWL : a1.Writer.WriteLine p =
      ({ a1.Writer with
          trace := a1.Writer.trace ++
            [Event.sinkWrite (a1.Writer.bw.buf ++ p.take (bufSize - a1.Writer.bw.buf.length))],
          bw := { a1.Writer.bw with buf := p.drop (bufSize - a1.Writer.bw.buf.length) } },
        none) := by
    rw [WriteLine_in_batch a1.Writer (hp1.errNolock.trans hp1.err.symm) hp1.err (by omega) p]
    unfold Writer.bufferLine
    rw [show a1.Writer.onLine = [] from hp1.hooks]
    simp only [Writer.runHooks]
    unfold Writer.withTimeout
    rw [show a1.Writer.Timeout = none from hp1.timeout]
    simp only
    rw [hw]
    simp only [show a1.Writer.Timeout = none from hp1.timeout]
  have hp2 : (a1.WriteLineAsync p).1.Writer.Plain := by
    rw [n1, hWL]
    exact ⟨hp1.sink, hp1.timeout, hp1.hooks, hp1.err, hp1.errNolock, hp1.bwErr, hp1.bwTarget,
      hp1.zlibOff⟩
  have hl2 : (a1.WriteLineAsync p).1.Writer.lvl = 1 := by
    rw [n1, hWL]
    exact hl1
  obtain ⟨a3, hf, -, -, -, -, -, hc⟩ := async_flush_pending (a1.WriteLineAsync p).1 hp2 hl2 n3
  have hrun : (NewAsyncWriter env).writeAll [a, p]
      = ((a1.WriteLineAsync p).1, [none, (a1.WriteLineAsync p).2]) := by
    rw [writeAll_cons, h1]
    rfl
  rw [hrun]
  refine ⟨?_, ?_, ?_⟩
  · show [none, (a1.WriteLineAsync p).2] = _
    rw [n2, hWL]
  · show ((a1.WriteLineAsync p).1.Flush).2 = none
    rw [hf]
  · show sinkCalls ((a1.WriteLineAsync p).1.Flush).1.Writer.trace = _
    rw [hf]
    show sinkCalls a3.Writer.trace = _
    rw [hc, n1, hWL]
    simp only [hb1', ht1']
    rw [if_neg hrest0]
    rfl

/-- C16 (counterexample). A run of asynchronous writes followed by `Flush` need
not make exactly one `Write` of the sink: with the empty payload as the only
one the sink is not written at all, and a 1-byte payload followed by a
4096-byte one, which overflows the 4096-byte buffer of the `bufio.Writer`,
makes two writes. All the calls return nil in both runs. -/
theorem async_not_always_one_write :
    ((NewAsyncWriter okEnv).writeAll [[]]).2 = [none] ∧
    (((NewAsyncWriter okEnv).writeAll [[]]).1.Flush).2 = none ∧
    sinkCalls (((NewAsyncWriter okEnv).writeAll [[]]).1.Flush).1.Writer.trace = [] ∧
    ((NewAsyncWriter okEnv).writeAll [[1], List.replicate 4096 2]).2 = [none, none] ∧
    (((NewAsyncWriter okEnv).writeAll [[1], List.replicate 4096 2]).1.Flush).2 = none ∧
    (sinkCalls (((NewAsyncWriter okEnv).writeAll
        [[1], List.replicate 4096 2]).1.Flush).1.Writer.trace).length = 2 := by
  have h := async_overflow_two_writes okEnv (fun _ _ => rfl) [1] (List.replicate 4096 2)
    (by simp) (by simp [bufSize])
    (by rw [List.length_replicate]; simp [bufSize])
    (by rw [List.length_drop, List.length_replicate]; simp [bufSize])
    (by
      intro h0
      have := congrArg List.length h0
      rw [List.length_drop, List.length_replicate] at this
      simp [bufSize] at this)
  refine ⟨by decide, by decide, by decide, h.1, h.2.1, ?_⟩
  rw [h.2.2]
  rfl

/-- C16 (amended). Debounce coalescing over the sequential model in which the
timer of the background task does not fire before `Flush`: on a fresh
`AsyncWriter` over a sink that never fails, for payloads that are not all empty
and fit together in the 4096-byte buffer, the `WriteLineAsync` calls all return
nil and write nothing to the sink, and the `Flush` that follows returns nil,
makes exactly one `Write` of the sink, whose argument is the concatenation of
the payloads, and leaves the writer at depth 0 with pending counter 0 and no
task handle. `Flush` on a writer with no pending writes (no task handle and an
empty buffer; no sticky error, no hooks, no timeout callback, compression off,
sink never failing) returns nil and makes no `Write` of the sink, leaving task
handle, pending counter and depth as they are: so on the fresh writer, and so
for a second `Flush` after the first. -/
theorem async_coalescing (env : Env) (hsink : env.SinkNeverFails) (ps : List Bytes)
    (hpos : ps.flatten ≠ []) (hle : ps.flatten.length ≤ bufSize) :
    ((NewAsyncWriter env).writeAll ps).2 = List.replicate ps.length none ∧
    sinkCalls ((NewAsyncWriter env).writeAll ps).1.Writer.trace = [] ∧
    (((NewAsyncWriter env).writeAll ps).1.Flush).2 = none ∧
    sinkCalls (((NewAsyncWriter env).writeAll ps).1.Flush).1.Writer.trace = [ps.flatten] ∧
    (((NewAsyncWriter env).writeAll ps).1.Flush).1.Writer.lvl = 0 ∧
    (((NewAsyncWriter env).writeAll ps).1.Flush).1.schedule = 0 ∧
    (((NewAsyncWriter env).writeAll ps).1.Flush).1.unschedule = false ∧
    ((NewAsyncWriter env).Flush).2 = none ∧
    sinkCalls ((NewAsyncWriter env).Flush).1.Writer.trace = [] ∧
    (∀ a : AsyncWriter, a.Writer.Plain → a.unschedule = false → a.Writer.bw.buf = [] →
      (a.Flush).2 = none ∧
      sinkCalls (a.Flush).1.Writer.trace = sinkCalls a.Writer.trace ∧
      (a.Flush).1.unschedule = false ∧ (a.Flush).1.schedule = a.schedule ∧
      (a.Flush).1.Writer.lvl = a.Writer.lvl) ∧
    ((((NewAsyncWriter env).writeAll ps).1.Flush).1.Flush).2 = none ∧
    sinkCalls ((((NewAsyncWriter env).writeAll ps).1.Flush).1.Flush).1.Writer.trace
      = [ps.flatten] := by
  cases ps with
  | nil => exact absurd rfl hpos
  | cons p ps =>
    obtain ⟨hr, hp, hl, ht, hb, hu⟩ := async_writes_buffered env hsink p ps hle
    obtain ⟨a2, hf, hp2, hl2, hs2, hu2, hb2, hc2⟩ :=
      async_flush_pending ((NewAsyncWriter env).writeAll (p :: ps)).1 hp hl hu
    obtain ⟨a0, hf0, hc0, -⟩ :=
      async_flush_idle (NewAsyncWriter env) (newWriter_plain env hsink) rfl rfl
    obtain ⟨a3, hf3, hc3, -⟩ := async_flush_idle a2 hp2 hu2 hb2
    rw [hb, if_neg hpos, ht] at hc2
    refine ⟨hr, ?_, ?_, ?_, ?_, ?_, ?_, ?_, ?_, ?_, ?_, ?_⟩
    · rw [ht]
      rfl
    · rw [hf]
    · rw [hf]
      exact hc2
    · rw [hf]
      exact hl2
    · rw [hf]
      exact hs2
    · rw [hf]
      exact hu2
    · rw [hf0]
    · rw [hf0]
      exact hc0
    · intro a hpa hua hba
      obtain ⟨a1, hfa, hca, hua1, hsa1, hla1⟩ := async_flush_idle a hpa hua hba
      rw [hfa]
      exact ⟨rfl, hca, hua1, hsa1, hla1⟩
    · rw [hf, hf3]
    · rw [hf, hf3]
      exact hc3.trans hc2

theorem async_coalescing_witness :
    [[1, 2], [3]].flatten ≠ [] ∧ [[1, 2], [3]].flatten.length ≤ bufSize ∧
    sinkCalls (((NewAsyncWriter okEnv).writeAll [[1, 2], [3]]).1.Flush).1.Writer.trace
      = [[[1, 2], [3]].flatten] :=
  ⟨by decide, by decide,
   (async_coalescing okEnv (fun _ _ => rfl) [[1, 2], [3]] (by decide) (by decide)).2.2.2.1⟩

/-! ## Field count and final byte of a `$MyINFO` line -/

/-- `SplitN` gives the pieces of `Split`, cut off at `n` pieces. -/
theorem splitN_length (sep : Nat) (s : Bytes) (n : Nat) :
    (splitN sep n s).length = min n (split sep s).length := by
  induction s generalizing n with
  | nil =>
    cases n with
    | zero => simp [splitN]
    | succ n => simp [splitN, split]
  | cons c cs ih =>
    cases n with
    | zero => simp [splitN]
    | succ n =>
      have hne := split_ne_nil sep (c :: cs)
      have hpos : 1 ≤ (split sep (c :: cs)).length := by
        cases h : split sep (c :: cs) with
        | nil => exact absurd h hne
        | cons f fs => simp
      by_cases hn : n = 0
      · subst hn
        have : splitN sep 1 (c :: cs) = [c :: cs] := by simp [splitN]
        rw [this]
        simp only [List.length_singleton]
        omega
      · by_cases hc : c = sep
        · have e1 : splitN sep (n + 1) (c :: cs) = [] :: splitN sep n cs := by
            rw [splitN]
            simp [hn, hc]
          have e2 : split sep (c :: cs) = [] :: split sep cs := by
            rw [split]
            simp [hc]
          rw [e1, e2, List.length_cons, List.length_cons, ih n]
          omega
        · have e1 : (splitN sep (n + 1) (c :: cs)).length = (splitN sep (n + 1) cs).length := by
            rw [splitN]
            simp only [hn, hc, if_false]
            cases h : splitN sep (n + 1) cs with
            | nil => exact absurd h (splitN_ne_nil sep n cs)
            | cons f fs => simp
          have e2 : (split sep (c :: cs)).length = (split sep cs).length := by
            rw [split]
            simp only [hc, if_false]
            cases h : split sep cs with
            | nil => exact absurd h (split_ne_nil sep cs)
            | cons f fs => simp
          rw [e1, e2, ih (n + 1)]

/-- `SplitN` with room for all the pieces is `Split`. -/
theorem splitN_eq_split (sep : Nat) (s : Bytes) (n : Nat) (h : (split sep s).length ≤ n) :
    splitN sep n s = split sep s := by
  induction s generalizing n with
  | nil =>
    cases n with
    | zero => simp [split] at h
    | succ n => simp [splitN, split]
  | cons c cs ih =>
    cases n with
    | zero =>
      have hne := split_ne_nil sep (c :: cs)
      cases h0 : split sep (c :: cs) with
      | nil => exact absurd h0 hne
      | cons f fs =>
        rw [h0] at h
        simp at h
    | succ n =>
      by_cases hc : c = sep
      · have e2 : split sep (c :: cs) = [] :: split sep cs := by
          rw [split]
          simp [hc]
        rw [e2, List.length_cons] at h
        have hn : n ≠ 0 := by
          intro h0
          have hne := split_ne_nil sep cs
          cases h1 : split sep cs with
          | nil => exact absurd h1 hne
          | cons f fs =>
            rw [h1] at h
            simp at h
            omega
        have e1 : splitN sep (n + 1) (c :: cs) = [] :: splitN sep n cs := by
          rw [splitN]
          simp [hn, hc]
        rw [e1, e2, ih n (by omega)]
      · have e2 : (split sep (c :: cs)).length = (split sep cs).length := by
          rw [split]
          simp only [hc, if_false]
          cases h1 : split sep cs with
          | nil => exact absurd h1 (split_ne_nil sep cs)
          | cons f fs => simp
        rw [e2] at h
        have ihc := ih (n + 1) h
        by_cases hn : n = 0
        · subst hn
          have e1 : splitN sep 1 (c :: cs) = [c :: cs] := by simp [splitN]
          have e3 : splitN sep 1 cs = [cs] := by
            cases cs with
            | nil => simp [splitN]
            | cons d ds => simp [splitN]
          rw [e1, split]
          simp only [hc, if_false]
          rw [← ihc, e3]
        · rw [splitN, split]
          simp only [hn, hc, if_false]
          rw [ihc]

theorem length_five {α : Type} (l : List α) (h : l.length = 5) :
    ∃ a b c d e, l = [a, b, c, d, e] := by
  match l, h with
  | [a, b, c, d, e], _ => exact ⟨a, b, c, d, e, rfl⟩

/-- The two ways out of the field-count check, for a remainder that has a
final byte. -/
theorem unmarshalBody_count (c : TextCodec) (m : MyINFO) (b : Bytes) (x : Nat) :
    ((splitN 36 6 b).length = 5 →
      ∃ f1 f2 f3 f4 f5, splitN 36 6 b = [f1, f2, f3, f4, f5] ∧
        unmarshalBody c m (b ++ [x]) = unmarshalSplit c m f1 f2 f3 f4 f5) ∧
    ((splitN 36 6 b).length ≠ 5 →
      unmarshalBody c m (b ++ [x]) = Res.fail (Err.badInfo (b ++ [x])) m) := by
  constructor
  · intro h
    obtain ⟨f1, f2, f3, f4, f5, hs⟩ := length_five _ h
    refine ⟨f1, f2, f3, f4, f5, hs, ?_⟩
    unfold unmarshalBody
    simp only [sliceTo_append_singleton]
    rw [hs]
  · intro h
    unfold unmarshalBody
    simp only [sliceTo_append_singleton]
    split
    · rename_i f1 f2 f3 f4 f5 hs
      rw [hs] at h
      exact absurd rfl h
    · rfl

/-- C12. Field-count validation in `MyINFO.UnmarshalNMDC`. On a line made of
`$ALL `, a name without a space that the codec decodes, a space, a remainder
`body` and one final byte: when `body` splits on `$` into exactly 5 fields the
decoder goes on to decode these five fields, and when it splits into any other
number of fields (4 or fewer, 6 or more) the decoder returns the
field-count error, the record holding the name only. A line that does not
start with `$ALL ` is rejected with the wrong-prefix error, the record
unchanged. When nothing follows the space after the name, however, the decoder
neither goes on nor returns an error: the slice `data[:l-1]` is out of range. -/
theorem myINFO_field_count (c : TextCodec) (m : MyINFO) (name nm body : Bytes) (x : Nat)
    (hname : 32 ∉ name) (hdec : c.unmarshalName name = Except.ok nm) :
    ((split 36 body).length = 5 →
      ∃ f1 f2 f3 f4 f5, split 36 body = [f1, f2, f3, f4, f5] ∧
        MyINFO.UnmarshalNMDC c m (str "$ALL " ++ name ++ str " " ++ (body ++ [x]))
          = unmarshalSplit c { m with Name := nm } f1 f2 f3 f4 f5) ∧
    ((split 36 body).length ≠ 5 →
      MyINFO.UnmarshalNMDC c m (str "$ALL " ++ name ++ str " " ++ (body ++ [x]))
        = Res.fail (Err.badInfo (body ++ [x])) { m with Name := nm }) ∧
    (∀ data, hasPrefix data (str "$ALL ") = false →
      MyINFO.UnmarshalNMDC c m data = Res.fail Err.wrongPrefix m) ∧
    MyINFO.UnmarshalNMDC c m (str "$ALL " ++ name ++ str " ") = Res.panic := by
  have hlen := splitN_length 36 body 6
  have hbody : MyINFO.UnmarshalNMDC c m (str "$ALL " ++ name ++ str " " ++ (body ++ [x]))
      = unmarshalBody c { m with Name := nm } (body ++ [x]) := by
    rw [unmarshal_after_name c m name _ hname, hdec]
  refine ⟨fun h => ?_, fun h => ?_, fun data h => ?_, ?_⟩
  · have h5 : (splitN 36 6 body).length = 5 := by
      rw [hlen, h]
      rfl
    obtain ⟨f1, f2, f3, f4, f5, hs, hu⟩ := (unmarshalBody_count c { m with Name := nm } body x).1 h5
    refine ⟨f1, f2, f3, f4, f5, ?_, ?_⟩
    · rw [← splitN_eq_split 36 body 6 (by omega)]
      exact hs
    · rw [hbody]
      exact hu
  · have h5 : (splitN 36 6 body).length ≠ 5 := by
      rw [hlen]
      omega
    rw [hbody]
    exact (unmarshalBody_count c { m with Name := nm } body x).2 h5
  · unfold MyINFO.UnmarshalNMDC
    rw [h]
    rfl
  · have h := unmarshal_after_name c m name [] hname
    rw [List.append_nil] at h
    rw [h, hdec]
    rfl

theorem myINFO_field_count_witness :
    MyINFO.UnmarshalNMDC plainCodec {} (str "$ALL " ++ str "bob" ++ str " " ++ (str "a$b$c$d" ++ [36]))
        = Res.fail (Err.badInfo (str "a$b$c$d" ++ [36])) { Name := str "bob" } ∧
    MyINFO.UnmarshalNMDC plainCodec {} (str "$ALL " ++ str "bob" ++ str " ") = Res.panic :=
  ⟨(myINFO_field_count plainCodec {} (str "bob") (str "bob") (str "a$b$c$d") 36
      (by decide) rfl).2.1 (by decide),
   (myINFO_field_count plainCodec {} (str "bob") (str "bob") (str "a$b$c$d") 36
      (by decide) rfl).2.2.2⟩

/-- C20. The final byte of a `$MyINFO` line is discarded unchecked: on the
lines `$ALL `, a name without a space, a space, `b` and a final byte `x` or
`y`, the decoder succeeds on the one exactly when it succeeds on the other,
with the same decoded record; in fact the two outcomes are equal, except when
both calls return the field-count error, whose text quotes the remainder with
its final byte, and then the records left behind are equal. The final byte is
not required to be `$`. -/
theorem myINFO_last_byte_unchecked (c : TextCodec) (m : MyINFO) (name b : Bytes) (x y : Nat)
    (hname : 32 ∉ name) :
    (∀ r, MyINFO.UnmarshalNMDC c m (str "$ALL " ++ name ++ str " " ++ (b ++ [x])) = Res.ok r ↔
      MyINFO.UnmarshalNMDC c m (str "$ALL " ++ name ++ str " " ++ (b ++ [y])) = Res.ok r) ∧
    (MyINFO.UnmarshalNMDC c m (str "$ALL " ++ name ++ str " " ++ (b ++ [x]))
        = MyINFO.UnmarshalNMDC c m (str "$ALL " ++ name ++ str " " ++ (b ++ [y])) ∨
      ∃ r,
        MyINFO.UnmarshalNMDC c m (str "$ALL " ++ name ++ str " " ++ (b ++ [x]))
          = Res.fail (Err.badInfo (b ++ [x])) r ∧
        MyINFO.UnmarshalNMDC c m (str "$ALL " ++ name ++ str " " ++ (b ++ [y]))
          = Res.fail (Err.badInfo (b ++ [y])) r) := by
  rw [unmarshal_after_name c m name _ hname, unmarshal_after_name c m name _ hname]
  cases c.unmarshalName name with
  | error e => exact ⟨fun r => Iff.rfl, Or.inl rfl⟩
  | ok nm =>
    simp only
    by_cases h5 : (splitN 36 6 b).length = 5
    · obtain ⟨f1, f2, f3, f4, f5, hs, hx⟩ := (unmarshalBody_count c { m with Name := nm } b x).1 h5
      obtain ⟨g1, g2, g3, g4, g5, hs2, hy⟩ :=
        (unmarshalBody_count c { m with Name := nm } b y).1 h5
      rw [hs] at hs2
      injection hs2 with e1 hs2
      injection hs2 with e2 hs2
      injection hs2 with e3 hs2
      injection hs2 with e4 hs2
      injection hs2 with e5 hs2
      subst e1 e2 e3 e4 e5
      rw [hx, hy]
      exact ⟨fun r => Iff.rfl, Or.inl rfl⟩
    · have hx := (unmarshalBody_count c { m with Name := nm } b x).2 h5
      have hy := (unmarshalBody_count c { m with Name := nm } b y).2 h5
      rw [hx, hy]
      refine ⟨fun r => ?_, Or.inr ⟨_, rfl, rfl⟩⟩
      constructor <;> intro h <;> cases h

theorem myINFO_last_byte_unchecked_witness :
    MyINFO.UnmarshalNMDC plainCodec {} (str "$ALL " ++ str "bob" ++ str " " ++ (str "$ $A$$0" ++ [36]))
        = MyINFO.UnmarshalNMDC plainCodec {}
            (str "$ALL " ++ str "bob" ++ str " " ++ (str "$ $A$$0" ++ [33])) ∨
      ∃ r,
        MyINFO.UnmarshalNMDC plainCodec {}
            (str "$ALL " ++ str "bob" ++ str " " ++ (str "$ $A$$0" ++ [36]))
          = Res.fail (Err.badInfo (str "$ $A$$0" ++ [36])) r ∧
        MyINFO.UnmarshalNMDC plainCodec {}
            (str "$ALL " ++ str "bob" ++ str " " ++ (str "$ $A$$0" ++ [33]))
          = Res.fail (Err.badInfo (str "$ $A$$0" ++ [33])) r :=
  (myINFO_last_byte_unchecked plainCodec {} (str "bob") (str "$ $A$$0") 36 33 (by decide)).2

/-! ## The client name in `unmarshalTag` -/

theorem index_some_drop (sep : Bytes) (s : Bytes) (i : Nat) (h : index sep s = some i) :
    hasPrefix (s.drop i) sep = true := by
  induction s generalizing i with
  | nil =>
    unfold index at h
    by_cases hp : hasPrefix [] sep = true
    · simpa using hp
    · rw [if_neg hp] at h
      cases h
  | cons c cs ih =>
    unfold index at h
    by_cases hp : hasPrefix (c :: cs) sep = true
    · rw [if_pos hp] at h
      injection h with h
      subst h
      exact hp
    · rw [if_neg hp] at h
      cases hi : index sep cs with
      | none =>
        rw [hi] at h
        cases h
      | some j =>
        rw [hi] at h
        injection h with h
        subst h
        exact ih j hi

theorem tagHubs_client (st : TagState) (val : Bytes) :
    (tagHubs st val).1.client = st.client := by
  unfold tagHubs
  split
  · simp only
    split
    · rfl
    · split
      · rfl
      · split <;> rfl
  · rfl

/-- The only round that sets `client` is the one at index 0, on a non-empty
field without `:`. -/
theorem tagField_client (st : TagState) (r : Nat) (field : Bytes) :
    (tagField st r field).1.client =
      if r < 1 ∧ field.length ≠ 0 ∧ index (str ":") field = none then field
      else st.client := by
  unfold tagField
  by_cases hl : field.length = 0
  · rw [if_pos hl, if_neg (fun h => h.2.1 hl)]
  · rw [if_neg hl]
    cases hi : index (str ":") field with
    | none =>
      simp only
      by_cases hr : r < 1
      · rw [if_pos hr, if_pos ⟨hr, hl, trivial⟩]
      · rw [if_neg hr, if_neg (fun h => hr h.1)]
    | some i =>
      have hcond : ¬ (r < 1 ∧ field.length ≠ 0 ∧ (some i : Option Nat) = none) :=
        fun h => Option.noConfusion h.2.2
      rw [if_neg hcond]
      simp only
      split
      · rfl
      · split
        · split <;> rfl
        · split
          · split
            · rfl
            · exact tagHubs_client st _
          · split
            · split <;> rfl
            · rfl

theorem tagField_bad (st : TagState) (r : Nat) (field : Bytes) (hr : 1 ≤ r)
    (hne : field ≠ []) (hi : index (str ":") field = none) :
    tagField st r field = (st, some (Err.unknownTagField field)) := by
  unfold tagField
  have hl : ¬ field.length = 0 := fun h => hne (List.length_eq_zero.mp h)
  rw [if_neg hl, hi]
  simp only
  rw [if_neg (by omega)]

theorem tagLoop_client (fs : List Bytes) (st : TagState) (r : Nat) (hr : 1 ≤ r) :
    (tagLoop st r fs).1.client = st.client := by
  induction fs generalizing st r with
  | nil => rfl
  | cons f fs ih =>
    have hc := tagField_client st r f
    rw [if_neg (fun h => by omega)] at hc
    unfold tagLoop
    cases hf : tagField st r f with
    | mk st1 e =>
      rw [hf] at hc
      cases e with
      | some e => exact hc
      | none =>
        simp only
        rw [ih st1 (r + 1) (by omega)]
        exact hc

theorem tagLoop_bad (fs : List Bytes) (st : TagState) (r : Nat) (hr : 1 ≤ r)
    (hbad : ∃ f ∈ fs, f ≠ [] ∧ index (str ":") f = none) :
    (tagLoop st r fs).2 ≠ none := by
  induction fs generalizing st r with
  | nil =>
    obtain ⟨f, hf, -⟩ := hbad
    cases hf
  | cons f fs ih =>
    unfold tagLoop
    cases hf : tagField st r f with
    | mk st1 e =>
      cases e with
      | some e => simp
      | none =>
        simp only
        apply ih st1 (r + 1) (by omega)
        obtain ⟨g, hg, hne, hi⟩ := hbad
        rcases List.mem_cons.mp hg with rfl | hg
        · rw [tagField_bad st r g hr hne hi] at hf
          cases hf
        · exact ⟨g, hg, hne, hi⟩

/-- The error of `unmarshalTag` is the one of the loop, and on success the
client name is the final value of `client`. -/
theorem unmarshalTag_client (m : MyINFO) (tag : Bytes) :
    (m.unmarshalTag tag).2
      = (tagLoop { m := m, client := (tagSplit tag).1, extra := [] } 0 (tagSplit tag).2).2 ∧
    ((m.unmarshalTag tag).2 = none →
      (m.unmarshalTag tag).1.Client
        = (tagLoop { m := m, client := (tagSplit tag).1, extra := [] } 0
            (tagSplit tag).2).1.client) := by
  unfold MyINFO.unmarshalTag
  cases hl : tagLoop { m := m, client := (tagSplit tag).1, extra := [] } 0 (tagSplit tag).2 with
  | mk st e =>
    cases e with
    | some e =>
      refine ⟨rfl, fun h => ?_⟩
      cases h
    | none =>
      refine ⟨rfl, fun _ => ?_⟩
      simp only
      split <;> rfl

/-- The loop from index 0 on a list of fields whose head is `f0`. -/
theorem tagLoop_zero (st : TagState) (f0 : Bytes) (rest : List Bytes) :
    ((∃ f ∈ rest, f ≠ [] ∧ index (str ":") f = none) →
      (tagLoop st 0 (f0 :: rest)).2 ≠ none) ∧
    (tagLoop st 0 (f0 :: rest)).1.client =
      if f0.length ≠ 0 ∧ index (str ":") f0 = none then f0 else st.client := by
  have hc := tagField_client st 0 f0
  unfold tagLoop
  cases hf : tagField st 0 f0 with
  | mk st1 e =>
    rw [hf] at hc
    have hc1 : st1.client = if f0.length ≠ 0 ∧ index (str ":") f0 = none then f0
        else st.client := by
      rw [show st1.client = _ from hc]
      by_cases h : f0.length ≠ 0 ∧ index (str ":") f0 = none
      · rw [if_pos ⟨by decide, h⟩, if_pos h]
      · rw [if_neg (fun h1 => h h1.2), if_neg h]
    cases e with
    | some e => exact ⟨fun _ => by simp, hc1⟩
    | none =>
      simp only
      refine ⟨fun hbad => tagLoop_bad rest st1 1 (by decide) hbad, ?_⟩
      rw [tagLoop_client rest st1 (0 + 1) (by decide)]
      exact hc1

theorem split_head_colon (k : Nat) (hk : k ≠ 44) (t : Bytes) :
    ∃ f fs, split 44 (k :: 58 :: t) = (k :: 58 :: f) :: fs := by
  have h58 : (58 : Nat) ≠ 44 := by decide
  cases hs : split 44 t with
  | nil => exact absurd hs (split_ne_nil 44 t)
  | cons f fs =>
    refine ⟨f, fs, ?_⟩
    rw [split, if_neg hk, split, if_neg h58, hs]

theorem index_colon_second (k : Nat) (hk : k ≠ 58) (f : Bytes) :
    index (str ":") (k :: 58 :: f) = some 1 := by
  rw [str_colon]
  simp [index, hasPrefix, hk]

/-- With a marker at `i` (three bytes, a space, `k` and `:`), the client name
is the text before the marker. -/
theorem tagLoop_marker (m : MyINFO) (tag : Bytes) (i k : Nat) (hk : k ≠ 44) (hk2 : k ≠ 58)
    (hp : hasPrefix (tag.drop i) [32, k, 58] = true) (client : Bytes) :
    (tagLoop { m := m, client := client, extra := [] } 0
        (split 44 (tag.drop (i + 1)))).1.client = client := by
  obtain ⟨t, ht⟩ := (hasPrefix_iff _ _).1 hp
  have hd : tag.drop (i + 1) = k :: 58 :: t := by
    have : tag.drop (i + 1) = (tag.drop i).drop 1 := by
      rw [List.drop_drop, Nat.add_comm]
    rw [this, ht]
    rfl
  obtain ⟨f, fs, hs⟩ := split_head_colon k hk t
  rw [hd, hs, (tagLoop_zero _ _ _).2, index_colon_second k hk2 f]
  have hcond : ¬ ((k :: 58 :: f).length ≠ 0 ∧ (some 1 : Option Nat) = none) :=
    fun h => Option.noConfusion h.2
  rw [if_neg hcond]

/-- C18 (counterexample). The client name is not looked for among all the
fields: the tag `M:A,++` does not decode, the field `++` at index 1 being
reported as unknown, while `++,M:A` decodes with Mode = Active and
Client = `++`. -/
theorem client_fallback_only_at_index_zero :
    (MyINFO.unmarshalTag {} (str "M:A,++")).2 = some (Err.unknownTagField (str "++")) ∧
    MyINFO.unmarshalTag {} (str "++,M:A")
      = ({ Mode := UserModeActive, Client := str "++" }, none) := by
  constructor <;> decide

/-- C18 (amended). Client name in `MyINFO.unmarshalTag`. For a tag block that
contains neither ` V:` nor ` v:`, split on `,`: every non-empty field without
`:` at index 1 or later makes decoding fail, and when decoding succeeds the
client name is the field at index 0 if that field has no `:`, and empty
otherwise. When the marker is present (the first ` V:`, or else the first
` v:`) and decoding succeeds, the client name is the text before it. -/
theorem client_name_fallback (m : MyINFO) (tag : Bytes) :
    (index (str " V:") tag = none → index (str " v:") tag = none →
      ((∃ f ∈ (split 44 tag).tail, f ≠ [] ∧ index (str ":") f = none) →
        (m.unmarshalTag tag).2 ≠ none) ∧
      ((m.unmarshalTag tag).2 = none →
        (m.unmarshalTag tag).1.Client =
          if index (str ":") ((split 44 tag).headD []) = none then (split 44 tag).headD []
          else [])) ∧
    (∀ i, index (str " V:") tag = some i → (m.unmarshalTag tag).2 = none →
      (m.unmarshalTag tag).1.Client = tag.take i) ∧
    (∀ i, index (str " V:") tag = none → index (str " v:") tag = some i →
      (m.unmarshalTag tag).2 = none → (m.unmarshalTag tag).1.Client = tag.take i) := by
  obtain ⟨herr, hcl⟩ := unmarshalTag_client m tag
  refine ⟨fun h1 h2 => ?_, fun i h1 hok => ?_, fun i h1 h2 hok => ?_⟩
  · have hsplit : tagSplit tag = ([], split 44 tag) := by
      unfold tagSplit
      rw [h1, h2]
    rw [hsplit] at herr hcl
    cases hs : split 44 tag with
    | nil => exact absurd hs (split_ne_nil 44 tag)
    | cons f0 rest =>
      rw [hs] at herr hcl
      have hz := tagLoop_zero { m := m, client := [], extra := [] } f0 rest
      refine ⟨fun hbad => ?_, fun hok => ?_⟩
      · rw [herr]
        exact hz.1 hbad
      · rw [hcl hok, hz.2]
        show (if f0.length ≠ 0 ∧ index (str ":") f0 = none then f0 else [])
          = if index (str ":") f0 = none then f0 else []
        by_cases hi : index (str ":") f0 = none
        · rw [if_pos hi]
          by_cases hl : f0.length ≠ 0
          · rw [if_pos ⟨hl, hi⟩]
          · rw [if_neg (fun h => hl h.1)]
            have : f0.length = 0 := by omega
            exact (List.length_eq_zero.mp this).symm
        · rw [if_neg hi, if_neg (fun h => hi h.2)]
  · have hsplit : tagSplit tag = (tag.take i, split 44 (tag.drop (i + 1))) := by
      unfold tagSplit
      rw [h1]
    rw [hsplit] at hcl
    rw [hcl hok]
    exact tagLoop_marker m tag i 86 (by decide) (by decide) (index_some_drop _ _ _ h1) _
  · have hsplit : tagSplit tag = (tag.take i, split 44 (tag.drop (i + 1))) := by
      unfold tagSplit
      rw [h1, h2]
    rw [hsplit] at hcl
    rw [hcl hok]
    exact tagLoop_marker m tag i 118 (by decide) (by decide) (index_some_drop _ _ _ h2) _

theorem client_name_fallback_witness :
    (MyINFO.unmarshalTag {} (str "M:A,++")).2 ≠ none ∧
    (MyINFO.unmarshalTag {} (str "++,M:A")).1.Client =
      (if index (str ":") ((split 44 (str "++,M:A")).headD []) = none
        then (split 44 (str "++,M:A")).headD [] else []) ∧
    (MyINFO.unmarshalTag {} (str "++ V:1,M:A")).1.Client = (str "++ V:1,M:A").take 2 :=
  ⟨((client_name_fallback {} (str "M:A,++")).1 (by decide) (by decide)).1
      ⟨str "++", by decide, by decide, by decide⟩,
   ((client_name_fallback {} (str "++,M:A")).1 (by decide) (by decide)).2 (by decide),
   (client_name_fallback {} (str "++ V:1,M:A")).2.1 2 (by decide) (by decide)⟩

/-! ## The sticky error and `DisableZlib` -/

/-- C3. Sticky error on the write path. Once a `WriteLine`, `Flush` or
`EndBatch` has failed with an `ext` error `e` (of the sink, of the compressor,
of the timeout callback or of a hook), then after any sequence of further calls
of any of the six operations in which `DisableZlib` is not called while
compression is active, a `WriteLine`, `Flush` or `StartBatch` returns exactly
`e` and calls no collaborator: the trace, hence the list of the sink's `Write`
calls, is as the failed call left it. A `DisableZlib` called while compression
is active breaks this: with a hook that fails with `ext 7` and a compressor
whose `Close` fails with `ext 8`, after `EnableZlib`, the failing
`WriteLine` and `DisableZlib`, the calls `WriteLine`, `Flush` and `StartBatch`
return `ext 8`, not `ext 7`. -/
theorem sticky_error_write_path (w : Writer) (hs : w.errNolock = w.err) (op : Op)
    (hop : op.isWriteFlushEnd = true) (code : Nat)
    (hfail : (w.step op).2 = some (WErr.ext code)) :
    (∀ ops : List Op, ((∀ o ∈ ops, o.isNotDisable = true) ∨ (w.step op).1.zlibOn = false) →
      ∀ o : Op, o.isWriteFlushStart = true →
        (((w.step op).1.run ops).1.step o).2 = some (WErr.ext code) ∧
        (((w.step op).1.run ops).1.step o).1.trace = (w.step op).1.trace ∧
        sinkCalls (((w.step op).1.run ops).1.step o).1.trace
          = sinkCalls (w.step op).1.trace) ∧
    (((NewWriter closeFailEnv).OnLine failHook).run [Op.enableZlib, Op.writeLine [1]]).2
      = [none, some (WErr.ext 7)] ∧
    (((NewWriter closeFailEnv).OnLine failHook).run
        [Op.enableZlib, Op.writeLine [1], Op.disableZlib,
          Op.writeLine [2], Op.flush, Op.startBatch]).2
      = [none, some (WErr.ext 7), some (WErr.ext 8),
          some (WErr.ext 8), some (WErr.ext 8), some (WErr.ext 8)] := by
  have hl := step_latches w hs op hop code hfail
  refine ⟨fun ops hops o ho => ?_, by decide, by decide⟩
  obtain ⟨htr, hl2, -, -⟩ := run_latched_policy ops (w.step op).1 (WErr.ext code) hl hops
  rw [step_of_latched _ (WErr.ext code) hl2 o ho]
  exact ⟨rfl, htr, by rw [htr]⟩

theorem sticky_error_write_path_witness :
    ((((NewWriter failEnv).step (Op.writeLine [1])).1.run
        [Op.endBatch false, Op.enableZlib, Op.disableZlib, Op.startBatch]).1.step Op.flush).2
      = some (WErr.ext 7) ∧
    ((((NewWriter failEnv).step (Op.writeLine [1])).1.run
        [Op.endBatch false, Op.enableZlib, Op.disableZlib, Op.startBatch]).1.step Op.flush).1.trace
      = ((NewWriter failEnv).step (Op.writeLine [1])).1.trace ∧
    sinkCalls ((((NewWriter failEnv).step (Op.writeLine [1])).1.run
        [Op.endBatch false, Op.enableZlib, Op.disableZlib, Op.startBatch]).1.step Op.flush).1.trace
      = sinkCalls ((NewWriter failEnv).step (Op.writeLine [1])).1.trace :=
  (sticky_error_write_path (NewWriter failEnv) rfl (Op.writeLine [1]) rfl 7 (by decide)).1
    [Op.endBatch false, Op.enableZlib, Op.disableZlib, Op.startBatch] (Or.inr rfl)
    Op.flush rfl

end GoDC
